import Mathlib

/-! bmfont2h: descriptor parser and table emitter

A shallow embedding of `bmfont/font.go`, `bmfont/parse.go` and
`bmfont/emit_c.go`.

Conventions of the embedding
* The output of `EmitCFont` is a list of pieces (`Out`), one for each
  `b.WriteString` of the source, and the text is the concatenation of their
  renderings.
* What the parser takes from outside the repository (the name normalisation,
  `filepath.Join`, `filepath.Dir`, the file system) is a parameter `Env`.
* The `bufio.Scanner` of `ParseDescriptor` is the list of the lines of the text
  together with its limit: a line of `MaxScanTokenSize` bytes or more ends the
  scan with an error.
* Go strings are lists of code points (`GoString`).
* Go's fixed-width integers are `Nat`/`Int` with the reduction modulo `2^w`
  written out where the source converts or adds (`uint32(val)`, `EndChar+1`).
  `4294967296` is `2^32`.
* Slices are lists; a map `map[uint32]int16` is an association list with at
  most one entry per key, and `none` is the `nil` map.
* A function that can return an error or stop with a run-time panic returns
  `Except Fault _`.
-/

/-- A code point of a Go string. -/
abbrev Rune := Char

namespace Bmfont

/-- Go `string`, as its sequence of code points. -/
abbrev GoString := List Rune

/-- How a call can fail: with a returned `error`, with a run-time panic, or with
`log.Fatalf`, which ends the process. -/
inductive Fault where
  | error
  | panic
  | fatal
deriving DecidableEq, Repr

deriving instance DecidableEq for Except

/-! ## font.go -/

/-- Go `type ChannelType string`. -/
abbrev ChannelType := GoString

/-- Go `map[uint32]int16`: second char - amount. -/
abbrev KerningMap := List (Nat × Int)

/-- Defines char metadata (`type Char struct`). -/
structure Char where
  ID : Nat := 0
  X : Nat := 0
  Y : Nat := 0
  Width : Nat := 0
  Height : Nat := 0
  XOffset : Int := 0
  YOffset : Int := 0
  XAdvance : Int := 0
  Page : Nat := 0
  Channels : Nat := 0
  Kernings : Option KerningMap := none
deriving DecidableEq, Repr

/-- Defines a single bucket that contains consecutive chars (`type Bucket struct`). -/
structure Bucket where
  StartChar : Nat
  EndChar : Nat
  Chars : List Char
deriving DecidableEq, Repr

/-- Defines a single page (`type Page struct`); `PageData` is the content of the
opened file, as bytes. -/
structure Page where
  PageSize : Nat
  PageData : List Nat
deriving DecidableEq, Repr

/-- Defines basic font metadata (`type Font struct`). -/
structure Font where
  Name : GoString := []
  Size : Nat := 0
  LineHeight : Nat := 0
  AType : ChannelType := []
  RType : ChannelType := []
  GType : ChannelType := []
  BType : ChannelType := []
  ScaleH : Nat := 0
  ScaleW : Nat := 0
  Base : Nat := 0
  IsPacked : Nat := 0
  Buckets : List Bucket := []
  Pages : List Page := []
deriving DecidableEq, Repr

/-- The value of `&Font{}`. -/
def emptyFont : Font := {}

/-! ## parse.go: insertChar -/

/-- The loop of `insertChar` over `f.Buckets`: the first bucket with
`newChar.ID == bucket.EndChar+1` (in `uint32`) is extended, and when the loop
ends without a match a singleton bucket is appended. -/
def insertBuckets (newChar : Char) : List Bucket → List Bucket
  | [] => [{ StartChar := newChar.ID, EndChar := newChar.ID, Chars := [newChar] }]
  | bucket :: rest =>
    if newChar.ID = (bucket.EndChar + 1) % 4294967296 then
      { bucket with EndChar := newChar.ID, Chars := bucket.Chars ++ [newChar] } :: rest
    else
      bucket :: insertBuckets newChar rest

/-- Adds char to a bucket. -/
def Font.insertChar (f : Font) (newChar : Char) : Font :=
  { f with Buckets := insertBuckets newChar f.Buckets }

/-- A sequence of `insertChar` calls, in order. -/
def insertChars (f : Font) (cs : List Char) : Font :=
  cs.foldl Font.insertChar f

/-! ## Go library functions used by the parser -/

/-- Go `unicode.IsSpace`. -/
def isSpace (r : Rune) : Bool :=
  let n := r.toNat
  (9 ≤ n ∧ n ≤ 13) ∨ n = 32 ∨ n = 133 ∨ n = 160 ∨ n = 5760 ∨ (8192 ≤ n ∧ n ≤ 8202) ∨
    n = 8232 ∨ n = 8233 ∨ n = 8239 ∨ n = 8287 ∨ n = 12288

/-- The scan of `strings.Fields`; `cur` is the field being read. -/
def fieldsAux (cur : GoString) : List Rune → List GoString
  | [] => if cur = [] then [] else [cur]
  | r :: rest =>
    if isSpace r then
      if cur = [] then fieldsAux [] rest else cur :: fieldsAux [] rest
    else fieldsAux (cur ++ [r]) rest

/-- Go `strings.Fields`: the maximal runs of non-space code points. -/
def fields (s : GoString) : List GoString := fieldsAux [] s

/-- The scan of `strings.Split` for a one-rune separator; `cur` is the piece being read. -/
def splitAux (sep : Rune) (cur : GoString) : List Rune → List GoString
  | [] => [cur]
  | r :: rest => if r = sep then cur :: splitAux sep [] rest else splitAux sep (cur ++ [r]) rest

/-- Go `strings.Split(field, "=")`. -/
def splitEq (field : GoString) : List GoString := splitAux '=' [] field

/-- The decimal digits of `strconv.Atoi`, most significant first; `none` is a syntax error. -/
def atoiDigits (acc : Nat) : List Rune → Option Nat
  | [] => some acc
  | r :: rest =>
    if 48 ≤ r.toNat ∧ r.toNat ≤ 57 then atoiDigits (acc * 10 + (r.toNat - 48)) rest else none

/-- Go `strconv.Atoi` on a 64-bit platform: an optional sign, one or more decimal
digits, and a value that fits `int64`; `none` is the returned error. -/
def atoi (s : GoString) : Option Int :=
  match s with
  | [] => none
  | r :: rest =>
    if r = '-' then
      match rest with
      | [] => none
      | _ => (atoiDigits 0 rest).bind fun n =>
          if n ≤ 9223372036854775808 then some (-(n : Int)) else none
    else
      let digits := if r = '+' then rest else s
      match digits with
      | [] => none
      | _ => (atoiDigits 0 digits).bind fun n =>
          if n ≤ 9223372036854775807 then some (n : Int) else none

/-- Go conversion `uint32(val)`. -/
def toUint32 (val : Int) : Nat := (val % 4294967296).toNat

/-- Go conversion `uint16(val)`. -/
def toUint16 (val : Int) : Nat := (val % 65536).toNat

/-- Go conversion `uint8(val)`. -/
def toUint8 (val : Int) : Nat := (val % 256).toNat

/-- Go conversion `int16(val)`. -/
def toInt16 (val : Int) : Int := (val + 32768) % 65536 - 32768

/-! ## parse.go: parseChar -/

/-- The `switch fv[0]` of `parseChar`. -/
def charSwitch (newChar : Char) (key : GoString) (val : Int) : Char :=
  if key = "id".toList then { newChar with ID := toUint32 val }
  else if key = "x".toList then { newChar with X := toUint16 val }
  else if key = "y".toList then { newChar with Y := toUint16 val }
  else if key = "width".toList then { newChar with Width := toUint16 val }
  else if key = "height".toList then { newChar with Height := toUint16 val }
  else if key = "xoffset".toList then { newChar with XOffset := toInt16 val }
  else if key = "yoffset".toList then { newChar with YOffset := toInt16 val }
  else if key = "xadvance".toList then { newChar with XAdvance := toInt16 val }
  else if key = "page".toList then { newChar with Page := toUint8 val }
  else if key = "channels".toList then { newChar with Channels := toUint8 val }
  else newChar

/-- One iteration of the field loop of `parseChar`: a field without `=` and a
field whose value `strconv.Atoi` rejects are skipped. -/
def charField (newChar : Char) (field : GoString) : Char :=
  match splitEq field with
  | key :: value :: _ =>
    match atoi value with
    | none => newChar
    | some val => charSwitch newChar key val
  | _ => newChar

/-- The field loop of `parseChar`: the char decoded from the line. -/
def charFields (line : GoString) : Char :=
  (fields line).foldl charField {}

/-- Parses char tag. -/
def Font.parseChar (f : Font) (line : GoString) : Except Fault Font :=
  .ok (f.insertChar (charFields line))

/-! ## parse.go: parseKerning -/

/-- The locals `first`, `second`, `amount` of `parseKerning`. -/
structure KerningFields where
  first : Nat := 0
  second : Nat := 0
  amount : Int := 0
deriving DecidableEq, Repr

/-- The `switch fv[0]` of `parseKerning`. -/
def kerningSwitch (k : KerningFields) (key : GoString) (val : Int) : KerningFields :=
  if key = "first".toList then { k with first := toUint32 val }
  else if key = "second".toList then { k with second := toUint32 val }
  else if key = "amount".toList then { k with amount := toInt16 val }
  else k

/-- One iteration of the field loop of `parseKerning`: a field without `=` and a
field whose value `strconv.Atoi` rejects are skipped. -/
def kerningField (k : KerningFields) (field : GoString) : KerningFields :=
  match splitEq field with
  | key :: value :: _ =>
    match atoi value with
    | none => k
    | some val => kerningSwitch k key val
  | _ => k

/-- The field loop of `parseKerning`: the triple decoded from the line. -/
def kerningFields (line : GoString) : KerningFields :=
  (fields line).foldl kerningField {}

/-- Go `m[second] = amount` on a non-nil map. -/
def mapSet (second : Nat) (amount : Int) : KerningMap → KerningMap
  | [] => [(second, amount)]
  | (k, v) :: rest =>
    if k = second then (second, amount) :: rest else (k, v) :: mapSet second amount rest

/-- Go `m[second]` with the comma-ok form; a `nil` map has no entries. -/
def mapGet (second : Nat) : KerningMap → Option Int
  | [] => none
  | (k, v) :: rest => if k = second then some v else mapGet second rest

/-- The body run on `bucket.Chars[first-bucket.StartChar]`: the map is made when
it is `nil`, then the pair is stored. -/
def Char.setKerning (c : Char) (second : Nat) (amount : Int) : Char :=
  { c with Kernings := some (mapSet second amount (c.Kernings.getD [])) }

/-- The loop of `parseKerning` over `f.Buckets`. Every bucket whose range holds
`first` is updated (the loop has no `break`); indexing `bucket.Chars` past its
length is a run-time panic. -/
def kerningBuckets (first second : Nat) (amount : Int) : List Bucket → Except Fault (List Bucket)
  | [] => .ok []
  | bucket :: rest =>
    if first ≥ bucket.StartChar ∧ first ≤ bucket.EndChar then
      match bucket.Chars[first - bucket.StartChar]? with
      | none => .error .panic
      | some c =>
        match kerningBuckets first second amount rest with
        | .error e => .error e
        | .ok rest' =>
          .ok ({ bucket with
                  Chars := bucket.Chars.set (first - bucket.StartChar)
                    (c.setKerning second amount) } :: rest')
    else
      match kerningBuckets first second amount rest with
      | .error e => .error e
      | .ok rest' => .ok (bucket :: rest')

/-- Parses kerning tags and adds kerning data to the first char in pair. -/
def Font.parseKerning (f : Font) (line : GoString) : Except Fault Font :=
  let k := kerningFields line
  if k.amount = 0 then .ok f
  else
    match kerningBuckets k.first k.second k.amount f.Buckets with
    | .error e => .error e
    | .ok buckets => .ok { f with Buckets := buckets }

/-- A descriptor line handled by `parseChar` or by `parseKerning`. -/
inductive TagLine where
  | char (line : GoString)
  | kerning (line : GoString)
deriving DecidableEq, Repr

/-- The parser call made for one line. -/
def Font.parseTagLine (f : Font) : TagLine → Except Fault Font
  | .char line => f.parseChar line
  | .kerning line => f.parseKerning line

/-- The scan loop over a sequence of char and kerning lines: it stops at the
first failure. -/
def parseTagLines (f : Font) : List TagLine → Except Fault Font
  | [] => .ok f
  | l :: rest =>
    match f.parseTagLine l with
    | .error e => .error e
    | .ok f' => parseTagLines f' rest

/-! ## parse.go: parseInfo, parseCommon, parsePage and the dispatch of ParseDescriptor -/

/-- What the parser uses from outside the repository: the name normalisation of
`github.com/iancoleman/strcase`, `filepath.Join`, `filepath.Dir`, and the file
system (`os.Stat` gives the size of a file, `os.Open` the file, here its content:
the bytes of a page file, the text of the descriptor; `none` is the returned
error). -/
structure Env where
  toScreamingSnake : GoString → GoString
  joinPath : GoString → GoString → GoString
  stat : GoString → Option Nat
  openFile : GoString → Option (List Nat)
  dirOf : GoString → GoString
  openText : GoString → Option GoString

/-- An environment with the identity as normalisation and without files. -/
def noFiles : Env :=
  { toScreamingSnake := fun s => s, joinPath := fun d n => d ++ "/".toList ++ n,
    stat := fun _ => none, openFile := fun _ => none, dirOf := fun _ => [],
    openText := fun _ => none }

/-- The environment in which every path opens as a descriptor with the given
text, and no page file exists. -/
def oneFile (content : GoString) : Env :=
  { noFiles with openText := fun _ => some content }

/-- Go `strings.Trim(s, "\"")`: the double quotes at both ends are removed. -/
def trimQuotes (s : GoString) : GoString :=
  (((s.dropWhile fun r => r.toNat = 34).reverse).dropWhile fun r => r.toNat = 34).reverse

/-- Go `strings.HasPrefix(s, p)`. -/
def startsWith (s p : GoString) : Bool := p.isPrefixOf s

/-- One iteration of the field loop of `parseInfo`; the `Bool` is `faceField`. -/
def infoField (f : Font) (faceField : Bool) (field : GoString) : Except Fault (Font × Bool) :=
  match splitEq field with
  | key :: value :: _ =>
    if key = "face".toList then .ok ({ f with Name := trimQuotes value }, true)
    else if key = "size".toList then
      match atoi value with
      | none => .error .error
      | some size => .ok ({ f with Size := toUint32 size }, faceField)
    else .ok (f, false)
  | _ =>
    if faceField then .ok ({ f with Name := f.Name ++ " ".toList ++ trimQuotes field }, faceField)
    else .ok (f, faceField)

/-- The field loop of `parseInfo`: it stops at a `size` value that is not read. -/
def infoLoop : Font → Bool → List GoString → Except Fault (Font × Bool)
  | f, faceField, [] => .ok (f, faceField)
  | f, faceField, field :: rest =>
    match infoField f faceField field with
    | .error e => .error e
    | .ok (f', faceField') => infoLoop f' faceField' rest

/-- Parses info tag. -/
def Font.parseInfo (env : Env) (f : Font) (line : GoString) : Except Fault Font :=
  match infoLoop f false (fields line) with
  | .error e => .error e
  | .ok (f', _) => .ok { f' with Name := env.toScreamingSnake f'.Name }

/-- Maps bmfont channel index to ChannelType. -/
def ChannelTypeMapping : List ChannelType :=
  ["CHANNEL_GLYPH".toList, "CHANNEL_OUTLINE".toList, "CHANNEL_GLYPH_OUTLINE".toList,
   "CHANNEL_ZERO".toList, "CHANNEL_ONE".toList]

/-- Go `ChannelTypeMapping[val]` for an `int` index: a negative index and an index
past the end are run-time panics. -/
def channelAt (val : Int) : Except Fault ChannelType :=
  if 0 ≤ val then
    match ChannelTypeMapping[val.toNat]? with
    | some t => .ok t
    | none => .error .panic
  else .error .panic

/-- The `switch fv[0]` of `parseCommon`. -/
def commonSwitch (f : Font) (key : GoString) (val : Int) : Except Fault Font :=
  if key = "lineHeight".toList then .ok { f with LineHeight := toUint32 val }
  else if key = "base".toList then .ok { f with Base := toUint8 val }
  else if key = "scaleW".toList then .ok { f with ScaleW := toUint16 val }
  else if key = "scaleH".toList then .ok { f with ScaleH := toUint16 val }
  else if key = "packed".toList then .ok { f with IsPacked := toUint8 val }
  else if key = "alphaChnl".toList then
    match channelAt val with
    | .error e => .error e
    | .ok t => .ok { f with AType := t }
  else if key = "redChnl".toList then
    match channelAt val with
    | .error e => .error e
    | .ok t => .ok { f with RType := t }
  else if key = "greenChnl".toList then
    match channelAt val with
    | .error e => .error e
    | .ok t => .ok { f with GType := t }
  else if key = "blueChnl".toList then
    match channelAt val with
    | .error e => .error e
    | .ok t => .ok { f with BType := t }
  else .ok f

/-- One iteration of the field loop of `parseCommon`: a field without `=` and a
field whose value `strconv.Atoi` rejects are skipped. -/
def commonField (f : Font) (field : GoString) : Except Fault Font :=
  match splitEq field with
  | key :: value :: _ =>
    match atoi value with
    | none => .ok f
    | some val => commonSwitch f key val
  | _ => .ok f

/-- The field loop of `parseCommon`. -/
def commonLoop : Font → List GoString → Except Fault Font
  | f, [] => .ok f
  | f, field :: rest =>
    match commonField f field with
    | .error e => .error e
    | .ok f' => commonLoop f' rest

/-- Parses common tag. -/
def Font.parseCommon (f : Font) (line : GoString) : Except Fault Font :=
  commonLoop f (fields line)

/-- One iteration of the field loop of `parsePage`: a `file` field is resolved
against the directory of the descriptor, its size is taken from `os.Stat`, the
file is opened and the page is appended. -/
def pageField (env : Env) (fileDir : GoString) (f : Font) (field : GoString) : Except Fault Font :=
  match splitEq field with
  | key :: value :: _ =>
    if key = "file".toList then
      match env.stat (env.joinPath fileDir (trimQuotes value)) with
      | none => .error .error
      | some size =>
        match env.openFile (env.joinPath fileDir (trimQuotes value)) with
        | none => .error .fatal
        | some data =>
          .ok { f with Pages := f.Pages ++ [{ PageSize := size % 4294967296, PageData := data }] }
    else .ok f
  | _ => .ok f

/-- The field loop of `parsePage`. -/
def pageLoop (env : Env) (fileDir : GoString) : Font → List GoString → Except Fault Font
  | f, [] => .ok f
  | f, field :: rest =>
    match pageField env fileDir f field with
    | .error e => .error e
    | .ok f' => pageLoop env fileDir f' rest

/-- Parses page tag. -/
def Font.parsePage (env : Env) (f : Font) (line : GoString) (fileDir : GoString) :
    Except Fault Font :=
  pageLoop env fileDir f (fields line)

/-- The case chosen by the `switch` of `ParseDescriptor` for a line. -/
inductive Tag where
  | info
  | common
  | page
  | chars
  | char
  | kernings
  | kerning
  | none
deriving DecidableEq, Repr

/-- The `switch` of `ParseDescriptor`: the first case, in source order, whose
`strings.HasPrefix` test holds. -/
def classify (line : GoString) : Tag :=
  if startsWith line "info".toList then .info
  else if startsWith line "common".toList then .common
  else if startsWith line "page".toList then .page
  else if startsWith line "chars".toList then .chars
  else if startsWith line "char".toList then .char
  else if startsWith line "kernings".toList then .kernings
  else if startsWith line "kerning".toList then .kerning
  else .none

/-- The body of the scan loop of `ParseDescriptor` for one line. -/
def Font.parseLine (env : Env) (fileDir : GoString) (f : Font) (line : GoString) :
    Except Fault Font :=
  match classify line with
  | .info => f.parseInfo env line
  | .common => f.parseCommon line
  | .page => f.parsePage env line fileDir
  | .chars => .ok f
  | .char => f.parseChar line
  | .kernings => .ok f
  | .kerning => f.parseKerning line
  | .none => .ok f

/-- The size of a Go string in bytes: the length of its UTF-8 encoding. -/
def byteLen (s : GoString) : Nat := (s.map fun r => r.utf8Size).sum

/-- Go `bufio.MaxScanTokenSize`, the largest buffer of a `bufio.Scanner` made by
`bufio.NewScanner`: `64 * 1024`. -/
def MaxScanTokenSize : Nat := 65536

/-- The scan of `bufio.ScanLines` over a text; `cur` is the line being read. A
line ends at `\n` (code point 10); the text after the last `\n` is a final line
when it is not empty. The lines are given without the `\n` and before the
trailing `\r` is dropped. -/
def rawLinesAux (cur : GoString) : List Rune → List GoString
  | [] => if cur = [] then [] else [cur]
  | r :: rest =>
    if r.toNat = 10 then cur :: rawLinesAux [] rest else rawLinesAux (cur ++ [r]) rest

/-- The lines of a text, each without its `\n`. -/
def rawLines (content : GoString) : List GoString := rawLinesAux [] content

/-- The `dropCR` of `bufio`: a trailing `\r` (code point 13) is dropped. -/
def dropCR (line : GoString) : GoString :=
  if line.getLast?.map (·.toNat) = some 13 then line.dropLast else line

/-- The scan loop of `ParseDescriptor` over the lines that are left, from the
font built so far. `scanner.Scan()` delivers the next line when the line and its
`\n` fit into the buffer of the scanner, that is when the line has fewer than
`MaxScanTokenSize` bytes; otherwise it returns false with the error
`bufio.ErrTooLong`, the loop ends and `scanner.Err()` is returned. A failure of
the line parser ends the loop at once. -/
def scanLoop (env : Env) (fileDir : GoString) : Font → List GoString → Except Fault Font
  | f, [] => .ok f
  | f, raw :: rest =>
    if MaxScanTokenSize ≤ byteLen raw then .error .error
    else
      match f.parseLine env fileDir (dropCR raw) with
      | .error e => .error e
      | .ok f' => scanLoop env fileDir f' rest

/-- Parses BMFont text font descriptor file into font: `os.Open(path)`, then the
scan loop over the lines of the file from `&Font{}`. -/
def ParseDescriptor (env : Env) (path : GoString) : Except Fault Font :=
  match env.openText path with
  | none => .error .error
  | some content => scanLoop env (env.dirOf path) emptyFont (rawLines content)

/-! ## emit_c.go: page data -/

/-- Go `fmt` digits for `%x`. -/
def hexDigit (n : Nat) : Rune := "0123456789abcdef".toList.getD n '0'

/-- Go `fmt.Sprintf("%x", bs)` for a byte slice: two lower-case hex digits per byte. -/
def fmtHexBytes (bs : List Nat) : GoString :=
  bs.flatMap fun b => [hexDigit (b / 16), hexDigit (b % 16)]

/-- Go `fmt.Sprintf("%d", i)` for a non-negative `int`. -/
def fmtDec (i : Nat) : GoString := (Nat.repr i).toList

/-- The scanner loop of the page-data section: one `0x%x, ` per byte read
(`scanner.Bytes()` is a one-byte slice under `bufio.ScanBytes`), and a line
break after every 16th. `bytesWritten` is the loop counter. -/
def emitPageBytes : Nat → List Nat → GoString
  | _, [] => []
  | bytesWritten, b :: rest =>
    "0x".toList ++ fmtHexBytes [b] ++ ", ".toList ++
      (if bytesWritten + 1 = 16 then "\n    ".toList ++ emitPageBytes 0 rest
       else emitPageBytes (bytesWritten + 1) rest)

/-- What is written after the opening brace of a page byte array and before
its closing brace. -/
def pageBody (data : List Nat) : GoString :=
  "\n    ".toList ++ emitPageBytes 0 data ++ "\n".toList

/-- What is written before the opening brace of the byte array of page `i`. -/
def pageHead (name : GoString) (i : Nat) : GoString :=
  "unsigned char BMFONT_".toList ++ name ++ "_PAGE_".toList ++ fmtDec i ++
    "[] __attribute__((aligned(16))) = ".toList

/-- One iteration of the `Emit page data` loop of `EmitCFont`. -/
def emitPage (name : GoString) (i : Nat) (page : Page) : GoString :=
  pageHead name i ++ "\x7b".toList ++ pageBody page.PageData ++ "\x7d;\n\n".toList

/-! ## emit_c.go: EmitCFont -/

/-- Go `fmt.Sprintf("%d", v)` for a signed integer. -/
def fmtInt (v : Int) : GoString :=
  if v < 0 then '-' :: fmtDec (-v).toNat else fmtDec v.toNat

/-- Go `fmt.Sprintf("%c", n)` for an unsigned integer: the code point, or U+FFFD
when `n` is not a valid code point. -/
def fmtRune (n : Nat) : GoString :=
  if n.isValidChar then [Char.ofNat n] else [Char.ofNat 65533]

/-- The lines of the constant `types`. -/
def typesLines : List String :=
  ["\n",
   "\n",
   "#ifndef _BMFONT_TYPES_\n",
   "#define _BMFONT_TYPES_\n",
   "\n",
   "#include <stdint.h>\n",
   "#include <stddef.h>\n",
   "\n",
   "typedef struct BMFontKerning \x7b\n",
   "  uint32_t secondChar;\n",
   "  int16_t amount;\n",
   "\x7d BMFontKerning;\n",
   "\n",
   "typedef struct BMFontChar \x7b\n",
   "  uint16_t x;\n",
   "  uint16_t y;\n",
   "  uint16_t width;\n",
   "  uint16_t height;\n",
   "  int16_t xoffset;\n",
   "  int16_t yoffset;\n",
   "  int16_t xadvance;\n",
   "  uint8_t page;\n",
   "  uint8_t kerningsCount;\n",
   "  uint8_t channels; // 1 — blue, 2 — green, 4 — red, 15 — all\n",
   "  const BMFontKerning *kernings;\n",
   "\x7d BMFontChar;\n",
   "\n",
   "typedef struct BMFontBucket \x7b\n",
   "  uint32_t startChar; // char with number ch can be found using idx+startChar\n",
   "  uint32_t endChar;\n",
   "  const BMFontChar *chars;\n",
   "\x7d BMFontBucket;\n",
   "\n",
   "typedef struct BMFontPage \x7b\n",
   "  unsigned int size;\n",
   "  unsigned char *data; // PNG\n",
   "\x7d BMFontPage;\n",
   "\n",
   "// Enum for supported modes\n",
   "typedef enum \x7b\n",
   "  CHANNEL_GLYPH,\n",
   "  CHANNEL_OUTLINE,\n",
   "  CHANNEL_GLYPH_OUTLINE,\n",
   "  CHANNEL_ZERO,\n",
   "  CHANNEL_ONE,\n",
   "\x7d ChannelType;\n",
   "\n",
   "typedef struct BMFont \x7b\n",
   "  uint16_t scaleW;\n",
   "  uint16_t scaleH;\n",
   "  uint16_t size;\n",
   "  uint8_t lineHeight;\n",
   "  uint8_t base;\n",
   "  uint8_t isPacked;\n",
   "  ChannelType aChannelType;\n",
   "  ChannelType rChannelType;\n",
   "  ChannelType gChannelType;\n",
   "  ChannelType bChannelType;\n",
   "\n",
   "  uint16_t bucketCount;\n",
   "  const BMFontBucket *buckets;\n",
   "  uint16_t pageCount;\n",
   "  const BMFontPage *pages;\n",
   "\x7d BMFont;\n",
   "\n",
   "#endif\n",
   "\n"]

/-- The constant `types`. -/
def typesText : GoString := typesLines.flatMap String.toList

/-- The arrays that `EmitCFont` names. -/
inductive Ident where
  | buckets
  | pages
  | bucket (i : Nat)
  | page (i : Nat)
  | kernings (id : Nat)
deriving DecidableEq, Repr

/-- The identifier of an array: `BMFONT_<name>_BUCKETS`, `BMFONT_<name>_PAGES`,
`BMFONT_<name>_BUCKET_<i>`, `BMFONT_<name>_PAGE_<i>`,
`BMFONT_<name>_KERNINGS_CHAR_<id>`. -/
def Ident.text (name : GoString) : Ident → GoString
  | .buckets => "BMFONT_".toList ++ name ++ "_BUCKETS".toList
  | .pages => "BMFONT_".toList ++ name ++ "_PAGES".toList
  | .bucket i => "BMFONT_".toList ++ name ++ "_BUCKET_".toList ++ fmtDec i
  | .page i => "BMFONT_".toList ++ name ++ "_PAGE_".toList ++ fmtDec i
  | .kernings id => "BMFONT_".toList ++ name ++ "_KERNINGS_CHAR_".toList ++ fmtDec id

/-- Go `len(char.Kernings)`. -/
def Char.kerningsLen (c : Char) : Nat := (c.Kernings.getD []).length

/-- The pieces `EmitCFont` writes, one constructor for each `b.WriteString` of
the source with the values it formats (the scanner loop of a page is one piece). -/
inductive Out where
  | header (name : GoString)
  | types
  | declBuckets (name : GoString)
  | declPages (name : GoString)
  | declBucket (name : GoString) (i : Nat)
  | declPage (name : GoString) (i : Nat)
  | fontStruct (f : Font)
  | bucketsOpen (name : GoString)
  | bucketRow (name : GoString) (i : Nat) (bucket : Bucket)
  | arrayClose
  | pagesOpen (name : GoString)
  | pageRow (name : GoString) (i : Nat) (page : Page)
  | kerningsOpen (name : GoString) (id : Nat)
  | kerningRow (second : Nat) (amount : Int)
  | kerningsClose
  | charsOpen (name : GoString) (i : Nat)
  | charRow (name : GoString) (char : Char)
  | charsClose
  | pageData (name : GoString) (i : Nat) (page : Page)
  | footer
deriving DecidableEq, Repr

/-- The font struct literal up to and including `.buckets = `. -/
def fontStructHead (f : Font) : GoString :=
  "\nconst struct BMFont BMFONT_".toList ++ f.Name ++ " = \x7b\n    .size = ".toList ++
    fmtDec f.Size ++ ",\n    .lineHeight = ".toList ++ fmtDec f.LineHeight ++
    ",\n\t.base = ".toList ++ fmtDec f.Base ++ ",\n\t.scaleW = ".toList ++ fmtDec f.ScaleW ++
    ",\n\t.scaleH = ".toList ++ fmtDec f.ScaleH ++ ",\n\t.isPacked = ".toList ++
    fmtDec f.IsPacked ++ ",\n\t.aChannelType = ".toList ++ f.AType ++
    ",\n\t.rChannelType = ".toList ++ f.RType ++ ",\n\t.gChannelType = ".toList ++ f.GType ++
    ",\n\t.bChannelType = ".toList ++ f.BType ++ ",\n\n\t.bucketCount = ".toList ++
    fmtDec f.Buckets.length ++ ",\n\t.buckets = ".toList

/-- A glyph row up to the kernings pointer. -/
def charRowHead (char : Char) : GoString :=
  "    \x7b".toList ++ fmtDec char.X ++ ", ".toList ++ fmtDec char.Y ++ ", ".toList ++
    fmtDec char.Width ++ ", ".toList ++ fmtDec char.Height ++ ", ".toList ++
    fmtInt char.XOffset ++ ", ".toList ++ fmtInt char.YOffset ++ ", ".toList ++
    fmtInt char.XAdvance ++ ", ".toList ++ fmtDec char.Page ++ ", ".toList ++
    fmtDec char.kerningsLen ++ ", ".toList ++ fmtDec char.Channels ++ ", ".toList

/-- A glyph row after the kernings pointer. -/
def charRowTail (char : Char) : GoString :=
  "\x7d, // ".toList ++ fmtDec char.ID ++ " ('".toList ++ fmtRune char.ID ++ "')\n".toList

/-- The text of a piece: the format string of its `fmt.Sprintf` filled in. -/
def Out.render : Out → GoString
  | .header name =>
    "#ifndef _".toList ++ name ++ "_H_\n#define _".toList ++ name ++ "_H_\n".toList
  | .types => typesText
  | .declBuckets name => "const BMFontBucket ".toList ++ Ident.buckets.text name ++ "[];\n".toList
  | .declPages name => "const BMFontPage ".toList ++ Ident.pages.text name ++ "[];\n".toList
  | .declBucket name i =>
    "const BMFontChar ".toList ++ (Ident.bucket i).text name ++ "[];\n".toList
  | .declPage name i => "unsigned char ".toList ++ (Ident.page i).text name ++ "[];\n".toList
  | .fontStruct f =>
    fontStructHead f ++ Ident.buckets.text f.Name ++
      ",\n\t.pageCount = ".toList ++ fmtDec f.Pages.length ++ ",\n\t.pages = ".toList ++
      Ident.pages.text f.Name ++ ",\n\x7d;\n".toList
  | .bucketsOpen name =>
    "\nconst BMFontBucket ".toList ++ Ident.buckets.text name ++ "[] = \x7b\n".toList
  | .bucketRow name i bucket =>
    "    \x7b".toList ++ fmtDec bucket.StartChar ++ ", ".toList ++ fmtDec bucket.EndChar ++
      ", ".toList ++ (Ident.bucket i).text name ++ "\x7d,\n".toList
  | .arrayClose => "\x7d;\n".toList
  | .pagesOpen name => "const BMFontPage ".toList ++ Ident.pages.text name ++ "[] = \x7b\n".toList
  | .pageRow name i page =>
    "    \x7b".toList ++ fmtDec page.PageSize ++ ", ".toList ++ (Ident.page i).text name ++
      "\x7d, \n".toList
  | .kerningsOpen name id =>
    "const BMFontKerning ".toList ++ (Ident.kernings id).text name ++ "[] = \x7b // '".toList ++
      fmtRune id ++ "' \n".toList
  | .kerningRow second amount =>
    "    \x7b".toList ++ fmtDec second ++ ", ".toList ++ fmtInt amount ++ "\x7d, // '".toList ++
      fmtRune second ++ "' \n".toList
  | .kerningsClose => "\x7d;\n\n".toList
  | .charsOpen name i =>
    "const BMFontChar ".toList ++ (Ident.bucket i).text name ++ "[] = \x7b\n".toList
  | .charRow name char =>
    charRowHead char ++
      (if 0 < char.kerningsLen then (Ident.kernings char.ID).text name else "NULL".toList) ++
      charRowTail char
  | .charsClose => "\x7d;\n\n".toList
  | .pageData name i page => emitPage name i page
  | .footer => "#endif".toList

/-- The loop `for i := range f.Buckets` of the declarations, from index `i`. -/
def declBucketItems (name : GoString) : Nat → List Bucket → List Out
  | _, [] => []
  | i, _ :: rest => .declBucket name i :: declBucketItems name (i + 1) rest

/-- The loop `for i := range f.Pages` of the declarations, from index `i`. -/
def declPageItems (name : GoString) : Nat → List Page → List Out
  | _, [] => []
  | i, _ :: rest => .declPage name i :: declPageItems name (i + 1) rest

/-- The loop of `Emit buckets`, from index `i`. -/
def bucketRows (name : GoString) : Nat → List Bucket → List Out
  | _, [] => []
  | i, bucket :: rest => .bucketRow name i bucket :: bucketRows name (i + 1) rest

/-- The loop of `Emit pages`, from index `i`. -/
def pageRows (name : GoString) : Nat → List Page → List Out
  | _, [] => []
  | i, page :: rest => .pageRow name i page :: pageRows name (i + 1) rest

/-- The body of the loops of `Emit kerning pairs` for one char: nothing when
`len(char.Kernings)` is 0. The rows follow the order of the association list;
the order in which Go ranges over a map is not fixed. -/
def kerningItems (name : GoString) (char : Char) : List Out :=
  if 0 < char.kerningsLen then
    .kerningsOpen name char.ID ::
      ((char.Kernings.getD []).map fun e => Out.kerningRow e.1 e.2) ++ [.kerningsClose]
  else []

/-- The loops of `Emit kerning pairs`. -/
def kerningSection (name : GoString) (buckets : List Bucket) : List Out :=
  buckets.flatMap fun bucket => bucket.Chars.flatMap (kerningItems name)

/-- The loops of `Emit chars`, from bucket index `i`. -/
def charsSection (name : GoString) : Nat → List Bucket → List Out
  | _, [] => []
  | i, bucket :: rest =>
    (.charsOpen name i :: bucket.Chars.map (Out.charRow name) ++ [.charsClose]) ++
      charsSection name (i + 1) rest

/-- The loop of `Emit page data`, from index `i`. -/
def pageDataItems (name : GoString) : Nat → List Page → List Out
  | _, [] => []
  | i, page :: rest => .pageData name i page :: pageDataItems name (i + 1) rest

/-- The header, the types and the variable declarations. -/
def declSection (f : Font) : List Out :=
  [.header f.Name, .types, .declBuckets f.Name, .declPages f.Name] ++
    declBucketItems f.Name 0 f.Buckets ++ declPageItems f.Name 0 f.Pages

/-- The font struct, the bucket array and the page-metadata array. -/
def tableSection (f : Font) : List Out :=
  [.fontStruct f, .bucketsOpen f.Name] ++ bucketRows f.Name 0 f.Buckets ++
    [.arrayClose, .pagesOpen f.Name] ++ pageRows f.Name 0 f.Pages ++ [.arrayClose]

/-- The pieces written by `EmitCFont`, in order. -/
def emitItems (f : Font) : List Out :=
  declSection f ++ (tableSection f ++ (kerningSection f.Name f.Buckets ++
    (charsSection f.Name 0 f.Buckets ++ (pageDataItems f.Name 0 f.Pages ++ [.footer]))))

/-- Emits C code from parsed bmfont description: the text written to `b`. -/
def Font.EmitCFont (f : Font) : GoString :=
  (emitItems f).flatMap Out.render

/-! ## Reading the pieces of the output -/

/-- The array a piece declares without defining it (`T name[];`). -/
def Out.forwardDecl : Out → Option Ident
  | .declBuckets _ => some .buckets
  | .declPages _ => some .pages
  | .declBucket _ i => some (.bucket i)
  | .declPage _ i => some (.page i)
  | _ => none

/-- The array a piece starts the definition of (`T name[] = ...`). -/
def Out.defines : Out → Option Ident
  | .bucketsOpen _ => some .buckets
  | .pagesOpen _ => some .pages
  | .kerningsOpen _ id => some (.kernings id)
  | .charsOpen _ i => some (.bucket i)
  | .pageData _ i _ => some (.page i)
  | _ => none

/-- The array a piece declares, by a forward declaration or by a definition. -/
def Out.declares (o : Out) : Option Ident :=
  match o.forwardDecl with
  | some x => some x
  | none => o.defines

/-- The arrays a piece names inside an initializer. -/
def Out.references : Out → List Ident
  | .fontStruct _ => [.buckets, .pages]
  | .bucketRow _ i _ => [.bucket i]
  | .pageRow _ i _ => [.page i]
  | .charRow _ char => if 0 < char.kerningsLen then [.kernings char.ID] else []
  | _ => []

/-- The name a piece formats its identifiers with. -/
def Out.name : Out → GoString
  | .header name => name
  | .declBuckets name => name
  | .declPages name => name
  | .declBucket name _ => name
  | .declPage name _ => name
  | .fontStruct f => f.Name
  | .bucketsOpen name => name
  | .bucketRow name _ _ => name
  | .pagesOpen name => name
  | .pageRow name _ _ => name
  | .kerningsOpen name _ => name
  | .charsOpen name _ => name
  | .charRow name _ => name
  | .pageData name _ _ => name
  | _ => []

/-- The kerning arrays defined in a sequence of pieces, each with the ID in its
identifier and its rows; `cur` is the array being read. -/
def kerningArrays : Option (Nat × KerningMap) → List Out → List (Nat × KerningMap)
  | _, [] => []
  | _, .kerningsOpen _ id :: rest => kerningArrays (some (id, [])) rest
  | some (id, rows), .kerningRow second amount :: rest =>
    kerningArrays (some (id, rows ++ [(second, amount)])) rest
  | some (id, rows), .kerningsClose :: rest => (id, rows) :: kerningArrays none rest
  | cur, _ :: rest => kerningArrays cur rest

/-- The pieces of a kerning array: its opening line, its rows, its closing line. -/
def Out.isKerningPiece : Out → Bool
  | .kerningsOpen _ _ => true
  | .kerningRow _ _ => true
  | .kerningsClose => true
  | _ => false

/-- The pieces that are glyph rows. -/
def Out.isCharRow : Out → Bool
  | .charRow _ _ => true
  | _ => false

/-- The kerning array of a glyph as `EmitCFont` defines it: the ID in its
identifier and its rows when `len(char.Kernings) > 0`, no array otherwise. -/
def Char.kerningArray (c : Char) : Option (Nat × KerningMap) :=
  if 0 < c.kerningsLen then some (c.ID, c.Kernings.getD []) else none

/-- The glyph rows in a sequence of pieces, in order. -/
def glyphRows : List Out → List Char
  | [] => []
  | .charRow _ char :: rest => char :: glyphRows rest
  | _ :: rest => glyphRows rest

/-- All glyphs of a font, bucket by bucket. -/
def Font.glyphs (f : Font) : List Char := f.Buckets.flatMap (·.Chars)

/-! ## Reading byte literals back

The reader below follows the wording of the round-trip property, not the
emitter: a text is a sequence of literals `0x<hex>` each followed by `, `, with
blanks and line breaks allowed between literals, and each literal is read as
one byte. -/

/-- The value of a hexadecimal digit. -/
def hexVal (r : Rune) : Option Nat :=
  let n := r.toNat
  if 48 ≤ n ∧ n ≤ 57 then some (n - 48)
  else if 97 ≤ n ∧ n ≤ 102 then some (n - 87)
  else if 65 ≤ n ∧ n ≤ 70 then some (n - 55)
  else none

/-- Where the reader is inside a literal. -/
inductive LitState where
  | start
  | zero
  | hex (digits : Nat) (acc : Nat)
  | comma (acc : Nat)
deriving DecidableEq, Repr

/-- Reads byte literals; `none` when the text is not a sequence of literals or a
literal is not one byte. -/
def readLiteralsAux : LitState → List Rune → Option (List Nat)
  | .start, [] => some []
  | .start, r :: rest =>
    if r = ' ' ∨ r = '\n' then readLiteralsAux .start rest
    else if r = '0' then readLiteralsAux .zero rest
    else none
  | .zero, r :: rest => if r = 'x' then readLiteralsAux (.hex 0 0) rest else none
  | .hex digits acc, r :: rest =>
    match hexVal r with
    | some d => readLiteralsAux (.hex (digits + 1) (acc * 16 + d)) rest
    | none =>
      if r = ',' ∧ 0 < digits ∧ acc < 256 then readLiteralsAux (.comma acc) rest else none
  | .comma acc, r :: rest =>
    if r = ' ' then (readLiteralsAux .start rest).map (acc :: ·) else none
  | _, [] => none

/-- The bytes denoted by a text of byte literals. -/
def readLiterals (text : GoString) : Option (List Nat) := readLiteralsAux .start text

/-! ## Properties stated about fonts -/

/-- The run invariant of a bucket, in the `uint32` arithmetic of the source:
`StartChar` is a `uint32`, the bucket is not empty, `EndChar` is `StartChar`
advanced `len(Chars)-1` times, and `Chars[i].ID` is `StartChar` advanced `i` times. -/
def Bucket.WF (b : Bucket) : Prop :=
  b.StartChar < 4294967296 ∧ b.Chars ≠ [] ∧
    b.EndChar = (b.StartChar + (b.Chars.length - 1)) % 4294967296 ∧
    ∀ i (h : i < b.Chars.length), b.Chars[i].ID = (b.StartChar + i) % 4294967296

/-- The ranges `[StartChar, EndChar]` of every two distinct buckets (distinct
positions of the bucket list) have no code point in common. -/
def RangesDisjoint (bs : List Bucket) : Prop :=
  ∀ i j (hi : i < bs.length) (hj : j < bs.length), i ≠ j →
    ∀ c, ¬ ((bs[i].StartChar ≤ c ∧ c ≤ bs[i].EndChar) ∧ (bs[j].StartChar ≤ c ∧ c ≤ bs[j].EndChar))

/-- No glyph of the bucket has a kerning entry whose amount is 0. -/
def Bucket.NoZero (b : Bucket) : Prop :=
  ∀ c ∈ b.Chars, ∀ m, c.Kernings = some m → ∀ e ∈ m, e.2 ≠ 0

/-- No glyph of the font has a kerning entry whose amount is 0. -/
def NoZeroKerning (f : Font) : Prop :=
  ∀ b ∈ f.Buckets, b.NoZero

/-- The font is the result of parsing some sequence of char and kerning lines,
starting from the empty font. -/
def Reachable (f : Font) : Prop :=
  ∃ ls : List TagLine, parseTagLines emptyFont ls = .ok f

/-- The IDs of all glyphs of a bucket list, bucket by bucket. -/
def allIDs (bs : List Bucket) : List Nat :=
  bs.flatMap fun b => b.Chars.map (·.ID)

/-- The set of IDs is a single contiguous integer interval `[lo, hi]`. -/
def IsInterval (ids : List Nat) : Prop :=
  ∃ lo hi, ∀ c, c ∈ ids ↔ lo ≤ c ∧ c ≤ hi

/-- `Kernings[second]` of a glyph; `none` when the key is absent or the map is `nil`. -/
def Char.kerning (c : Char) (second : Nat) : Option Int :=
  mapGet second (c.Kernings.getD [])

/-- The code point lies in the range `[StartChar, EndChar]` of some bucket. -/
def Covered (bs : List Bucket) (c : Nat) : Prop :=
  ∃ b ∈ bs, b.StartChar ≤ c ∧ c ≤ b.EndChar

instance (bs : List Bucket) (c : Nat) : Decidable (Covered bs c) := by
  unfold Covered; infer_instance

/-- The bucket is the run of code points `[StartChar, EndChar]`, in the integers:
`len(Chars) = EndChar - StartChar + 1` and `Chars[i].ID = StartChar + i`. -/
def Bucket.IsRun (b : Bucket) : Prop :=
  (b.Chars.length : Int) = (b.EndChar : Int) - (b.StartChar : Int) + 1 ∧
    ∀ i (h : i < b.Chars.length), b.Chars[i].ID = b.StartChar + i

/-- What one iteration of the bucket loop of `parseKerning` makes of a bucket
when the index is within `Chars`. -/
def Bucket.attachKerning (b : Bucket) (first second : Nat) (amount : Int) : Bucket :=
  if b.StartChar ≤ first ∧ first ≤ b.EndChar then
    match b.Chars[first - b.StartChar]? with
    | some c =>
      { b with Chars := b.Chars.set (first - b.StartChar) (c.setKerning second amount) }
    | none => b
  else b

/-- The font `g` is the font `f` with `Kernings[second] = amount` set on the
glyph at index `first - StartChar` of every bucket whose range holds `first`, and
with nothing else changed: the other fields of the font, the number and order of
the buckets, their `StartChar`, `EndChar` and number of glyphs, every other glyph,
and on the glyphs that are changed every field but `Kernings` and every other
key of `Kernings`. -/
def KerningAttached (f g : Font) (first second : Nat) (amount : Int) : Prop :=
  g = { f with Buckets := g.Buckets } ∧
  g.Buckets.length = f.Buckets.length ∧
  ∀ (j : Nat) (b b' : Bucket), f.Buckets[j]? = some b → g.Buckets[j]? = some b' →
    b'.StartChar = b.StartChar ∧ b'.EndChar = b.EndChar ∧
    b'.Chars.length = b.Chars.length ∧
    ((b.StartChar ≤ first ∧ first ≤ b.EndChar) → first - b.StartChar < b.Chars.length) ∧
    ∀ (k : Nat) (c c' : Char), b.Chars[k]? = some c → b'.Chars[k]? = some c' →
      if (b.StartChar ≤ first ∧ first ≤ b.EndChar) ∧ k = first - b.StartChar then
        c'.kerning second = some amount ∧
        (∀ s, s ≠ second → c'.kerning s = c.kerning s) ∧
        { c' with Kernings := c.Kernings } = c
      else c' = c

/-- The integer written on the line for `key`: the value of the last
`key=value` token of the line whose value is an integer. -/
def lineValue (key : GoString) (line : GoString) : Option Int :=
  (fields line).foldl (fun acc field =>
    match splitEq field with
    | k :: v :: _ => if k = key then (atoi v).orElse (fun _ => acc) else acc
    | _ => acc) none

/-- A byte literal as the round-trip property describes it: `0x`, the hex digits
of the byte, then `, `. -/
def byteLiteral (b : Nat) : GoString :=
  "0x".toList ++ [hexDigit (b / 16), hexDigit (b % 16)] ++ ", ".toList

/-- The text is one byte literal per byte of `data`, in the order of `data`,
each followed by nothing or by the line break `"\n    "`. -/
def IsLiteralSequence (text : GoString) (data : List Nat) : Prop :=
  ∃ seps : List GoString, seps.length = data.length ∧
    (∀ s ∈ seps, s = [] ∨ s = "\n    ".toList) ∧
    text = (List.zipWith (fun b sep => byteLiteral b ++ sep) data seps).flatten

/-- The fonts reachable from the empty font by calls of `insertChar` (with any
glyph whose ID is a `uint32`), `parseChar` and `parseKerning`. -/
inductive Built : Font → Prop where
  | empty : Built emptyFont
  | insertChar (f : Font) (c : Char) : Built f → c.ID < 4294967296 → Built (f.insertChar c)
  | parseChar (f g : Font) (line : GoString) : Built f → f.parseChar line = .ok g → Built g
  | parseKerning (f g : Font) (line : GoString) : Built f → f.parseKerning line = .ok g → Built g

/-- The first white-space-delimited token of a line. -/
def firstToken (line : GoString) : Option GoString := (fields line).head?

/-- The name tokens after the `face=` field, as the property on the font name
words it: the tokens up to, but not including, the next `key=value` field, each
with its double quotes trimmed and preceded by a single space. -/
def nameContinuation : List GoString → GoString
  | [] => []
  | tok :: rest =>
    if (splitEq tok).length < 2 then " ".toList ++ trimQuotes tok ++ nameContinuation rest
    else []

/-- The font name before normalisation, as the property on the font name words
it: the value of the `face=` field followed by its continuation tokens. -/
def claimedName : List GoString → Option GoString
  | [] => none
  | tok :: rest =>
    match splitEq tok with
    | key :: value :: _ =>
      if key = "face".toList then some (trimQuotes value ++ nameContinuation rest)
      else claimedName rest
    | _ => claimedName rest

/-- The four channel fields of a common line. -/
def channelKeys : List GoString :=
  ["alphaChnl".toList, "redChnl".toList, "greenChnl".toList, "blueChnl".toList]

/-- The font with the channel type that belongs to a channel field set:
`alphaChnl` is `AType`, `redChnl` is `RType`, `greenChnl` is `GType`, `blueChnl`
is `BType`. -/
def Font.withChannel (f : Font) (key : GoString) (t : ChannelType) : Font :=
  if key = "alphaChnl".toList then { f with AType := t }
  else if key = "redChnl".toList then { f with RType := t }
  else if key = "greenChnl".toList then { f with GType := t }
  else if key = "blueChnl".toList then { f with BType := t }
  else f

/-- A token `size=value` whose value `strconv.Atoi` does not read as an integer. -/
def BadSize (tok : GoString) : Prop :=
  ∃ value rest, splitEq tok = "size".toList :: value :: rest ∧ atoi value = none

/-- A token `key=value` of a channel field whose value is read as an integer
outside `0..4`. -/
def BadChannel (tok : GoString) : Prop :=
  ∃ key value rest v, splitEq tok = key :: value :: rest ∧ key ∈ channelKeys ∧
    atoi value = some v ∧ (v < 0 ∨ 4 < v)

/-- The value of a decimal integer, without a bound on its size: an optional
sign followed by one or more decimal digits; `none` when the text is not a
decimal integer. -/
def decimalValue (s : GoString) : Option Int :=
  match s with
  | [] => none
  | r :: rest =>
    if r = '-' then
      match rest with
      | [] => none
      | _ => (atoiDigits 0 rest).map fun n => -(n : Int)
    else
      let digits := if r = '+' then rest else s
      match digits with
      | [] => none
      | _ => (atoiDigits 0 digits).map fun n => (n : Int)

/-- Every array named inside an initializer of a piece of `l` is in `S` or is
declared by a piece that comes earlier in `l`. -/
def RefsDeclared (S : Ident → Prop) (l : List Out) : Prop :=
  ∀ pre item post, l = pre ++ item :: post → ∀ ident ∈ item.references,
    S ident ∨ ∃ d ∈ pre, d.declares = some ident

/-- The lines of a text as the scan loop of `ParseDescriptor` sees them. -/
def descriptorLines (content : GoString) : List GoString := (rawLines content).map dropCR

/-- Every line of a text has fewer than `MaxScanTokenSize` bytes. -/
def LinesFit (content : GoString) : Prop :=
  ∀ raw ∈ rawLines content, byteLen raw < MaxScanTokenSize

/-- Every `size` value of the info lines and every channel index of the common
lines is read: no info line has a `size=` token that `strconv.Atoi` rejects and
no common line has a channel token with an index outside `0..4`. -/
def ValuesRead (lines : List GoString) : Prop :=
  ∀ line ∈ lines, (classify line = .info → ∀ tok ∈ fields line, ¬ BadSize tok) ∧
    (classify line = .common → ∀ tok ∈ fields line, ¬ BadChannel tok)

/-! # Theorems -/

/-! ## insertChar on an ascending run -/

theorem insertBuckets_extend (c : Char) (b : Bucket) (rest : List Bucket)
    (h : c.ID = (b.EndChar + 1) % 4294967296) :
    insertBuckets c (b :: rest) =
      { b with EndChar := c.ID, Chars := b.Chars ++ [c] } :: rest := by
  simp [insertBuckets, h]

theorem insertChars_buckets (f : Font) (cs : List Char) :
    (insertChars f cs).Buckets = cs.foldl (fun bs c => insertBuckets c bs) f.Buckets := by
  induction cs generalizing f with
  | nil => rfl
  | cons c cs ih => simp [insertChars, List.foldl] at ih ⊢; exact ih (f.insertChar c)

theorem foldl_insert_run (cs : List Char) :
    ∀ (s e : Nat) (chars : List Char), e + cs.length ≤ 4294967295 →
      cs.map (·.ID) = List.range' (e + 1) cs.length →
      cs.foldl (fun bs c => insertBuckets c bs) [⟨s, e, chars⟩] = [⟨s, e + cs.length, chars ++ cs⟩] := by
  induction cs with
  | nil => intro s e chars _ _; simp
  | cons c cs ih =>
    intro s e chars hmax hids
    simp only [List.map_cons, List.length_cons, List.range'_succ, List.cons.injEq] at hids
    obtain ⟨hc, hrest⟩ := hids
    simp only [List.length_cons] at hmax
    have hstep : insertBuckets c [⟨s, e, chars⟩] = [⟨s, e + 1, chars ++ [c]⟩] := by
      rw [insertBuckets_extend]
      · simp [hc]
      · simp only [hc]; omega
    simp only [List.foldl_cons, hstep]
    rw [ih s (e + 1) (chars ++ [c]) (by omega) hrest]
    simp [List.length_cons]; omega

/-- C1. For every start code point `s` and length `n ≥ 1` with
`s + n - 1 ≤ 2^32 - 1`, inserting glyphs whose IDs are `s, s+1, ..., s+n-1`, in
that order, into the empty font gives exactly one bucket, with `StartChar = s`,
`EndChar = s + n - 1` and `Chars` the inserted glyphs in insertion order. -/
theorem insertChars_contiguous_run (s n : Nat) (cs : List Char) (hn : 1 ≤ n)
    (hmax : s + n - 1 ≤ 4294967295) (hids : cs.map (·.ID) = List.range' s n) :
    (insertChars emptyFont cs).Buckets =
      [{ StartChar := s, EndChar := s + n - 1, Chars := cs }] := by
  have hlen : cs.length = n := by simpa using congrArg List.length hids
  subst hlen
  cases cs with
  | nil => simp at hn
  | cons c cs =>
    simp only [List.map_cons, List.length_cons, List.range'_succ, List.cons.injEq] at hids
    simp only [List.length_cons] at hmax
    rw [insertChars_buckets]
    simp only [emptyFont, List.foldl_cons, insertBuckets]
    rw [hids.1, foldl_insert_run cs s s [c] (by omega) hids.2]
    simp [List.length_cons]

theorem insertChars_contiguous_run_witness :
    (insertChars emptyFont [{ ID := 65, X := 1 }, { ID := 66, X := 2 }]).Buckets =
      [{ StartChar := 65, EndChar := 65 + 2 - 1,
         Chars := [{ ID := 65, X := 1 }, { ID := 66, X := 2 }] }] :=
  insertChars_contiguous_run 65 2 [{ ID := 65, X := 1 }, { ID := 66, X := 2 }]
    (by decide) (by decide) (by decide)

/-! ## The run invariant of buckets -/

theorem wf_singleton (c : Char) (h : c.ID < 4294967296) :
    Bucket.WF { StartChar := c.ID, EndChar := c.ID, Chars := [c] } := by
  refine ⟨h, by simp, ?_, ?_⟩
  · simp only [List.length_singleton]; omega
  · intro i hi
    simp only [List.length_singleton] at hi
    have : i = 0 := by omega
    subst this
    simp only [List.getElem_cons_zero]; omega

theorem wf_extend (b : Bucket) (c : Char) (hb : b.WF)
    (hc : c.ID = (b.EndChar + 1) % 4294967296) :
    Bucket.WF { b with EndChar := c.ID, Chars := b.Chars ++ [c] } := by
  obtain ⟨hs, hne, he, hid⟩ := hb
  have hlen : 0 < b.Chars.length := List.length_pos.mpr hne
  refine ⟨hs, by simp, ?_, ?_⟩
  · simp only [List.length_append, List.length_singleton]; omega
  · intro i hi
    simp only [List.length_append, List.length_singleton] at hi
    by_cases hlt : i < b.Chars.length
    · simp only [List.getElem_append_left hlt]; exact hid i hlt
    · have hi' : i = b.Chars.length := by omega
      subst hi'
      simp only [List.getElem_concat_length]; omega

theorem wf_insertBuckets (c : Char) (hc : c.ID < 4294967296) (bs : List Bucket)
    (h : ∀ b ∈ bs, b.WF) : ∀ b ∈ insertBuckets c bs, b.WF := by
  induction bs with
  | nil =>
    intro b hb
    simp only [insertBuckets, List.mem_singleton] at hb
    subst hb
    exact wf_singleton c hc
  | cons b0 rest ih =>
    intro b hb
    simp only [insertBuckets] at hb
    split at hb
    · rename_i heq
      rcases List.mem_cons.mp hb with hb | hb
      · subst hb; exact wf_extend b0 c (h b0 (List.mem_cons_self _ _)) heq
      · exact h b (List.mem_cons_of_mem _ hb)
    · rcases List.mem_cons.mp hb with hb | hb
      · subst hb; exact h _ (List.mem_cons_self _ _)
      · exact ih (fun x hx => h x (List.mem_cons_of_mem _ hx)) b hb

theorem wf_foldl_insert (cs : List Char) (hcs : ∀ c ∈ cs, c.ID < 4294967296) :
    ∀ bs : List Bucket, (∀ b ∈ bs, b.WF) →
      ∀ b ∈ cs.foldl (fun bs c => insertBuckets c bs) bs, b.WF := by
  induction cs with
  | nil => intro bs h; simpa using h
  | cons c cs ih =>
    intro bs h
    simp only [List.foldl_cons]
    exact ih (fun x hx => hcs x (List.mem_cons_of_mem _ hx)) _
      (wf_insertBuckets c (hcs c (List.mem_cons_self _ _)) bs h)

/-- Inside a well-formed bucket the range test of `parseKerning` implies that the
index `first - StartChar` is within `Chars`. -/
theorem wf_index_lt (b : Bucket) (hb : b.WF) (first : Nat)
    (h : b.StartChar ≤ first ∧ first ≤ b.EndChar) : first - b.StartChar < b.Chars.length := by
  obtain ⟨hs, hne, he, _⟩ := hb
  have hlen : 0 < b.Chars.length := List.length_pos.mpr hne
  omega

theorem wf_range_mem (b : Bucket) (hb : b.WF) (c : Nat)
    (h : b.StartChar ≤ c ∧ c ≤ b.EndChar) : c ∈ b.Chars.map (·.ID) := by
  have hidx := wf_index_lt b hb c h
  obtain ⟨hs, hne, he, hid⟩ := hb
  have := hid (c - b.StartChar) hidx
  rw [List.mem_map]
  refine ⟨b.Chars[c - b.StartChar], List.getElem_mem _, ?_⟩
  simp only [this]; omega

/-! ## The glyph IDs of the buckets are the inserted IDs -/

theorem allIDs_cons (b : Bucket) (bs : List Bucket) :
    allIDs (b :: bs) = b.Chars.map (·.ID) ++ allIDs bs := by
  simp [allIDs]

theorem allIDs_insertBuckets (c : Char) (bs : List Bucket) :
    (allIDs (insertBuckets c bs)).Perm (c.ID :: allIDs bs) := by
  induction bs with
  | nil => simp [insertBuckets, allIDs]
  | cons b rest ih =>
    simp only [insertBuckets]
    split
    · simp only [allIDs_cons, List.map_append, List.map_cons, List.map_nil, List.append_assoc,
        List.singleton_append]
      exact List.perm_middle
    · simp only [allIDs_cons]
      exact (List.Perm.append_left _ ih).trans List.perm_middle

theorem allIDs_foldl_insert (cs : List Char) :
    ∀ bs : List Bucket,
      (allIDs (cs.foldl (fun bs c => insertBuckets c bs) bs)).Perm (cs.map (·.ID) ++ allIDs bs) := by
  induction cs with
  | nil => intro bs; simp
  | cons c cs ih =>
    intro bs
    simp only [List.foldl_cons, List.map_cons, List.cons_append]
    exact (ih _).trans ((List.Perm.append_left _ (allIDs_insertBuckets c bs)).trans List.perm_middle)

theorem allIDs_insertChars (cs : List Char) :
    (allIDs (insertChars emptyFont cs).Buckets).Perm (cs.map (·.ID)) := by
  rw [insertChars_buckets]
  simpa [emptyFont, allIDs] using allIDs_foldl_insert cs []

theorem wf_insertChars (cs : List Char) (hcs : ∀ c ∈ cs, c.ID < 4294967296) :
    ∀ b ∈ (insertChars emptyFont cs).Buckets, b.WF := by
  rw [insertChars_buckets]
  exact wf_foldl_insert cs hcs [] (by simp)

theorem rangesDisjoint_of_nodup (bs : List Bucket) (hwf : ∀ b ∈ bs, b.WF)
    (hnd : (allIDs bs).Nodup) : RangesDisjoint bs := by
  have hpw := (List.nodup_flatMap.mp hnd).2
  rw [List.pairwise_iff_getElem] at hpw
  intro i j hi hj hij c hc
  have hmi := wf_range_mem bs[i] (hwf _ (List.getElem_mem _)) c hc.1
  have hmj := wf_range_mem bs[j] (hwf _ (List.getElem_mem _)) c hc.2
  rcases Nat.lt_or_gt_of_ne hij with hlt | hgt
  · exact hpw i j hi hj hlt hmi hmj
  · exact hpw j i hj hi hgt hmj hmi

/-- C3, the claim as stated fails: after inserting the ID 65 twice the font has
two buckets `[65,65]`, and both ranges hold the code point 65. -/
theorem rangesDisjoint_fails_on_duplicate :
    ¬ RangesDisjoint (insertChars emptyFont [{ ID := 65 }, { ID := 65 }]).Buckets := by
  intro h
  exact h 0 1 (by decide) (by decide) (by decide) 65 (by decide)

/-- C3, amended. After any sequence of `insertChar` calls starting from the empty
font in which no ID is inserted twice (any `uint32` IDs, in any order), the ranges
`[StartChar, EndChar]` of every two distinct buckets are disjoint. -/
theorem insertChars_rangesDisjoint (cs : List Char) (hcs : ∀ c ∈ cs, c.ID < 4294967296)
    (hnd : (cs.map (·.ID)).Nodup) : RangesDisjoint (insertChars emptyFont cs).Buckets :=
  rangesDisjoint_of_nodup _ (wf_insertChars cs hcs)
    ((allIDs_insertChars cs).nodup_iff.mpr hnd)

theorem insertChars_rangesDisjoint_witness :
    RangesDisjoint (insertChars emptyFont [{ ID := 67 }, { ID := 65 }, { ID := 66 }]).Buckets :=
  insertChars_rangesDisjoint [{ ID := 67 }, { ID := 65 }, { ID := 66 }] (by decide) (by decide)

/-! ## The wrap of `EndChar+1` at `2^32` -/

/-- C2, evaluated at the failing input: after `insertChar` of the IDs `2^32-1`
and `0`, in that order (the char lines `char id=4294967295`, `char id=0`), the
font has the single bucket with `StartChar = 2^32-1` and `EndChar = 0`; neither
inserted ID lies in the range of a bucket, and there is one bucket although the
inserted IDs are not a contiguous interval. -/
theorem insertChars_wrap_coverage :
    parseTagLines emptyFont [.char "char id=4294967295".toList, .char "char id=0".toList] =
        .ok (insertChars emptyFont [{ ID := 4294967295 }, { ID := 0 }]) ∧
      (insertChars emptyFont [{ ID := 4294967295 }, { ID := 0 }]).Buckets =
        [⟨4294967295, 0, [{ ID := 4294967295 }, { ID := 0 }]⟩] ∧
      ¬ Covered (insertChars emptyFont [{ ID := 4294967295 }, { ID := 0 }]).Buckets 4294967295 ∧
      ¬ Covered (insertChars emptyFont [{ ID := 4294967295 }, { ID := 0 }]).Buckets 0 ∧
      ¬ IsInterval [4294967295, 0] ∧
      ¬ 2 ≤ (insertChars emptyFont [{ ID := 4294967295 }, { ID := 0 }]).Buckets.length := by
  have hb : (insertChars emptyFont [{ ID := 4294967295 }, { ID := 0 }]).Buckets =
      [⟨4294967295, 0, [{ ID := 4294967295 }, { ID := 0 }]⟩] := by decide
  refine ⟨by decide, hb, ?_, ?_, ?_, ?_⟩
  · rw [hb]; simp [Covered]
  · rw [hb]; simp [Covered]
  · rintro ⟨lo, hi, h⟩
    have h0 := (h 0).mp (by simp)
    have h1 := (h 4294967295).mp (by simp)
    have h2 := (h 1).mpr ⟨by omega, by omega⟩
    simp at h2
  · rw [hb]; simp

/-- C4, evaluated at the failing input: after `insertChar` of the IDs `2^32-1`
and `0`, in that order (the char lines `char id=-1`, `char id=0`, as `uint32(-1)`
is `2^32-1`), the only bucket has two glyphs, `StartChar = 2^32-1` and
`EndChar = 0`, so `EndChar - StartChar + 1` is not `len(Chars)`, and `Chars[1].ID`
is `0`, not `StartChar + 1`. -/
theorem insertChars_wrap_not_run :
    parseTagLines emptyFont [.char "char id=-1".toList, .char "char id=0".toList] =
        .ok (insertChars emptyFont [{ ID := 4294967295 }, { ID := 0 }]) ∧
      (insertChars emptyFont [{ ID := 4294967295 }, { ID := 0 }]).Buckets =
        [⟨4294967295, 0, [{ ID := 4294967295 }, { ID := 0 }]⟩] ∧
      ¬ Bucket.IsRun ⟨4294967295, 0, [{ ID := 4294967295 }, { ID := 0 }]⟩ ∧
      ((2 : Int) ≠ (0 : Int) - 4294967295 + 1) ∧
      (({ ID := 0 } : Char).ID ≠ 4294967295 + 1) := by
  refine ⟨by decide, by decide, ?_, by decide, by decide⟩
  intro h
  have := h.1
  simp at this

/-! ## One step of insertChar -/

theorem insertBuckets_cases (c : Char) (bs : List Bucket) :
    (∃ (i : Nat) (hi : i < bs.length),
        c.ID = (bs[i].EndChar + 1) % 4294967296 ∧
        (∀ j (hj : j < i), c.ID ≠ (bs[j].EndChar + 1) % 4294967296) ∧
        insertBuckets c bs =
          bs.set i ⟨bs[i].StartChar, c.ID, bs[i].Chars ++ [c]⟩) ∨
      ((∀ b ∈ bs, c.ID ≠ (b.EndChar + 1) % 4294967296) ∧
        insertBuckets c bs = bs ++ [⟨c.ID, c.ID, [c]⟩]) := by
  induction bs with
  | nil => right; simp [insertBuckets]
  | cons b rest ih =>
    by_cases h : c.ID = (b.EndChar + 1) % 4294967296
    · left
      refine ⟨0, by simp, by simpa using h, by intro j hj; omega, ?_⟩
      simp [insertBuckets, h]
    · rcases ih with ⟨i, hi, heq, hlt, hset⟩ | ⟨hall, happ⟩
      · left
        refine ⟨i + 1, by simpa using hi, by simpa using heq, ?_, ?_⟩
        · intro j hj
          cases j with
          | zero => simpa using h
          | succ j => simpa using hlt j (by omega)
        · simp [insertBuckets, h, hset]
      · right
        refine ⟨?_, ?_⟩
        · intro x hx
          rcases List.mem_cons.mp hx with hx | hx
          · subst hx; exact h
          · exact hall x hx
        · simp [insertBuckets, h, happ]

/-- One step of `insertChar`, with `EndChar+1` computed in `uint32` as in the
source: it either extends the first bucket (in list order) whose `EndChar+1` is
the glyph's ID, which keeps its position, its `StartChar` and its glyphs, gets
the glyph appended and `EndChar` set to the ID, every other bucket being
unchanged; or, when no bucket has `EndChar+1` equal to the ID, it appends the
singleton bucket `[ID, ID]` after the unchanged existing buckets. Nothing else
of the font changes. -/
theorem insertChar_step (f : Font) (newChar : Char) :
    ((∃ (i : Nat) (hi : i < f.Buckets.length),
        newChar.ID = (f.Buckets[i].EndChar + 1) % 4294967296 ∧
        (∀ j (hj : j < i), newChar.ID ≠ (f.Buckets[j].EndChar + 1) % 4294967296) ∧
        (f.insertChar newChar).Buckets =
          f.Buckets.set i ⟨f.Buckets[i].StartChar, newChar.ID, f.Buckets[i].Chars ++ [newChar]⟩) ∨
      ((∀ b ∈ f.Buckets, newChar.ID ≠ (b.EndChar + 1) % 4294967296) ∧
        (f.insertChar newChar).Buckets =
          f.Buckets ++ [⟨newChar.ID, newChar.ID, [newChar]⟩])) ∧
    f.insertChar newChar = { f with Buckets := (f.insertChar newChar).Buckets } :=
  ⟨insertBuckets_cases newChar f.Buckets, rfl⟩

/-- Away from the wrap the step of `insertChar` is the one of the property on
`insertChar`: when no bucket of the font ends at `2^32-1`, the glyph is appended
to the first bucket whose `EndChar + 1` is its ID, and a new singleton bucket is
appended when there is none. -/
theorem insertChar_step_below_max (f : Font) (newChar : Char)
    (h : ∀ b ∈ f.Buckets, b.EndChar < 4294967295) :
    ((∃ (i : Nat) (hi : i < f.Buckets.length),
        newChar.ID = f.Buckets[i].EndChar + 1 ∧
        (∀ j (hj : j < i), newChar.ID ≠ f.Buckets[j].EndChar + 1) ∧
        (f.insertChar newChar).Buckets =
          f.Buckets.set i ⟨f.Buckets[i].StartChar, newChar.ID, f.Buckets[i].Chars ++ [newChar]⟩) ∨
      ((∀ b ∈ f.Buckets, newChar.ID ≠ b.EndChar + 1) ∧
        (f.insertChar newChar).Buckets =
          f.Buckets ++ [⟨newChar.ID, newChar.ID, [newChar]⟩])) ∧
    f.insertChar newChar = { f with Buckets := (f.insertChar newChar).Buckets } := by
  have key : ∀ b ∈ f.Buckets, (b.EndChar + 1) % 4294967296 = b.EndChar + 1 :=
    fun b hb => Nat.mod_eq_of_lt (by have := h b hb; omega)
  refine ⟨?_, rfl⟩
  rcases insertBuckets_cases newChar f.Buckets with ⟨i, hi, heq, hlt, hset⟩ | ⟨hall, happ⟩
  · left
    refine ⟨i, hi, ?_, ?_, hset⟩
    · rw [← key _ (List.getElem_mem hi)]; exact heq
    · intro j hj
      rw [← key _ (List.getElem_mem (Nat.lt_trans hj hi))]; exact hlt j hj
  · right
    exact ⟨fun b hb => by rw [← key b hb]; exact hall b hb, happ⟩

/-- C5, evaluated at the failing input: the font with the one bucket
`[4294967295, 4294967295]` and the glyph with ID 0. `EndChar+1` is 4294967296,
which is not the ID 0, so the property has the singleton bucket `[0, 0]` appended
after the unchanged bucket; `insertChar` appends the glyph to the existing
bucket and sets its `EndChar` to 0, because it computes `EndChar+1` in `uint32`,
where it wraps to 0. On the IDs 67, 65, 66 the buckets are `[67,67]` and
`[65,66]`, as the property has it. -/
theorem insertChar_extends_bucket_at_wrap :
    (emptyFont.insertChar { ID := 4294967295 }).Buckets =
        [⟨4294967295, 4294967295, [{ ID := 4294967295 }]⟩] ∧
      (∀ b ∈ (emptyFont.insertChar { ID := 4294967295 }).Buckets,
        ({ ID := 0 } : Char).ID ≠ b.EndChar + 1) ∧
      ((emptyFont.insertChar { ID := 4294967295 }).insertChar { ID := 0 }).Buckets =
        [⟨4294967295, 0, [{ ID := 4294967295 }, { ID := 0 }]⟩] ∧
      ((emptyFont.insertChar { ID := 4294967295 }).insertChar { ID := 0 }).Buckets ≠
        (emptyFont.insertChar { ID := 4294967295 }).Buckets ++ [⟨0, 0, [{ ID := 0 }]⟩] ∧
      (insertChars emptyFont [{ ID := 67 }, { ID := 65 }, { ID := 66 }]).Buckets =
        [⟨67, 67, [{ ID := 67 }]⟩, ⟨65, 66, [{ ID := 65 }, { ID := 66 }]⟩] := by
  decide

/-! ## The chars and kerning triples decoded from lines -/

theorem toUint32_lt (val : Int) : toUint32 val < 4294967296 := by
  unfold toUint32; omega

theorem ite_both {α : Type} {P : α → Prop} {c : Prop} [Decidable c] {a b : α}
    (ha : P a) (hb : P b) : P (if c then a else b) := by
  split
  · exact ha
  · exact hb

theorem charSwitch_inv (c : Char) (key : GoString) (val : Int)
    (h : c.ID < 4294967296 ∧ c.Kernings = none) :
    (charSwitch c key val).ID < 4294967296 ∧ (charSwitch c key val).Kernings = none := by
  have hid : ({ c with ID := toUint32 val } : Char).ID < 4294967296 ∧
      ({ c with ID := toUint32 val } : Char).Kernings = none := ⟨toUint32_lt val, h.2⟩
  unfold charSwitch
  exact ite_both (P := fun x : Char => x.ID < 4294967296 ∧ x.Kernings = none) hid
    (ite_both (P := fun x : Char => x.ID < 4294967296 ∧ x.Kernings = none) h
    (ite_both (P := fun x : Char => x.ID < 4294967296 ∧ x.Kernings = none) h
    (ite_both (P := fun x : Char => x.ID < 4294967296 ∧ x.Kernings = none) h
    (ite_both (P := fun x : Char => x.ID < 4294967296 ∧ x.Kernings = none) h
    (ite_both (P := fun x : Char => x.ID < 4294967296 ∧ x.Kernings = none) h
    (ite_both (P := fun x : Char => x.ID < 4294967296 ∧ x.Kernings = none) h
    (ite_both (P := fun x : Char => x.ID < 4294967296 ∧ x.Kernings = none) h
    (ite_both (P := fun x : Char => x.ID < 4294967296 ∧ x.Kernings = none) h
    (ite_both (P := fun x : Char => x.ID < 4294967296 ∧ x.Kernings = none) h h)))))))))

theorem charField_inv (c : Char) (field : GoString)
    (h : c.ID < 4294967296 ∧ c.Kernings = none) :
    (charField c field).ID < 4294967296 ∧ (charField c field).Kernings = none := by
  unfold charField
  split
  · split
    · exact h
    · exact charSwitch_inv c _ _ h
  · exact h

theorem foldl_charField_inv (fs : List GoString) :
    ∀ c : Char, (c.ID < 4294967296 ∧ c.Kernings = none) →
      (fs.foldl charField c).ID < 4294967296 ∧ (fs.foldl charField c).Kernings = none := by
  induction fs with
  | nil => intro c h; exact h
  | cons x xs ih => intro c h; exact ih _ (charField_inv c x h)

theorem charFields_inv (line : GoString) :
    (charFields line).ID < 4294967296 ∧ (charFields line).Kernings = none :=
  foldl_charField_inv (fields line) {} ⟨by decide, rfl⟩

/-! ## The bucket loop of parseKerning -/

theorem mapGet_mapSet_same (second : Nat) (amount : Int) (m : KerningMap) :
    mapGet second (mapSet second amount m) = some amount := by
  induction m with
  | nil => simp [mapSet, mapGet]
  | cons e rest ih =>
    obtain ⟨k, v⟩ := e
    by_cases h : k = second
    · simp [mapSet, mapGet, h]
    · simp [mapSet, mapGet, h, ih]

theorem mapGet_mapSet_other (second s : Nat) (amount : Int) (m : KerningMap) (hs : s ≠ second) :
    mapGet s (mapSet second amount m) = mapGet s m := by
  induction m with
  | nil => simp [mapSet, mapGet, Ne.symm hs]
  | cons e rest ih =>
    obtain ⟨k, v⟩ := e
    by_cases h : k = second
    · subst h; simp [mapSet, mapGet, Ne.symm hs]
    · by_cases h' : k = s
      · subst h'; simp [mapSet, mapGet, hs]
      · simp [mapSet, mapGet, h, h', ih]

theorem mem_mapSet (second : Nat) (amount : Int) (m : KerningMap) (e : Nat × Int)
    (he : e ∈ mapSet second amount m) : e = (second, amount) ∨ e ∈ m := by
  induction m with
  | nil => simp [mapSet] at he; exact Or.inl he
  | cons x rest ih =>
    obtain ⟨k, v⟩ := x
    simp only [mapSet] at he
    split at he
    · rcases List.mem_cons.mp he with h | h
      · exact Or.inl h
      · exact Or.inr (List.mem_cons_of_mem _ h)
    · rcases List.mem_cons.mp he with h | h
      · exact Or.inr (h ▸ List.mem_cons_self _ _)
      · rcases ih h with h | h
        · exact Or.inl h
        · exact Or.inr (List.mem_cons_of_mem _ h)

theorem kerningBuckets_wf (first second : Nat) (amount : Int) (bs : List Bucket)
    (h : ∀ b ∈ bs, b.WF) :
    kerningBuckets first second amount bs =
      .ok (bs.map fun b => b.attachKerning first second amount) := by
  induction bs with
  | nil => rfl
  | cons b rest ih =>
    have ih' := ih (fun x hx => h x (List.mem_cons_of_mem _ hx))
    have hb := h b (List.mem_cons_self _ _)
    simp only [kerningBuckets, List.map_cons, Bucket.attachKerning, ih', ge_iff_le]
    by_cases hr : b.StartChar ≤ first ∧ first ≤ b.EndChar
    · have hidx := wf_index_lt b hb first hr
      simp [hr, List.getElem?_eq_getElem hidx]
    · simp [hr]

theorem kerningBuckets_skip (first second : Nat) (amount : Int) (bs : List Bucket)
    (h : ∀ b ∈ bs, ¬ (b.StartChar ≤ first ∧ first ≤ b.EndChar)) :
    kerningBuckets first second amount bs = .ok bs := by
  induction bs with
  | nil => rfl
  | cons b rest ih =>
    have ih' := ih (fun x hx => h x (List.mem_cons_of_mem _ hx))
    have hb := h b (List.mem_cons_self _ _)
    simp only [kerningBuckets, ih', ge_iff_le]
    simp [hb]

theorem attachKerning_wf (b : Bucket) (first second : Nat) (amount : Int) (hb : b.WF) :
    (b.attachKerning first second amount).WF := by
  unfold Bucket.attachKerning
  split
  · split
    · rename_i c hc
      obtain ⟨hs, hne, he, hid⟩ := hb
      refine ⟨hs, ?_, ?_, ?_⟩
      · intro hnil
        have := congrArg List.length hnil
        simp at this
        exact hne this
      · simpa using he
      · intro i hi
        simp only [List.length_set] at hi
        simp only [List.getElem_set]
        split
        · rename_i heq
          have h1 := hid i hi
          have h2 : b.Chars[i]? = some c := by rw [← heq]; exact hc
          rw [List.getElem?_eq_getElem hi] at h2
          have h3 : b.Chars[i] = c := Option.some.inj h2
          rw [← h3]; exact h1
        · exact hid i hi
    · exact hb
  · exact hb

theorem insertBuckets_forall (P : Bucket → Prop) (c : Char) (bs : List Bucket)
    (h : ∀ b ∈ bs, P b) (hnew : P ⟨c.ID, c.ID, [c]⟩)
    (hext : ∀ b, P b → c.ID = (b.EndChar + 1) % 4294967296 →
      P { b with EndChar := c.ID, Chars := b.Chars ++ [c] }) :
    ∀ b ∈ insertBuckets c bs, P b := by
  induction bs with
  | nil =>
    intro b hb
    simp only [insertBuckets, List.mem_singleton] at hb
    subst hb
    exact hnew
  | cons b0 rest ih =>
    intro b hb
    simp only [insertBuckets] at hb
    split at hb
    · rename_i heq
      rcases List.mem_cons.mp hb with hb | hb
      · subst hb; exact hext b0 (h b0 (List.mem_cons_self _ _)) heq
      · exact h b (List.mem_cons_of_mem _ hb)
    · rcases List.mem_cons.mp hb with hb | hb
      · subst hb; exact h _ (List.mem_cons_self _ _)
      · exact ih (fun x hx => h x (List.mem_cons_of_mem _ hx)) b hb

theorem noZero_insertBuckets (c : Char) (hc : c.Kernings = none) (bs : List Bucket)
    (h : ∀ b ∈ bs, b.NoZero) : ∀ b ∈ insertBuckets c bs, b.NoZero := by
  apply insertBuckets_forall Bucket.NoZero c bs h
  · intro x hx m hm
    simp only [List.mem_singleton] at hx
    subst hx
    rw [hc] at hm
    exact absurd hm (by simp)
  · intro b hb _ x hx m hm
    simp only [List.mem_append, List.mem_singleton] at hx
    rcases hx with hx | hx
    · exact hb x hx m hm
    · subst hx
      rw [hc] at hm
      exact absurd hm (by simp)

theorem attachKerning_noZero (b : Bucket) (first second : Nat) (amount : Int)
    (hamt : amount ≠ 0) (hb : b.NoZero) : (b.attachKerning first second amount).NoZero := by
  unfold Bucket.attachKerning
  split
  · split
    · rename_i c hc
      intro x hx m hm e he
      rcases List.mem_or_eq_of_mem_set hx with hx | hx
      · exact hb x hx m hm e he
      · subst hx
        simp only [Char.setKerning, Option.some.injEq] at hm
        subst hm
        rcases mem_mapSet second amount _ e he with he | he
        · rw [he]; exact hamt
        · have hcmem : c ∈ b.Chars := List.getElem?_mem hc
          cases hk : c.Kernings with
          | none => rw [hk] at he; simp at he
          | some m0 =>
            rw [hk] at he
            exact hb c hcmem m0 hk e he
    · exact hb
  · exact hb

/-- The invariant kept by the parser: every bucket is a run in `uint32`
arithmetic and no kerning amount is 0. -/
theorem parseTagLine_inv (f : Font) (l : TagLine)
    (h : (∀ b ∈ f.Buckets, b.WF) ∧ NoZeroKerning f) :
    ∃ g, f.parseTagLine l = .ok g ∧ (∀ b ∈ g.Buckets, b.WF) ∧ NoZeroKerning g := by
  cases l with
  | char line =>
    refine ⟨f.insertChar (charFields line), rfl, ?_, ?_⟩
    · exact wf_insertBuckets _ (charFields_inv line).1 _ h.1
    · exact noZero_insertBuckets _ (charFields_inv line).2 _ h.2
  | kerning line =>
    simp only [Font.parseTagLine, Font.parseKerning]
    by_cases hz : (kerningFields line).amount = 0
    · exact ⟨f, by simp [hz], h⟩
    · rw [kerningBuckets_wf _ _ _ _ h.1]
      simp only [hz, if_false]
      refine ⟨_, rfl, ?_, ?_⟩
      · intro b hb
        simp only [List.mem_map] at hb
        obtain ⟨b0, hb0, rfl⟩ := hb
        exact attachKerning_wf b0 _ _ _ (h.1 b0 hb0)
      · intro b hb
        simp only [List.mem_map] at hb
        obtain ⟨b0, hb0, rfl⟩ := hb
        exact attachKerning_noZero b0 _ _ _ hz (h.2 b0 hb0)

theorem parseTagLines_inv (ls : List TagLine) :
    ∀ f : Font, ((∀ b ∈ f.Buckets, b.WF) ∧ NoZeroKerning f) →
      ∃ g, parseTagLines f ls = .ok g ∧ (∀ b ∈ g.Buckets, b.WF) ∧ NoZeroKerning g := by
  induction ls with
  | nil => intro f h; exact ⟨f, rfl, h⟩
  | cons l rest ih =>
    intro f h
    obtain ⟨g, hg, hinv⟩ := parseTagLine_inv f l h
    obtain ⟨g', hg', hinv'⟩ := ih g hinv
    exact ⟨g', by simp only [parseTagLines, hg, hg'], hinv'⟩

theorem emptyFont_inv : (∀ b ∈ emptyFont.Buckets, b.WF) ∧ NoZeroKerning emptyFont := by
  constructor
  · intro b hb; simp [emptyFont] at hb
  · intro b hb; simp [emptyFont] at hb

theorem reachable_wf (f : Font) (hf : Reachable f) : ∀ b ∈ f.Buckets, b.WF := by
  obtain ⟨ls, hls⟩ := hf
  obtain ⟨g, hg, hinv⟩ := parseTagLines_inv ls emptyFont emptyFont_inv
  rw [hls] at hg
  cases hg
  exact hinv.1

/-- C6. For every sequence of char and kerning lines, parsing from the empty font
ends without error or panic, and no glyph's `Kernings` map in the resulting font
has an entry whose amount is 0. -/
theorem parse_no_zero_kerning (ls : List TagLine) :
    ∃ f, parseTagLines emptyFont ls = .ok f ∧ NoZeroKerning f := by
  obtain ⟨g, hg, hinv⟩ := parseTagLines_inv ls emptyFont emptyFont_inv
  exact ⟨g, hg, hinv.2⟩

/-! ## What parseKerning changes -/

theorem setKerning_kerning_same (c : Char) (second : Nat) (amount : Int) :
    (c.setKerning second amount).kerning second = some amount := by
  simp [Char.kerning, Char.setKerning, mapGet_mapSet_same]

theorem setKerning_kerning_other (c : Char) (second s : Nat) (amount : Int) (hs : s ≠ second) :
    (c.setKerning second amount).kerning s = c.kerning s := by
  simp [Char.kerning, Char.setKerning, mapGet_mapSet_other _ _ _ _ hs]

theorem setKerning_rest (c : Char) (second : Nat) (amount : Int) :
    { c.setKerning second amount with Kernings := c.Kernings } = c := by
  cases c; rfl

theorem attachKerning_spec (b : Bucket) (hb : b.WF) (first second : Nat) (amount : Int) :
    (b.attachKerning first second amount).StartChar = b.StartChar ∧
    (b.attachKerning first second amount).EndChar = b.EndChar ∧
    (b.attachKerning first second amount).Chars.length = b.Chars.length ∧
    ((b.StartChar ≤ first ∧ first ≤ b.EndChar) → first - b.StartChar < b.Chars.length) ∧
    ∀ (k : Nat) (c c' : Char), b.Chars[k]? = some c →
      (b.attachKerning first second amount).Chars[k]? = some c' →
      if (b.StartChar ≤ first ∧ first ≤ b.EndChar) ∧ k = first - b.StartChar then
        c'.kerning second = some amount ∧
        (∀ s, s ≠ second → c'.kerning s = c.kerning s) ∧
        { c' with Kernings := c.Kernings } = c
      else c' = c := by
  by_cases hr : b.StartChar ≤ first ∧ first ≤ b.EndChar
  · have hidx := wf_index_lt b hb first hr
    obtain ⟨c0, hc0⟩ : ∃ c0, b.Chars[first - b.StartChar]? = some c0 :=
      ⟨_, List.getElem?_eq_getElem hidx⟩
    have hat : b.attachKerning first second amount =
        { b with Chars := b.Chars.set (first - b.StartChar) (c0.setKerning second amount) } := by
      simp [Bucket.attachKerning, hr, hc0]
    rw [hat]
    refine ⟨rfl, rfl, by simp, fun _ => hidx, ?_⟩
    intro k c c' hc hc'
    simp only [List.getElem?_set] at hc'
    by_cases hk : k = first - b.StartChar
    · subst hk
      simp only [hidx, if_true, Option.some.injEq] at hc'
      rw [hc0, Option.some.injEq] at hc
      subst hc'
      subst hc
      simp only [hr, and_self, if_true]
      exact ⟨setKerning_kerning_same _ second amount,
        fun s hs => setKerning_kerning_other _ second s amount hs,
        setKerning_rest _ second amount⟩
    · have hk' : ¬ first - b.StartChar = k := fun h => hk h.symm
      simp only [hk', if_false] at hc'
      rw [hc] at hc'
      simp only [hk, and_false, if_false]
      exact (Option.some.inj hc').symm
  · have hat : b.attachKerning first second amount = b := by
      simp [Bucket.attachKerning, hr]
    rw [hat]
    refine ⟨rfl, rfl, rfl, fun h => absurd h hr, ?_⟩
    intro k c c' hc hc'
    rw [hc] at hc'
    simp only [hr, false_and, if_false]
    exact (Option.some.inj hc').symm

theorem parseKerning_attached_of_wf (f : Font) (hwf : ∀ b ∈ f.Buckets, b.WF) (line : GoString)
    (hamt : (kerningFields line).amount ≠ 0) :
    ∃ g, f.parseKerning line = .ok g ∧
      KerningAttached f g (kerningFields line).first (kerningFields line).second
        (kerningFields line).amount := by
  simp only [Font.parseKerning, hamt, if_false, kerningBuckets_wf _ _ _ _ hwf]
  refine ⟨_, rfl, rfl, by simp, ?_⟩
  intro j b b' hb hb'
  simp only [List.getElem?_map, hb, Option.map_some', Option.some.injEq] at hb'
  subst hb'
  exact attachKerning_spec b (hwf b (List.getElem?_mem hb)) _ _ _

/-- C7, the claim as stated fails: after two char lines with id=65 the font has
two buckets `[65,65]`; the line `kerning first=65 second=66 amount=-2` has its
first code point in bucket 0, and `parseKerning` also changes the glyph of
bucket 1. -/
theorem parseKerning_changes_other_bucket :
    parseTagLines emptyFont [.char "char id=65".toList, .char "char id=65".toList] =
        .ok { Buckets := [⟨65, 65, [{ ID := 65 }]⟩, ⟨65, 65, [{ ID := 65 }]⟩] } ∧
      Font.parseKerning { Buckets := [⟨65, 65, [{ ID := 65 }]⟩, ⟨65, 65, [{ ID := 65 }]⟩] }
          "kerning first=65 second=66 amount=-2".toList =
        .ok { Buckets := [⟨65, 65, [{ ID := 65, Kernings := some [(66, -2)] }]⟩,
                          ⟨65, 65, [{ ID := 65, Kernings := some [(66, -2)] }]⟩] } ∧
      ({ ID := 65, Kernings := some [(66, -2)] } : Char) ≠ { ID := 65 } := by
  decide

/-- C7, amended. For every font built by parsing char and kerning lines and
every kerning line whose decoded amount is not 0, `parseKerning` ends without
error or panic and sets `Kernings[second] = amount` on the glyph at index
`first - s` of every bucket `[s,e]` whose range holds `first` (that index is
within the bucket), and changes no other glyph and nothing else of the font. -/
theorem parseKerning_attached (f : Font) (hf : Reachable f) (line : GoString)
    (hamt : (kerningFields line).amount ≠ 0) :
    ∃ g, f.parseKerning line = .ok g ∧
      KerningAttached f g (kerningFields line).first (kerningFields line).second
        (kerningFields line).amount :=
  parseKerning_attached_of_wf f (reachable_wf f hf) line hamt

theorem parseKerning_attached_witness :
    ∃ g, Font.parseKerning { Buckets := [⟨65, 66, [{ ID := 65 }, { ID := 66 }]⟩] }
        "kerning first=65 second=66 amount=-2".toList = .ok g ∧
      KerningAttached { Buckets := [⟨65, 66, [{ ID := 65 }, { ID := 66 }]⟩] } g
        (kerningFields "kerning first=65 second=66 amount=-2".toList).first
        (kerningFields "kerning first=65 second=66 amount=-2".toList).second
        (kerningFields "kerning first=65 second=66 amount=-2".toList).amount :=
  parseKerning_attached { Buckets := [⟨65, 66, [{ ID := 65 }, { ID := 66 }]⟩] }
    ⟨[.char "char id=65".toList, .char "char id=66".toList], by decide⟩
    "kerning first=65 second=66 amount=-2".toList (by decide)

/-- C8, the claim as stated fails: the line `kerning first=65 second=66
amount=65536` has an amount that is not zero and a first code point inside the
bucket `[65,65]`, and `parseKerning` inserts nothing: `int16(65536)` is 0. -/
theorem parseKerning_drops_amount_65536 :
    lineValue "amount".toList "kerning first=65 second=66 amount=65536".toList = some 65536 ∧
      lineValue "first".toList "kerning first=65 second=66 amount=65536".toList = some 65 ∧
      parseTagLines emptyFont [.char "char id=65".toList] =
        .ok { Buckets := [⟨65, 65, [{ ID := 65 }]⟩] } ∧
      Font.parseKerning { Buckets := [⟨65, 65, [{ ID := 65 }]⟩] }
          "kerning first=65 second=66 amount=65536".toList =
        .ok { Buckets := [⟨65, 65, [{ ID := 65 }]⟩] } := by
  decide

/-- C8, amended. `parseKerning` returns no error and leaves the font unchanged
whenever the amount decoded from the line (`int16` of the written value) is 0 or
the decoded first code point (`uint32` of the written value) lies in no bucket's
range; conversely, on a font built by parsing char and kerning lines, a line
whose decoded amount is not 0 is inserted into every bucket whose range holds
the decoded first code point: the glyph at index `first - StartChar` of that
bucket then has `Kernings[second] = amount`. -/
theorem parseKerning_drop_or_insert (f : Font) (line : GoString) :
    (((kerningFields line).amount = 0 ∨ ¬ Covered f.Buckets (kerningFields line).first) →
        f.parseKerning line = .ok f) ∧
    (Reachable f → (kerningFields line).amount ≠ 0 →
      ∃ g, f.parseKerning line = .ok g ∧
        ∀ (j : Nat) (b : Bucket), f.Buckets[j]? = some b →
          (b.StartChar ≤ (kerningFields line).first ∧ (kerningFields line).first ≤ b.EndChar) →
          ∃ b' c', g.Buckets[j]? = some b' ∧
            b'.Chars[(kerningFields line).first - b.StartChar]? = some c' ∧
            c'.kerning (kerningFields line).second = some (kerningFields line).amount) := by
  constructor
  · intro h
    by_cases hz : (kerningFields line).amount = 0
    · simp [Font.parseKerning, hz]
    · have hnc : ¬ Covered f.Buckets (kerningFields line).first := h.resolve_left hz
      have hskip := kerningBuckets_skip (kerningFields line).first (kerningFields line).second
        (kerningFields line).amount f.Buckets (fun b hb hr => hnc ⟨b, hb, hr⟩)
      simp [Font.parseKerning, hz, hskip]
  · intro hf hamt
    obtain ⟨g, hg, _, hlen, hat⟩ := parseKerning_attached_of_wf f (reachable_wf f hf) line hamt
    refine ⟨g, hg, ?_⟩
    intro j b hb hr
    have hj : j < f.Buckets.length := (List.getElem?_eq_some.mp hb).1
    have hj' : j < g.Buckets.length := by omega
    obtain ⟨_, _, hcl, hidx, hpt⟩ := hat j b g.Buckets[j] hb (List.getElem?_eq_getElem hj')
    have hi := hidx hr
    have hi' : (kerningFields line).first - b.StartChar < g.Buckets[j].Chars.length := by omega
    have := hpt _ _ _ (List.getElem?_eq_getElem hi) (List.getElem?_eq_getElem hi')
    simp only [hr, and_self, if_true] at this
    exact ⟨_, _, List.getElem?_eq_getElem hj', List.getElem?_eq_getElem hi', this.1⟩

theorem parseKerning_drop_or_insert_witness :
    Font.parseKerning { Buckets := [⟨65, 65, [{ ID := 65 }]⟩] }
        "kerning first=66 second=65 amount=3".toList =
      .ok { Buckets := [⟨65, 65, [{ ID := 65 }]⟩] } ∧
    ∃ g b' c', Font.parseKerning { Buckets := [⟨65, 65, [{ ID := 65 }]⟩] }
        "kerning first=65 second=66 amount=-2".toList = .ok g ∧
      g.Buckets[0]? = some b' ∧ b'.Chars[0]? = some c' ∧ c'.kerning 66 = some (-2) := by
  refine ⟨(parseKerning_drop_or_insert { Buckets := [⟨65, 65, [{ ID := 65 }]⟩] }
      "kerning first=66 second=65 amount=3".toList).1 (Or.inr (by decide)), ?_⟩
  obtain ⟨g, hg, h⟩ := (parseKerning_drop_or_insert { Buckets := [⟨65, 65, [{ ID := 65 }]⟩] }
      "kerning first=65 second=66 amount=-2".toList).2
      ⟨[.char "char id=65".toList], by decide⟩ (by decide)
  obtain ⟨b', c', h1, h2, h3⟩ := h 0 ⟨65, 65, [{ ID := 65 }]⟩ rfl (by decide)
  exact ⟨g, b', c', hg, h1, h2, h3⟩

/-! ## The scenario with the chars 65 and 66 -/

theorem scenario_of_decoded (l1 l2 lk : GoString) (h1 : (charFields l1).ID = 65)
    (h2 : (charFields l2).ID = 66) (hk : kerningFields lk = ⟨65, 66, -2⟩) :
    parseTagLines emptyFont [.char l1, .char l2, .kerning lk] =
      .ok { Buckets :=
        [⟨65, 66, [{ charFields l1 with Kernings := some [(66, -2)] }, charFields l2]⟩] } := by
  have hn1 := (charFields_inv l1).2
  simp [parseTagLines, Font.parseTagLine, Font.parseChar, Font.insertChar, emptyFont,
    insertBuckets, Font.parseKerning, kerningBuckets, Char.setKerning, mapSet, h1, h2, hk, hn1]

/-- C9. Parsing, from the empty font, a char line with id=65, then a char line
with id=66, then the line `kerning first=65 second=66 amount=-2` gives a font
with exactly one bucket, with `StartChar` 65, `EndChar` 66 and two glyphs: the
glyph decoded from the first line, now with the kerning mapping `{66: -2}`, and
the glyph decoded from the second line, with no kerning mapping. -/
theorem scenario_chars_65_66 (l1 l2 : GoString) (h1 : (charFields l1).ID = 65)
    (h2 : (charFields l2).ID = 66) :
    parseTagLines emptyFont
        [.char l1, .char l2, .kerning "kerning first=65 second=66 amount=-2".toList] =
      .ok { Buckets :=
        [⟨65, 66, [{ charFields l1 with Kernings := some [(66, -2)] }, charFields l2]⟩] } ∧
    ({ charFields l1 with Kernings := some [(66, -2)] } : Char).ID = 65 ∧
    (charFields l2).ID = 66 ∧ (charFields l2).Kernings = none :=
  ⟨scenario_of_decoded l1 l2 _ h1 h2 (by decide), h1, h2, (charFields_inv l2).2⟩

theorem scenario_chars_65_66_witness :
    parseTagLines emptyFont
        [.char "char id=65 x=0 y=0 width=8 height=9 xoffset=0 yoffset=1 xadvance=8 page=0".toList,
         .char "char id=66 x=8 y=0 width=7 height=9 xoffset=1 yoffset=1 xadvance=8 page=0".toList,
         .kerning "kerning first=65 second=66 amount=-2".toList] =
      .ok { Buckets := [⟨65, 66,
        [{ charFields
             "char id=65 x=0 y=0 width=8 height=9 xoffset=0 yoffset=1 xadvance=8 page=0".toList with
           Kernings := some [(66, -2)] },
         charFields
           "char id=66 x=8 y=0 width=7 height=9 xoffset=1 yoffset=1 xadvance=8 page=0".toList]⟩] } ∧
    ({ charFields
         "char id=65 x=0 y=0 width=8 height=9 xoffset=0 yoffset=1 xadvance=8 page=0".toList with
       Kernings := some [(66, -2)] } : Char).ID = 65 ∧
    (charFields
      "char id=66 x=8 y=0 width=7 height=9 xoffset=1 yoffset=1 xadvance=8 page=0".toList).ID = 66 ∧
    (charFields
      "char id=66 x=8 y=0 width=7 height=9 xoffset=1 yoffset=1 xadvance=8 page=0".toList).Kernings =
      none :=
  scenario_chars_65_66
    "char id=65 x=0 y=0 width=8 height=9 xoffset=0 yoffset=1 xadvance=8 page=0".toList
    "char id=66 x=8 y=0 width=7 height=9 xoffset=1 yoffset=1 xadvance=8 page=0".toList
    (by decide) (by decide)

/-! ## Page bytes: what is written is read back -/

theorem hexVal_hexDigit (k : Nat) (h : k < 16) : hexVal (hexDigit k) = some k := by
  interval_cases k <;> decide

theorem emitPageBytes_cons (n b : Nat) (rest : List Nat) :
    emitPageBytes n (b :: rest) =
      byteLiteral b ++
        (if n + 1 = 16 then "\n    ".toList ++ emitPageBytes 0 rest
         else emitPageBytes (n + 1) rest) := by
  simp [emitPageBytes, byteLiteral, fmtHexBytes]

theorem emitPageBytes_literals (data : List Nat) :
    ∀ n, IsLiteralSequence (emitPageBytes n data) data := by
  induction data with
  | nil => intro n; exact ⟨[], rfl, by simp, by simp [emitPageBytes]⟩
  | cons b rest ih =>
    intro n
    rw [emitPageBytes_cons]
    by_cases h : n + 1 = 16
    · obtain ⟨seps, hlen, hsep, heq⟩ := ih 0
      refine ⟨"\n    ".toList :: seps, by simp [hlen], ?_, ?_⟩
      · intro x hx
        rcases List.mem_cons.mp hx with hx | hx
        · exact Or.inr hx
        · exact hsep x hx
      · simp [h, heq]
    · obtain ⟨seps, hlen, hsep, heq⟩ := ih (n + 1)
      refine ⟨[] :: seps, by simp [hlen], ?_, ?_⟩
      · intro x hx
        rcases List.mem_cons.mp hx with hx | hx
        · exact Or.inl hx
        · exact hsep x hx
      · simp [h, heq]

theorem read_byteLiteral (b : Nat) (hb : b < 256) (rest : List Rune) :
    readLiteralsAux .start (byteLiteral b ++ rest) =
      (readLiteralsAux .start rest).map (b :: ·) := by
  have hshape : byteLiteral b ++ rest =
      '0' :: 'x' :: hexDigit (b / 16) :: hexDigit (b % 16) :: ',' :: ' ' :: rest := rfl
  have h1 : hexVal (hexDigit (b / 16)) = some (b / 16) := hexVal_hexDigit _ (by omega)
  have h2 : hexVal (hexDigit (b % 16)) = some (b % 16) := hexVal_hexDigit _ (by omega)
  have h3 : hexVal ',' = none := by decide
  have hacc : b / 16 * 16 + b % 16 = b := by omega
  rw [hshape]
  simp [readLiteralsAux, h1, h2, h3, hacc, hb]

theorem read_lineBreak (rest : List Rune) :
    readLiteralsAux .start ("\n    ".toList ++ rest) = readLiteralsAux .start rest := by
  have hshape : "\n    ".toList ++ rest = '\n' :: ' ' :: ' ' :: ' ' :: ' ' :: rest := rfl
  rw [hshape]
  simp [readLiteralsAux]

theorem read_emitPageBytes (data : List Nat) (h : ∀ b ∈ data, b < 256) :
    ∀ (n : Nat) (tail : List Rune),
      readLiteralsAux .start (emitPageBytes n data ++ tail) =
        (readLiteralsAux .start tail).map (data ++ ·) := by
  induction data with
  | nil => intro n tail; simp [emitPageBytes]
  | cons b rest ih =>
    intro n tail
    have hb := h b (List.mem_cons_self _ _)
    have ih' := ih (fun x hx => h x (List.mem_cons_of_mem _ hx))
    rw [emitPageBytes_cons, List.append_assoc, read_byteLiteral b hb]
    by_cases hn : n + 1 = 16
    · simp only [hn, if_true, List.append_assoc]
      rw [read_lineBreak, ih' 0 tail, Option.map_map]
      rfl
    · simp only [hn, if_false]
      rw [ih' (n + 1) tail, Option.map_map]
      rfl

/-- C10. For every byte sequence read from a page file, the text `EmitCFont`
writes between the braces of that page's byte array is, after the opening line
break and before the closing one, one literal per byte in file order, each of
the form `0x<hex>` followed by `, ` (and by a line break after every 16th);
reading each literal back as one byte gives exactly the original byte sequence,
with the same length. -/
theorem page_bytes_roundtrip (name : GoString) (i : Nat) (page : Page)
    (h : ∀ b ∈ page.PageData, b < 256) :
    emitPage name i page =
        pageHead name i ++ "\x7b".toList ++ pageBody page.PageData ++ "\x7d;\n\n".toList ∧
      (∃ text, pageBody page.PageData = "\n    ".toList ++ text ++ "\n".toList ∧
        IsLiteralSequence text page.PageData) ∧
      readLiterals (pageBody page.PageData) = some page.PageData ∧
      ∀ bytes, readLiterals (pageBody page.PageData) = some bytes →
        bytes.length = page.PageData.length := by
  have hread : readLiterals (pageBody page.PageData) = some page.PageData := by
    unfold readLiterals pageBody
    rw [List.append_assoc, read_lineBreak, read_emitPageBytes page.PageData h 0]
    simp [readLiteralsAux]
  refine ⟨rfl, ⟨_, rfl, emitPageBytes_literals page.PageData 0⟩, hread, ?_⟩
  intro bytes hbytes
  rw [hread] at hbytes
  rw [← Option.some.inj hbytes]

theorem page_bytes_roundtrip_witness :
    emitPage "TEST".toList 0 ⟨4, [222, 173, 190, 239]⟩ =
        pageHead "TEST".toList 0 ++ "\x7b".toList ++ pageBody [222, 173, 190, 239] ++
          "\x7d;\n\n".toList ∧
      (∃ text, pageBody [222, 173, 190, 239] = "\n    ".toList ++ text ++ "\n".toList ∧
        IsLiteralSequence text [222, 173, 190, 239]) ∧
      readLiterals (pageBody [222, 173, 190, 239]) = some [222, 173, 190, 239] ∧
      ∀ bytes, readLiterals (pageBody [222, 173, 190, 239]) = some bytes →
        bytes.length = [222, 173, 190, 239].length :=
  page_bytes_roundtrip "TEST".toList 0 ⟨4, [222, 173, 190, 239]⟩ (by decide)

/-! ## Away from the wrap: fonts without the glyph `2^32-1`

When the ID `2^32-1` is never inserted, `EndChar+1` never wraps, and the buckets
are runs in the integers that cover exactly the inserted IDs. -/

theorem foldl_insert_forall (P : Bucket → Prop) (cs : List Char)
    (hnew : ∀ c ∈ cs, P ⟨c.ID, c.ID, [c]⟩)
    (hext : ∀ c ∈ cs, ∀ b, P b → c.ID = (b.EndChar + 1) % 4294967296 →
      P { b with EndChar := c.ID, Chars := b.Chars ++ [c] }) :
    ∀ bs : List Bucket, (∀ b ∈ bs, P b) →
      ∀ b ∈ cs.foldl (fun bs c => insertBuckets c bs) bs, P b := by
  induction cs with
  | nil => intro bs h; simpa using h
  | cons c cs ih =>
    intro bs h
    simp only [List.foldl_cons]
    exact ih (fun x hx => hnew x (List.mem_cons_of_mem _ hx))
      (fun x hx => hext x (List.mem_cons_of_mem _ hx)) _
      (insertBuckets_forall P c bs h (hnew c (List.mem_cons_self _ _))
        (hext c (List.mem_cons_self _ _)))

theorem insertChars_nowrap (cs : List Char) (hcs : ∀ c ∈ cs, c.ID < 4294967295) :
    ∀ b ∈ (insertChars emptyFont cs).Buckets,
      b.WF ∧ b.StartChar + (b.Chars.length - 1) < 4294967295 := by
  rw [insertChars_buckets]
  apply foldl_insert_forall (fun b => b.WF ∧ b.StartChar + (b.Chars.length - 1) < 4294967295) cs
  · intro c hc
    have := hcs c hc
    exact ⟨wf_singleton c (by omega), by simp only [List.length_singleton]; omega⟩
  · intro c hc b hb heq
    have hlt := hcs c hc
    refine ⟨wf_extend b c hb.1 heq, ?_⟩
    obtain ⟨⟨_, hne, he, _⟩, hnw⟩ := hb
    have hlen : 0 < b.Chars.length := List.length_pos.mpr hne
    simp only [List.length_append, List.length_singleton]
    omega
  · intro b hb; simp [emptyFont] at hb

theorem isRun_of_nowrap (b : Bucket)
    (h : b.WF ∧ b.StartChar + (b.Chars.length - 1) < 4294967295) : b.IsRun := by
  obtain ⟨⟨_, hne, he, hid⟩, hnw⟩ := h
  have hlen : 0 < b.Chars.length := List.length_pos.mpr hne
  refine ⟨by omega, ?_⟩
  intro i hi
  rw [hid i hi]
  omega

/-- When the ID `2^32-1` is not among the inserted IDs, every bucket has
`len(Chars) = EndChar - StartChar + 1` and `Chars[i].ID = StartChar + i`. -/
theorem insertChars_isRun_below_max (cs : List Char) (hcs : ∀ c ∈ cs, c.ID < 4294967295) :
    ∀ b ∈ (insertChars emptyFont cs).Buckets, b.IsRun :=
  fun b hb => isRun_of_nowrap b (insertChars_nowrap cs hcs b hb)

theorem covered_iff_allIDs (bs : List Bucket)
    (h : ∀ b ∈ bs, b.WF ∧ b.StartChar + (b.Chars.length - 1) < 4294967295) (c : Nat) :
    Covered bs c ↔ c ∈ allIDs bs := by
  constructor
  · rintro ⟨b, hb, hr⟩
    simp only [allIDs, List.mem_flatMap]
    exact ⟨b, hb, wf_range_mem b (h b hb).1 c hr⟩
  · intro hc
    simp only [allIDs, List.mem_flatMap, List.mem_map] at hc
    obtain ⟨b, hb, ch, hch, rfl⟩ := hc
    obtain ⟨i, hi, rfl⟩ := List.mem_iff_getElem.mp hch
    obtain ⟨⟨_, hne, he, hid⟩, hnw⟩ := h b hb
    refine ⟨b, hb, ?_⟩
    rw [hid i hi]
    omega

/-- When the ID `2^32-1` is not among the inserted IDs, a code point lies in the
range of some bucket if and only if it is an inserted ID, and if the inserted IDs
are not one contiguous interval there are two or more buckets. -/
theorem insertChars_coverage_below_max (cs : List Char) (hcs : ∀ c ∈ cs, c.ID < 4294967295) :
    (∀ c, Covered (insertChars emptyFont cs).Buckets c ↔ c ∈ cs.map (·.ID)) ∧
      (¬ IsInterval (cs.map (·.ID)) → 2 ≤ (insertChars emptyFont cs).Buckets.length) := by
  have hnw := insertChars_nowrap cs hcs
  have hcov : ∀ c, Covered (insertChars emptyFont cs).Buckets c ↔ c ∈ cs.map (·.ID) :=
    fun c => (covered_iff_allIDs _ hnw c).trans (allIDs_insertChars cs).mem_iff
  refine ⟨hcov, ?_⟩
  intro hni
  by_contra hlen
  apply hni
  match hbs : (insertChars emptyFont cs).Buckets with
  | [] =>
    refine ⟨1, 0, fun c => ?_⟩
    rw [← hcov c, hbs]
    simp only [Covered, List.not_mem_nil, false_and, exists_false, false_iff]
    omega
  | [b] =>
    refine ⟨b.StartChar, b.EndChar, fun c => ?_⟩
    rw [← hcov c, hbs]
    simp [Covered]
  | _ :: _ :: _ =>
    rw [hbs] at hlen
    simp at hlen

/-! ## parseKerning stays within the glyphs of a bucket -/

theorem parseKerning_wf (f g : Font) (line : GoString) (hwf : ∀ b ∈ f.Buckets, b.WF)
    (h : f.parseKerning line = .ok g) : ∀ b ∈ g.Buckets, b.WF := by
  simp only [Font.parseKerning] at h
  by_cases hz : (kerningFields line).amount = 0
  · simp only [hz, if_true, Except.ok.injEq] at h
    subst h
    exact hwf
  · simp only [hz, if_false, kerningBuckets_wf _ _ _ _ hwf, Except.ok.injEq] at h
    subst h
    intro b hb
    simp only [List.mem_map] at hb
    obtain ⟨b0, hb0, rfl⟩ := hb
    exact attachKerning_wf b0 _ _ _ (hwf b0 hb0)

theorem built_wf (f : Font) (hf : Built f) : ∀ b ∈ f.Buckets, b.WF := by
  induction hf with
  | empty => intro b hb; simp [emptyFont] at hb
  | insertChar f c _ hc ih => exact wf_insertBuckets c hc f.Buckets ih
  | parseChar f g line _ h ih =>
    simp only [Font.parseChar, Except.ok.injEq] at h
    subst h
    exact wf_insertBuckets _ (charFields_inv line).1 f.Buckets ih
  | parseKerning f g line _ h ih => exact parseKerning_wf f g line ih h

theorem parseKerning_ok_of_wf (f : Font) (hwf : ∀ b ∈ f.Buckets, b.WF) (line : GoString) :
    ∃ g, f.parseKerning line = .ok g := by
  simp only [Font.parseKerning]
  by_cases hz : (kerningFields line).amount = 0
  · exact ⟨f, by simp [hz]⟩
  · simp only [hz, if_false, kerningBuckets_wf _ _ _ _ hwf]
    exact ⟨_, rfl⟩

/-- C20. For every font reachable from the empty font by calls of `insertChar`,
`parseChar` and `parseKerning`, and every kerning line: in every bucket, whenever
`StartChar <= first <= EndChar` holds the index `first - StartChar` is within
`bucket.Chars`, so `parseKerning` returns a font and does not panic. The
invariant behind it is kept modulo `2^32`, so it also holds after `EndChar+1`
has wrapped to 0 at the glyph ID `2^32-1`. -/
theorem parseKerning_index_in_bounds (f : Font) (hf : Built f) (line : GoString) :
    (∀ b ∈ f.Buckets, ∀ first : Nat, b.StartChar ≤ first ∧ first ≤ b.EndChar →
        first - b.StartChar < b.Chars.length) ∧
      ∃ g, f.parseKerning line = .ok g :=
  ⟨fun b hb first hr => wf_index_lt b (built_wf f hf b hb) first hr,
    parseKerning_ok_of_wf f (built_wf f hf) line⟩

theorem parseKerning_index_in_bounds_witness :
    (∀ b ∈ ((emptyFont.insertChar { ID := 4294967295 }).insertChar { ID := 0 }).Buckets,
        ∀ first : Nat, b.StartChar ≤ first ∧ first ≤ b.EndChar →
          first - b.StartChar < b.Chars.length) ∧
      ∃ g, ((emptyFont.insertChar { ID := 4294967295 }).insertChar { ID := 0 }).parseKerning
        "kerning first=4294967295 second=0 amount=3".toList = .ok g :=
  parseKerning_index_in_bounds _
    (Built.insertChar _ _ (Built.insertChar _ _ Built.empty (by decide)) (by decide))
    "kerning first=4294967295 second=0 amount=3".toList

/-! ## The dispatch of ParseDescriptor -/

theorem startsWith_iff (line p : GoString) : startsWith line p = true ↔ p <+: line := by
  simp [startsWith]

theorem startsWith_excl (line p q : GoString) (hpq : p.isPrefixOf q = false)
    (hqp : q.isPrefixOf p = false) (hp : startsWith line p = true) :
    startsWith line q = false := by
  cases hq : startsWith line q with
  | false => rfl
  | true =>
    rcases List.prefix_or_prefix_of_prefix ((startsWith_iff line p).mp hp)
        ((startsWith_iff line q).mp hq) with h | h
    · rw [← List.isPrefixOf_iff_prefix] at h
      rw [h] at hpq
      exact absurd hpq (by simp)
    · rw [← List.isPrefixOf_iff_prefix] at h
      rw [h] at hqp
      exact absurd hqp (by simp)

theorem classify_cases (line : GoString) :
    (classify line = .info ↔ startsWith line "info".toList = true) ∧
    (classify line = .common ↔ startsWith line "common".toList = true) ∧
    (classify line = .page ↔ startsWith line "page".toList = true) ∧
    (classify line = .char ↔
      startsWith line "char".toList = true ∧ startsWith line "chars".toList = false) ∧
    (classify line = .kerning ↔
      startsWith line "kerning".toList = true ∧ startsWith line "kernings".toList = false) ∧
    (classify line = .chars ↔ startsWith line "chars".toList = true) ∧
    (classify line = .kernings ↔ startsWith line "kernings".toList = true) ∧
    (classify line = .none ↔
      startsWith line "info".toList = false ∧ startsWith line "common".toList = false ∧
      startsWith line "page".toList = false ∧ startsWith line "char".toList = false ∧
      startsWith line "kerning".toList = false) := by
  have e1 := startsWith_excl line "common".toList "info".toList (by decide) (by decide)
  have e2 := startsWith_excl line "page".toList "info".toList (by decide) (by decide)
  have e3 := startsWith_excl line "page".toList "common".toList (by decide) (by decide)
  have e4 := startsWith_excl line "char".toList "info".toList (by decide) (by decide)
  have e5 := startsWith_excl line "char".toList "common".toList (by decide) (by decide)
  have e6 := startsWith_excl line "char".toList "page".toList (by decide) (by decide)
  have e7 := startsWith_excl line "kerning".toList "info".toList (by decide) (by decide)
  have e8 := startsWith_excl line "kerning".toList "common".toList (by decide) (by decide)
  have e9 := startsWith_excl line "kerning".toList "page".toList (by decide) (by decide)
  have e10 := startsWith_excl line "kerning".toList "char".toList (by decide) (by decide)
  have e11 : startsWith line "chars".toList = true → startsWith line "char".toList = true := by
    intro h
    exact (startsWith_iff line _).mpr
      (List.IsPrefix.trans (by decide : "char".toList <+: "chars".toList)
        ((startsWith_iff line _).mp h))
  have e12 : startsWith line "kernings".toList = true →
      startsWith line "kerning".toList = true := by
    intro h
    exact (startsWith_iff line _).mpr
      (List.IsPrefix.trans (by decide : "kerning".toList <+: "kernings".toList)
        ((startsWith_iff line _).mp h))
  unfold classify
  generalize startsWith line "info".toList = a at *
  generalize startsWith line "common".toList = b at *
  generalize startsWith line "page".toList = c at *
  generalize startsWith line "chars".toList = d at *
  generalize startsWith line "char".toList = e at *
  generalize startsWith line "kernings".toList = g at *
  generalize startsWith line "kerning".toList = h at *
  revert e1 e2 e3 e4 e5 e6 e7 e8 e9 e10 e11 e12
  cases a <;> cases b <;> cases c <;> cases d <;> cases e <;> cases g <;> cases h <;> simp

theorem fieldsAux_first (l : List Rune) :
    ∀ (cur tok : GoString) (rest : List GoString), cur ≠ [] → fieldsAux cur l = tok :: rest →
      ∃ w sfx, tok = cur ++ w ∧ l = w ++ sfx ∧
        (sfx = [] ∨ ∃ r s, sfx = r :: s ∧ isSpace r = true) := by
  induction l with
  | nil =>
    intro cur tok rest hcur h
    simp only [fieldsAux, hcur, if_false, List.cons.injEq] at h
    exact ⟨[], [], by simp [h.1], rfl, Or.inl rfl⟩
  | cons r l ih =>
    intro cur tok rest hcur h
    simp only [fieldsAux] at h
    by_cases hr : isSpace r = true
    · simp only [hr, if_true, hcur, if_false, List.cons.injEq] at h
      exact ⟨[], r :: l, by simp [h.1], rfl, Or.inr ⟨r, l, rfl, hr⟩⟩
    · simp only [hr, if_false] at h
      obtain ⟨w, sfx, htok, hl, hs⟩ := ih (cur ++ [r]) tok rest (by simp) h
      exact ⟨r :: w, sfx, by simp [htok], by simp [hl], hs⟩

/-- On a line that does not begin with white space, the first token is a prefix
of the line and is followed by white space or by the end of the line. -/
theorem firstToken_starts_line (r : Rune) (l tok : GoString) (hr : isSpace r = false)
    (h : firstToken (r :: l) = some tok) :
    ∃ sfx, r :: l = tok ++ sfx ∧ (sfx = [] ∨ ∃ x s, sfx = x :: s ∧ isSpace x = true) := by
  simp only [firstToken, fields, fieldsAux, hr, Bool.false_eq_true, if_false, List.nil_append] at h
  cases hf : fieldsAux [r] l with
  | nil => rw [hf] at h; simp at h
  | cons t rest =>
    rw [hf] at h
    simp only [List.head?_cons, Option.some.injEq] at h
    subst h
    obtain ⟨w, sfx, htok, hl, hs⟩ := fieldsAux_first l [r] t rest (by simp) hf
    exact ⟨sfx, by simp [htok, hl], hs⟩

theorem startsWith_append (tag sfx : GoString) : startsWith (tag ++ sfx) tag = true :=
  (startsWith_iff _ _).mpr (List.prefix_append tag sfx)

theorem not_startsWith_longer (tag sfx : GoString) (x : Rune) (hx : isSpace x = false)
    (hs : sfx = [] ∨ ∃ y s, sfx = y :: s ∧ isSpace y = true) :
    startsWith (tag ++ sfx) (tag ++ [x]) = false := by
  cases h : startsWith (tag ++ sfx) (tag ++ [x]) with
  | false => rfl
  | true =>
    have hp := (startsWith_iff _ _).mp h
    rw [List.prefix_append_right_inj] at hp
    obtain ⟨t, ht⟩ := hp
    rcases hs with hs | ⟨y, s, hs, hy⟩
    · rw [hs] at ht; simp at ht
    · rw [hs] at ht
      simp only [List.singleton_append, List.cons.injEq] at ht
      rw [ht.1] at hx
      rw [hx] at hy
      exact absurd hy (by simp)

/-- C15, the claim as stated fails: the first token of `charx id=65` is `charx`,
and the line is handled as a char line, which adds a bucket; `information` is
handled as an info line; and ` char id=65`, whose first token is `char`, is not
handled at all because of its leading blank. -/
theorem charx_line_is_parsed_as_char :
    firstToken "charx id=65".toList = some "charx".toList ∧
      classify "charx id=65".toList = .char ∧
      Font.parseLine noFiles [] emptyFont "charx id=65".toList =
        .ok { Buckets := [⟨65, 65, [{ ID := 65 }]⟩] } ∧
      firstToken "information".toList = some "information".toList ∧
      classify "information".toList = .info ∧
      firstToken " char id=65".toList = some "char".toList ∧
      classify " char id=65".toList = .none ∧
      Font.parseLine noFiles [] emptyFont " char id=65".toList = .ok emptyFont := by
  decide

/-- C15, amended. In the per-line dispatch of `ParseDescriptor`, a line is
handled as info, common or page exactly when its text starts with that tag, as
char exactly when it starts with `char` and not with `chars`, and as kerning
exactly when it starts with `kerning` and not with `kernings` (the text after
the tag is not looked at, and leading white space is not skipped); every other
line, that is a line starting with `chars`, with `kernings` or with none of the
five tags, leaves the font unchanged and produces no error. In particular a line
that does not begin with white space and whose first token is one of the five
tags is handled as that tag. -/
theorem dispatch_by_line_start (env : Env) (fileDir : GoString) (f : Font) (line : GoString) :
    ((classify line = .info ↔ startsWith line "info".toList = true) ∧
      (classify line = .common ↔ startsWith line "common".toList = true) ∧
      (classify line = .page ↔ startsWith line "page".toList = true) ∧
      (classify line = .char ↔
        startsWith line "char".toList = true ∧ startsWith line "chars".toList = false) ∧
      (classify line = .kerning ↔
        startsWith line "kerning".toList = true ∧ startsWith line "kernings".toList = false)) ∧
    ((classify line = .info → f.parseLine env fileDir line = f.parseInfo env line) ∧
      (classify line = .common → f.parseLine env fileDir line = f.parseCommon line) ∧
      (classify line = .page → f.parseLine env fileDir line = f.parsePage env line fileDir) ∧
      (classify line = .char → f.parseLine env fileDir line = f.parseChar line) ∧
      (classify line = .kerning → f.parseLine env fileDir line = f.parseKerning line) ∧
      ((classify line ≠ .info ∧ classify line ≠ .common ∧ classify line ≠ .page ∧
          classify line ≠ .char ∧ classify line ≠ .kerning) →
        f.parseLine env fileDir line = .ok f)) ∧
    (∀ (r : Rune) (l : GoString), line = r :: l → isSpace r = false →
      (firstToken line = some "info".toList → classify line = .info) ∧
      (firstToken line = some "common".toList → classify line = .common) ∧
      (firstToken line = some "page".toList → classify line = .page) ∧
      (firstToken line = some "char".toList → classify line = .char) ∧
      (firstToken line = some "kerning".toList → classify line = .kerning)) := by
  obtain ⟨c1, c2, c3, c4, c5, _, _, _⟩ := classify_cases line
  refine ⟨⟨c1, c2, c3, c4, c5⟩, ⟨?_, ?_, ?_, ?_, ?_, ?_⟩, ?_⟩
  · intro h; simp [Font.parseLine, h]
  · intro h; simp [Font.parseLine, h]
  · intro h; simp [Font.parseLine, h]
  · intro h; simp [Font.parseLine, h]
  · intro h; simp [Font.parseLine, h]
  · intro h
    unfold Font.parseLine
    cases hc : classify line <;> simp_all
  · intro r l hl hr
    subst hl
    refine ⟨?_, ?_, ?_, ?_, ?_⟩
    · intro ht
      obtain ⟨sfx, hsfx, _⟩ := firstToken_starts_line r l _ hr ht
      rw [c1, hsfx]; exact startsWith_append _ _
    · intro ht
      obtain ⟨sfx, hsfx, _⟩ := firstToken_starts_line r l _ hr ht
      rw [c2, hsfx]; exact startsWith_append _ _
    · intro ht
      obtain ⟨sfx, hsfx, _⟩ := firstToken_starts_line r l _ hr ht
      rw [c3, hsfx]; exact startsWith_append _ _
    · intro ht
      obtain ⟨sfx, hsfx, hs⟩ := firstToken_starts_line r l _ hr ht
      rw [c4, hsfx]
      exact ⟨startsWith_append _ _, not_startsWith_longer "char".toList sfx 's' (by decide) hs⟩
    · intro ht
      obtain ⟨sfx, hsfx, hs⟩ := firstToken_starts_line r l _ hr ht
      rw [c5, hsfx]
      exact ⟨startsWith_append _ _, not_startsWith_longer "kerning".toList sfx 's' (by decide) hs⟩

theorem dispatch_by_line_start_witness :
    classify "char id=65".toList = .char ∧
      Font.parseLine noFiles [] emptyFont "char id=65".toList =
        Font.parseChar emptyFont "char id=65".toList ∧
      Font.parseLine noFiles [] emptyFont "chars count=2".toList = .ok emptyFont :=
  ⟨((dispatch_by_line_start noFiles [] emptyFont "char id=65".toList).2.2 'c' "har id=65".toList rfl
      (by decide)).2.2.2.1 (by decide),
    (dispatch_by_line_start noFiles [] emptyFont "char id=65".toList).2.1.2.2.2.1 (by decide),
    (dispatch_by_line_start noFiles [] emptyFont "chars count=2".toList).2.1.2.2.2.2.2
      ⟨by decide, by decide, by decide, by decide, by decide⟩⟩

/-! ## The font name read by parseInfo -/

/-- C16, evaluated at the failing input: on the line `info face=A size=1 B` the
token `B` comes after the `size=` field, and `parseInfo` still appends it: the
name before normalisation is `A B`, where the property gives `A`. -/
theorem info_name_continues_after_size :
    infoLoop emptyFont false (fields "info face=A size=1 B".toList) =
        .ok ({ Name := "A B".toList, Size := 1 }, true) ∧
      claimedName (fields "info face=A size=1 B".toList) = some "A".toList ∧
      Font.parseInfo noFiles emptyFont "info face=A size=1 B".toList =
        .ok { Name := "A B".toList, Size := 1 } := by
  decide

/-! ## parseCommon: channel indices -/

theorem ite_cond {α : Type} {P : α → Prop} {c : Prop} [Decidable c] {a b : α}
    (ha : c → P a) (hb : ¬ c → P b) : P (if c then a else b) := by
  split
  · rename_i h; exact ha h
  · rename_i h; exact hb h

theorem channelAt_ok (v : Int) (h0 : 0 ≤ v) (h4 : v ≤ 4) :
    ∃ t, ChannelTypeMapping[v.toNat]? = some t ∧ channelAt v = .ok t := by
  have hlt : v.toNat < ChannelTypeMapping.length := by
    simp only [ChannelTypeMapping, List.length_cons, List.length_nil]; omega
  refine ⟨ChannelTypeMapping[v.toNat], List.getElem?_eq_getElem hlt, ?_⟩
  simp [channelAt, h0, List.getElem?_eq_getElem hlt]

theorem channelAt_panic (v : Int) (h : v < 0 ∨ 4 < v) : channelAt v = .error .panic := by
  unfold channelAt
  by_cases h0 : 0 ≤ v
  · have hge : ChannelTypeMapping.length ≤ v.toNat := by
      simp only [ChannelTypeMapping, List.length_cons, List.length_nil]; omega
    simp [h0, List.getElem?_eq_none hge]
  · simp [h0]

theorem channelAt_error (v : Int) (e : Fault) (h : channelAt v = .error e) :
    e = .panic ∧ (v < 0 ∨ 4 < v) := by
  by_cases hr : v < 0 ∨ 4 < v
  · rw [channelAt_panic v hr] at h
    exact ⟨(Except.error.inj h).symm, hr⟩
  · obtain ⟨t, _, ht⟩ := channelAt_ok v (by omega) (by omega)
    rw [ht] at h
    exact absurd h (by simp)

theorem withChannel_alpha (f : Font) (t : ChannelType) :
    f.withChannel "alphaChnl".toList t = { f with AType := t } := by
  unfold Font.withChannel
  rw [if_pos rfl]

theorem withChannel_red (f : Font) (t : ChannelType) :
    f.withChannel "redChnl".toList t = { f with RType := t } := by
  unfold Font.withChannel
  rw [if_neg (by decide), if_pos rfl]

theorem withChannel_green (f : Font) (t : ChannelType) :
    f.withChannel "greenChnl".toList t = { f with GType := t } := by
  unfold Font.withChannel
  rw [if_neg (by decide), if_neg (by decide), if_pos rfl]

theorem withChannel_blue (f : Font) (t : ChannelType) :
    f.withChannel "blueChnl".toList t = { f with BType := t } := by
  unfold Font.withChannel
  rw [if_neg (by decide), if_neg (by decide), if_neg (by decide), if_pos rfl]

theorem commonSwitch_channel (f : Font) (key : GoString) (val : Int) (hk : key ∈ channelKeys) :
    commonSwitch f key val =
      match channelAt val with
      | .error e => .error e
      | .ok t => .ok (f.withChannel key t) := by
  simp only [channelKeys, List.mem_cons, List.mem_singleton, List.not_mem_nil, or_false] at hk
  rcases hk with rfl | rfl | rfl | rfl
  · unfold commonSwitch
    rw [if_neg (by decide), if_neg (by decide), if_neg (by decide), if_neg (by decide),
      if_neg (by decide), if_pos rfl]
    simp only [withChannel_alpha]
  · unfold commonSwitch
    rw [if_neg (by decide), if_neg (by decide), if_neg (by decide), if_neg (by decide),
      if_neg (by decide), if_neg (by decide), if_pos rfl]
    simp only [withChannel_red]
  · unfold commonSwitch
    rw [if_neg (by decide), if_neg (by decide), if_neg (by decide), if_neg (by decide),
      if_neg (by decide), if_neg (by decide), if_neg (by decide), if_pos rfl]
    simp only [withChannel_green]
  · unfold commonSwitch
    rw [if_neg (by decide), if_neg (by decide), if_neg (by decide), if_neg (by decide),
      if_neg (by decide), if_neg (by decide), if_neg (by decide), if_neg (by decide),
      if_pos rfl]
    simp only [withChannel_blue]

theorem withChannel_frame (f : Font) (key : GoString) (t : ChannelType) :
    (f.withChannel key t).Buckets = f.Buckets ∧ (f.withChannel key t).Pages = f.Pages := by
  unfold Font.withChannel
  exact ite_both (P := fun g : Font => g.Buckets = f.Buckets ∧ g.Pages = f.Pages) ⟨rfl, rfl⟩
    (ite_both (P := fun g : Font => g.Buckets = f.Buckets ∧ g.Pages = f.Pages) ⟨rfl, rfl⟩
    (ite_both (P := fun g : Font => g.Buckets = f.Buckets ∧ g.Pages = f.Pages) ⟨rfl, rfl⟩
    (ite_both (P := fun g : Font => g.Buckets = f.Buckets ∧ g.Pages = f.Pages) ⟨rfl, rfl⟩
      ⟨rfl, rfl⟩)))

/-- The `switch` of `parseCommon` either gives a font with the same buckets and
pages, or panics on a channel field whose index is outside `0..4`. -/
theorem commonSwitch_cases (f : Font) (key : GoString) (val : Int) :
    (∃ g, commonSwitch f key val = .ok g ∧ g.Buckets = f.Buckets ∧ g.Pages = f.Pages) ∨
      (commonSwitch f key val = .error .panic ∧ key ∈ channelKeys ∧ (val < 0 ∨ 4 < val)) := by
  by_cases hk : key ∈ channelKeys
  · rw [commonSwitch_channel f key val hk]
    by_cases hr : val < 0 ∨ 4 < val
    · right
      rw [channelAt_panic val hr]
      exact ⟨rfl, hk, hr⟩
    · left
      obtain ⟨t, _, ht⟩ := channelAt_ok val (by omega) (by omega)
      rw [ht]
      exact ⟨_, rfl, withChannel_frame f key t⟩
  · left
    simp only [channelKeys, List.mem_cons, List.mem_singleton, List.not_mem_nil, or_false,
      not_or] at hk
    obtain ⟨k1, k2, k3, k4⟩ := hk
    unfold commonSwitch
    rw [if_neg k1, if_neg k2, if_neg k3, if_neg k4]
    exact ite_both (P := fun r : Except Fault Font =>
        ∃ g, r = .ok g ∧ g.Buckets = f.Buckets ∧ g.Pages = f.Pages) ⟨_, rfl, rfl, rfl⟩
      (ite_both (P := fun r : Except Fault Font =>
        ∃ g, r = .ok g ∧ g.Buckets = f.Buckets ∧ g.Pages = f.Pages) ⟨_, rfl, rfl, rfl⟩
      (ite_both (P := fun r : Except Fault Font =>
        ∃ g, r = .ok g ∧ g.Buckets = f.Buckets ∧ g.Pages = f.Pages) ⟨_, rfl, rfl, rfl⟩
      (ite_both (P := fun r : Except Fault Font =>
        ∃ g, r = .ok g ∧ g.Buckets = f.Buckets ∧ g.Pages = f.Pages) ⟨_, rfl, rfl, rfl⟩
      (ite_both (P := fun r : Except Fault Font =>
        ∃ g, r = .ok g ∧ g.Buckets = f.Buckets ∧ g.Pages = f.Pages) ⟨_, rfl, rfl, rfl⟩
        ⟨_, rfl, rfl, rfl⟩))))

theorem commonField_cases (f : Font) (tok : GoString) :
    (∃ g, commonField f tok = .ok g ∧ g.Buckets = f.Buckets ∧ g.Pages = f.Pages) ∨
      (commonField f tok = .error .panic ∧ BadChannel tok) := by
  unfold commonField
  split
  · rename_i key value rest hs
    cases ha : atoi value with
    | none => left; exact ⟨f, rfl, rfl, rfl⟩
    | some val =>
      rcases commonSwitch_cases f key val with h | ⟨h, hk, hr⟩
      · left; exact h
      · right; exact ⟨h, key, value, rest, val, hs, hk, ha, hr⟩
  · left; exact ⟨f, rfl, rfl, rfl⟩

theorem commonField_bad (f : Font) (tok : GoString) (h : BadChannel tok) :
    commonField f tok = .error .panic := by
  obtain ⟨key, value, rest, v, hs, hk, ha, hr⟩ := h
  unfold commonField
  rw [hs]
  simp only [ha]
  rw [commonSwitch_channel f key v hk, channelAt_panic v hr]

theorem commonLoop_bad (fs : List GoString) (tok : GoString) (hmem : tok ∈ fs)
    (hbad : BadChannel tok) : ∀ f : Font, commonLoop f fs = .error .panic := by
  induction fs with
  | nil => simp at hmem
  | cons x rest ih =>
    intro f
    simp only [commonLoop]
    rcases commonField_cases f x with ⟨g, hg, _⟩ | ⟨he, _⟩
    · rcases List.mem_cons.mp hmem with hx | hx
      · subst hx
        rw [commonField_bad f tok hbad] at hg
        exact absurd hg (by simp)
      · rw [hg]; exact ih hx g
    · rw [he]

theorem commonLoop_cases (fs : List GoString) :
    ∀ f : Font,
      (∃ g, commonLoop f fs = .ok g ∧ g.Buckets = f.Buckets ∧ g.Pages = f.Pages) ∨
        (commonLoop f fs = .error .panic ∧ ∃ tok ∈ fs, BadChannel tok) := by
  induction fs with
  | nil => intro f; left; exact ⟨f, rfl, rfl, rfl⟩
  | cons x rest ih =>
    intro f
    simp only [commonLoop]
    rcases commonField_cases f x with ⟨g, hg, hb, hp⟩ | ⟨he, hbad⟩
    · rw [hg]
      rcases ih g with ⟨g', hg', hb', hp'⟩ | ⟨he', tok, htok, hbad⟩
      · left; exact ⟨g', hg', hb'.trans hb, hp'.trans hp⟩
      · right; exact ⟨he', tok, List.mem_cons_of_mem _ htok, hbad⟩
    · rw [he]
      right; exact ⟨rfl, x, List.mem_cons_self _ _, hbad⟩

theorem commonLoop_append (a b : List GoString) :
    ∀ f : Font, commonLoop f (a ++ b) =
      match commonLoop f a with
      | .error e => .error e
      | .ok g => commonLoop g b := by
  induction a with
  | nil => intro f; rfl
  | cons x rest ih =>
    intro f
    simp only [List.cons_append, commonLoop]
    cases commonField f x with
    | error e => rfl
    | ok g => exact ih g

/-- C13. For each of the fields `alphaChnl`, `redChnl`, `greenChnl`, `blueChnl`
of a common line whose value is read (by `strconv.Atoi`) as the integer `v`: if
`0 <= v <= 4`, the loop iteration of `parseCommon` for that field sets the
corresponding channel type (`AType`, `RType`, `GType`, `BType`) to the `v`-th
entry of `[CHANNEL_GLYPH, CHANNEL_OUTLINE, CHANNEL_GLYPH_OUTLINE, CHANNEL_ZERO,
CHANNEL_ONE]` and parsing goes on with the next field; if `v` is negative or
`>= 5`, indexing the list panics, so `parseCommon` of any line that has this
field ends in a panic and returns no font. -/
theorem channel_field (f : Font) (tok key value : GoString) (rest : List GoString) (v : Int)
    (hs : splitEq tok = key :: value :: rest) (hk : key ∈ channelKeys)
    (hv : atoi value = some v) :
    ChannelTypeMapping =
        ["CHANNEL_GLYPH".toList, "CHANNEL_OUTLINE".toList, "CHANNEL_GLYPH_OUTLINE".toList,
         "CHANNEL_ZERO".toList, "CHANNEL_ONE".toList] ∧
      (∀ (g : Font) (t : ChannelType),
        g.withChannel "alphaChnl".toList t = { g with AType := t } ∧
        g.withChannel "redChnl".toList t = { g with RType := t } ∧
        g.withChannel "greenChnl".toList t = { g with GType := t } ∧
        g.withChannel "blueChnl".toList t = { g with BType := t }) ∧
      ((0 ≤ v ∧ v ≤ 4) →
        ∃ t, ChannelTypeMapping[v.toNat]? = some t ∧
          commonField f tok = .ok (f.withChannel key t) ∧
          ∀ (f0 : Font) (line : GoString) (pre post : List GoString),
            fields line = pre ++ tok :: post → commonLoop f0 pre = .ok f →
            f0.parseCommon line = commonLoop (f.withChannel key t) post) ∧
      ((v < 0 ∨ 5 ≤ v) →
        commonField f tok = .error .panic ∧
          ∀ (f0 : Font) (line : GoString), tok ∈ fields line →
            f0.parseCommon line = .error .panic) := by
  have hfield : commonField f tok =
      match channelAt v with
      | .error e => .error e
      | .ok t => .ok (f.withChannel key t) := by
    unfold commonField
    rw [hs]
    simp only [hv]
    exact commonSwitch_channel f key v hk
  refine ⟨rfl, fun g t => ⟨withChannel_alpha g t, withChannel_red g t, withChannel_green g t,
    withChannel_blue g t⟩, ?_, ?_⟩
  · intro hr
    obtain ⟨t, ht, hc⟩ := channelAt_ok v hr.1 hr.2
    rw [hc] at hfield
    refine ⟨t, ht, hfield, ?_⟩
    intro f0 line pre post hl hpre
    simp only [Font.parseCommon, hl, commonLoop_append, hpre, commonLoop, hfield]
  · intro hr
    have hbad : BadChannel tok := ⟨key, value, rest, v, hs, hk, hv, by omega⟩
    exact ⟨commonField_bad f tok hbad, fun f0 line hmem => commonLoop_bad _ tok hmem hbad f0⟩

theorem channel_field_witness :
    (∃ t, ChannelTypeMapping[(3 : Int).toNat]? = some t ∧
        commonField emptyFont "redChnl=3".toList =
          .ok (emptyFont.withChannel "redChnl".toList t)) ∧
      Font.parseCommon emptyFont "common lineHeight=20 alphaChnl=5 redChnl=3".toList =
        .error .panic := by
  refine ⟨?_, ?_⟩
  · obtain ⟨t, h1, h2, _⟩ := (channel_field emptyFont "redChnl=3".toList "redChnl".toList
      "3".toList [] 3 (by decide) (by decide) (by decide)).2.2.1 (by decide)
    exact ⟨t, h1, h2⟩
  · exact ((channel_field emptyFont "alphaChnl=5".toList "alphaChnl".toList "5".toList [] 5
      (by decide) (by decide) (by decide)).2.2.2 (by decide)).2 emptyFont
      "common lineHeight=20 alphaChnl=5 redChnl=3".toList (by decide)

/-! ## Fields that are not read as integers -/

theorem charField_skip (c : Char) (tok key value : GoString) (rest : List GoString)
    (hs : splitEq tok = key :: value :: rest) (ha : atoi value = none) : charField c tok = c := by
  unfold charField
  rw [hs]
  simp only [ha]

theorem kerningField_skip (k : KerningFields) (tok key value : GoString) (rest : List GoString)
    (hs : splitEq tok = key :: value :: rest) (ha : atoi value = none) :
    kerningField k tok = k := by
  unfold kerningField
  rw [hs]
  simp only [ha]

theorem commonField_skip (f : Font) (tok key value : GoString) (rest : List GoString)
    (hs : splitEq tok = key :: value :: rest) (ha : atoi value = none) :
    commonField f tok = .ok f := by
  unfold commonField
  rw [hs]
  simp only [ha]

theorem decimalValue_none (value : GoString) (h : decimalValue value = none) :
    atoi value = none := by
  unfold decimalValue at h
  unfold atoi
  cases value with
  | nil => rfl
  | cons r rest =>
    simp only at h ⊢
    by_cases hm : r = '-'
    · simp only [hm, if_true] at h ⊢
      cases rest with
      | nil => rfl
      | cons x xs =>
        simp only at h ⊢
        cases hd : atoiDigits 0 (x :: xs) with
        | none => rfl
        | some n => rw [hd] at h; exact absurd h (by simp)
    · simp only [hm, if_false] at h ⊢
      generalize (if r = '+' then rest else r :: rest) = d at h ⊢
      cases d with
      | nil => rfl
      | cons x xs =>
        simp only at h ⊢
        cases hd : atoiDigits 0 (x :: xs) with
        | none => rfl
        | some n => rw [hd] at h; exact absurd h (by simp)

theorem infoField_cases (f : Font) (faceField : Bool) (tok : GoString) :
    (∃ g ff, infoField f faceField tok = .ok (g, ff) ∧ g.Buckets = f.Buckets ∧
        g.Pages = f.Pages ∧ ¬ BadSize tok) ∨
      (infoField f faceField tok = .error .error ∧ BadSize tok) := by
  unfold infoField
  split
  · rename_i key value rest hs
    by_cases hface : key = "face".toList
    · left
      rw [if_pos hface]
      refine ⟨_, _, rfl, rfl, rfl, ?_⟩
      rintro ⟨v', r', hs', _⟩
      rw [hs, hface] at hs'
      exact absurd (List.cons.inj hs').1 (by decide)
    · rw [if_neg hface]
      by_cases hsize : key = "size".toList
      · rw [if_pos hsize]
        cases ha : atoi value with
        | none =>
          right
          exact ⟨rfl, value, rest, by rw [hs, hsize], ha⟩
        | some size =>
          left
          refine ⟨_, _, rfl, rfl, rfl, ?_⟩
          rintro ⟨v', r', hs', ha'⟩
          rw [hs] at hs'
          have hv : value = v' := (List.cons.inj (List.cons.inj hs').2).1
          rw [← hv, ha] at ha'
          exact absurd ha' (by simp)
      · left
        rw [if_neg hsize]
        refine ⟨_, _, rfl, rfl, rfl, ?_⟩
        rintro ⟨v', r', hs', _⟩
        rw [hs] at hs'
        exact hsize (List.cons.inj hs').1
  · rename_i hno
    have hnb : ¬ BadSize tok := by
      rintro ⟨v', r', hs', _⟩
      exact hno _ _ _ hs'
    by_cases hff : faceField = true
    · left; rw [if_pos hff]; exact ⟨_, _, rfl, rfl, rfl, hnb⟩
    · left; rw [if_neg hff]; exact ⟨_, _, rfl, rfl, rfl, hnb⟩

theorem infoLoop_cases (fs : List GoString) :
    ∀ (f : Font) (faceField : Bool),
      (∃ g ff, infoLoop f faceField fs = .ok (g, ff) ∧ g.Buckets = f.Buckets ∧
          g.Pages = f.Pages ∧ ∀ tok ∈ fs, ¬ BadSize tok) ∨
        (infoLoop f faceField fs = .error .error ∧ ∃ tok ∈ fs, BadSize tok) := by
  induction fs with
  | nil => intro f ff; left; exact ⟨f, ff, rfl, rfl, rfl, by simp⟩
  | cons x rest ih =>
    intro f ff
    simp only [infoLoop]
    rcases infoField_cases f ff x with ⟨g, ff', hg, hb, hp, hnb⟩ | ⟨he, hbad⟩
    · rw [hg]
      rcases ih g ff' with ⟨g', ff'', hg', hb', hp', hall⟩ | ⟨he', tok, htok, hbad⟩
      · left
        refine ⟨g', ff'', hg', hb'.trans hb, hp'.trans hp, ?_⟩
        intro tok htok
        rcases List.mem_cons.mp htok with h | h
        · rw [h]; exact hnb
        · exact hall tok h
      · right; exact ⟨he', tok, List.mem_cons_of_mem _ htok, hbad⟩
    · rw [he]
      right; exact ⟨rfl, x, List.mem_cons_self _ _, hbad⟩

theorem parseInfo_cases (env : Env) (f : Font) (line : GoString) :
    (∃ g, f.parseInfo env line = .ok g ∧ g.Buckets = f.Buckets ∧ g.Pages = f.Pages ∧
        ∀ tok ∈ fields line, ¬ BadSize tok) ∨
      (f.parseInfo env line = .error .error ∧ ∃ tok ∈ fields line, BadSize tok) := by
  unfold Font.parseInfo
  rcases infoLoop_cases (fields line) f false with ⟨g, ff, hg, hb, hp, hall⟩ | ⟨he, hbad⟩
  · left; rw [hg]; exact ⟨_, rfl, hb, hp, hall⟩
  · right; rw [he]; exact ⟨rfl, hbad⟩

theorem kerningBuckets_error (first second : Nat) (amount : Int) (bs : List Bucket) (e : Fault)
    (h : kerningBuckets first second amount bs = .error e) : e = .panic := by
  induction bs generalizing e with
  | nil => simp [kerningBuckets] at h
  | cons b rest ih =>
    simp only [kerningBuckets] at h
    split at h
    · split at h
      · exact (Except.error.inj h).symm
      · split at h
        · rename_i e' he
          rw [← Except.error.inj h]
          exact ih e' he
        · exact absurd h (by simp)
    · split at h
      · rename_i e' he
        rw [← Except.error.inj h]
        exact ih e' he
      · exact absurd h (by simp)

theorem parseKerning_error (f : Font) (line : GoString) (e : Fault)
    (h : f.parseKerning line = .error e) : e = .panic := by
  simp only [Font.parseKerning] at h
  split at h
  · exact absurd h (by simp)
  · split at h
    · rename_i e' he
      rw [← Except.error.inj h]
      exact kerningBuckets_error _ _ _ _ _ he
    · exact absurd h (by simp)

theorem charFields_skip (pre post : List GoString) (tok key value : GoString)
    (rest : List GoString) (line line' : GoString)
    (hs : splitEq tok = key :: value :: rest) (ha : atoi value = none)
    (hl : fields line = pre ++ tok :: post) (hl' : fields line' = pre ++ post) :
    charFields line = charFields line' := by
  simp only [charFields, hl, hl', List.foldl_append, List.foldl_cons,
    charField_skip _ tok key value rest hs ha]

theorem kerningFields_skip (pre post : List GoString) (tok key value : GoString)
    (rest : List GoString) (line line' : GoString)
    (hs : splitEq tok = key :: value :: rest) (ha : atoi value = none)
    (hl : fields line = pre ++ tok :: post) (hl' : fields line' = pre ++ post) :
    kerningFields line = kerningFields line' := by
  simp only [kerningFields, hl, hl', List.foldl_append, List.foldl_cons,
    kerningField_skip _ tok key value rest hs ha]

theorem parseCommon_skip (f : Font) (pre post : List GoString) (tok key value : GoString)
    (rest : List GoString) (line line' : GoString)
    (hs : splitEq tok = key :: value :: rest) (ha : atoi value = none)
    (hl : fields line = pre ++ tok :: post) (hl' : fields line' = pre ++ post) :
    f.parseCommon line = f.parseCommon line' := by
  simp only [Font.parseCommon, hl, hl', commonLoop_append]
  cases commonLoop f pre with
  | error e => rfl
  | ok g => simp only [commonLoop, commonField_skip g tok key value rest hs ha]

/-- C14. `parseCommon`, `parseChar` and `parseKerning` never return an error
(`parseChar` always returns a font; the other two can only end in a panic). A
`key=value` token whose value `strconv.Atoi` does not read as an integer, which
is the case of every value that is not a decimal integer, is skipped: the
result is the result of parsing the same line with that token removed.
`parseInfo` returns an error if and only if the line has a `size=` token whose
value `strconv.Atoi` does not read as an integer, and it fails in no other way. -/
theorem malformed_fields (f : Font) :
    (∀ line : GoString, (∃ g, f.parseChar line = .ok g) ∧
      f.parseCommon line ≠ .error .error ∧ f.parseKerning line ≠ .error .error) ∧
    (∀ (pre post : List GoString) (tok key value : GoString) (rest : List GoString)
        (line line' : GoString),
      splitEq tok = key :: value :: rest → atoi value = none →
      fields line = pre ++ tok :: post → fields line' = pre ++ post →
      f.parseCommon line = f.parseCommon line' ∧ f.parseChar line = f.parseChar line' ∧
        f.parseKerning line = f.parseKerning line') ∧
    (∀ value : GoString, decimalValue value = none → atoi value = none) ∧
    (∀ (env : Env) (line : GoString),
      ((∃ e, f.parseInfo env line = .error e) ↔ ∃ tok ∈ fields line, BadSize tok) ∧
        ∀ e, f.parseInfo env line = .error e → e = .error) := by
  refine ⟨?_, ?_, decimalValue_none, ?_⟩
  · intro line
    refine ⟨⟨_, rfl⟩, ?_, ?_⟩
    · intro h
      rcases commonLoop_cases (fields line) f with ⟨g, hg, _⟩ | ⟨he, _⟩
      · rw [Font.parseCommon, hg] at h; exact absurd h (by simp)
      · rw [Font.parseCommon, he] at h; exact absurd h (by simp)
    · intro h
      exact absurd (parseKerning_error f line _ h) (by simp)
  · intro pre post tok key value rest line line' hs ha hl hl'
    refine ⟨parseCommon_skip f pre post tok key value rest line line' hs ha hl hl', ?_, ?_⟩
    · simp only [Font.parseChar, charFields_skip pre post tok key value rest line line' hs ha hl hl']
    · simp only [Font.parseKerning,
        kerningFields_skip pre post tok key value rest line line' hs ha hl hl']
  · intro env line
    rcases parseInfo_cases env f line with ⟨g, hg, _, _, hall⟩ | ⟨he, hbad⟩
    · refine ⟨⟨?_, ?_⟩, ?_⟩
      · rintro ⟨e, h⟩; rw [hg] at h; exact absurd h (by simp)
      · rintro ⟨tok, htok, hbad⟩; exact absurd hbad (hall tok htok)
      · intro e h; rw [hg] at h; exact absurd h (by simp)
    · refine ⟨⟨fun _ => hbad, fun _ => ⟨_, he⟩⟩, ?_⟩
      intro e h
      rw [he] at h
      exact (Except.error.inj h).symm

theorem malformed_fields_witness :
    (Font.parseCommon emptyFont "common lineHeight=20 base=x scaleW=256".toList =
        Font.parseCommon emptyFont "common lineHeight=20 scaleW=256".toList ∧
      Font.parseChar emptyFont "common lineHeight=20 base=x scaleW=256".toList =
        Font.parseChar emptyFont "common lineHeight=20 scaleW=256".toList ∧
      Font.parseKerning emptyFont "common lineHeight=20 base=x scaleW=256".toList =
        Font.parseKerning emptyFont "common lineHeight=20 scaleW=256".toList) ∧
      atoi "x".toList = none ∧
      ∃ e, Font.parseInfo noFiles emptyFont "info face=T size=1x".toList = .error e :=
  ⟨(malformed_fields emptyFont).2.1 ["common".toList, "lineHeight=20".toList]
      ["scaleW=256".toList] "base=x".toList "base".toList "x".toList []
      "common lineHeight=20 base=x scaleW=256".toList "common lineHeight=20 scaleW=256".toList
      (by decide) (by decide) (by decide) (by decide),
    (malformed_fields emptyFont).2.2.1 "x".toList (by decide),
    ((malformed_fields emptyFont).2.2.2 noFiles "info face=T size=1x".toList).1.mpr
      ⟨"size=1x".toList, by decide, "1x".toList, [], by decide, by decide⟩⟩

/-! ## EmitCFont: the pieces of each section -/

theorem mem_declBucketItems (name : GoString) (bs : List Bucket) :
    ∀ (k : Nat) (x : Out), x ∈ declBucketItems name k bs ↔
      ∃ i, k ≤ i ∧ i < k + bs.length ∧ x = .declBucket name i := by
  induction bs with
  | nil =>
    intro k x
    simp only [declBucketItems, List.not_mem_nil, List.length_nil, false_iff]
    rintro ⟨i, h1, h2, _⟩
    omega
  | cons b rest ih =>
    intro k x
    simp only [declBucketItems, List.mem_cons, ih, List.length_cons]
    constructor
    · rintro (h | ⟨i, h1, h2, h3⟩)
      · exact ⟨k, le_refl _, by omega, h⟩
      · exact ⟨i, by omega, by omega, h3⟩
    · rintro ⟨i, h1, h2, h3⟩
      by_cases hik : i = k
      · left; rw [h3, hik]
      · right; exact ⟨i, by omega, by omega, h3⟩

theorem mem_declPageItems (name : GoString) (ps : List Page) :
    ∀ (k : Nat) (x : Out), x ∈ declPageItems name k ps ↔
      ∃ i, k ≤ i ∧ i < k + ps.length ∧ x = .declPage name i := by
  induction ps with
  | nil =>
    intro k x
    simp only [declPageItems, List.not_mem_nil, List.length_nil, false_iff]
    rintro ⟨i, h1, h2, _⟩
    omega
  | cons b rest ih =>
    intro k x
    simp only [declPageItems, List.mem_cons, ih, List.length_cons]
    constructor
    · rintro (h | ⟨i, h1, h2, h3⟩)
      · exact ⟨k, le_refl _, by omega, h⟩
      · exact ⟨i, by omega, by omega, h3⟩
    · rintro ⟨i, h1, h2, h3⟩
      by_cases hik : i = k
      · left; rw [h3, hik]
      · right; exact ⟨i, by omega, by omega, h3⟩

theorem mem_bucketRows (name : GoString) (bs : List Bucket) :
    ∀ (k : Nat) (x : Out), x ∈ bucketRows name k bs →
      ∃ i b, k ≤ i ∧ i < k + bs.length ∧ x = .bucketRow name i b := by
  induction bs with
  | nil => intro k x h; simp [bucketRows] at h
  | cons b rest ih =>
    intro k x h
    simp only [bucketRows, List.mem_cons] at h
    rcases h with h | h
    · exact ⟨k, b, le_refl _, by simp, h⟩
    · obtain ⟨i, b', h1, h2, h3⟩ := ih (k + 1) x h
      exact ⟨i, b', by omega, by simp only [List.length_cons]; omega, h3⟩

theorem mem_pageRows (name : GoString) (ps : List Page) :
    ∀ (k : Nat) (x : Out), x ∈ pageRows name k ps →
      ∃ i p, k ≤ i ∧ i < k + ps.length ∧ x = .pageRow name i p := by
  induction ps with
  | nil => intro k x h; simp [pageRows] at h
  | cons b rest ih =>
    intro k x h
    simp only [pageRows, List.mem_cons] at h
    rcases h with h | h
    · exact ⟨k, b, le_refl _, by simp, h⟩
    · obtain ⟨i, b', h1, h2, h3⟩ := ih (k + 1) x h
      exact ⟨i, b', by omega, by simp only [List.length_cons]; omega, h3⟩

theorem mem_pageDataItems (name : GoString) (ps : List Page) :
    ∀ (k : Nat) (x : Out), x ∈ pageDataItems name k ps →
      ∃ i p, k ≤ i ∧ i < k + ps.length ∧ x = .pageData name i p := by
  induction ps with
  | nil => intro k x h; simp [pageDataItems] at h
  | cons b rest ih =>
    intro k x h
    simp only [pageDataItems, List.mem_cons] at h
    rcases h with h | h
    · exact ⟨k, b, le_refl _, by simp, h⟩
    · obtain ⟨i, b', h1, h2, h3⟩ := ih (k + 1) x h
      exact ⟨i, b', by omega, by simp only [List.length_cons]; omega, h3⟩

theorem mem_kerningItems (name : GoString) (c : Char) (x : Out) (h : x ∈ kerningItems name c) :
    (0 < c.kerningsLen ∧ x = .kerningsOpen name c.ID) ∨ (∃ s a, x = .kerningRow s a) ∨
      x = .kerningsClose := by
  unfold kerningItems at h
  split at h
  · rename_i hlen
    rw [List.mem_append, List.mem_cons, List.mem_map, List.mem_singleton] at h
    rcases h with (h | ⟨e, _, h⟩) | h
    · exact Or.inl ⟨hlen, h⟩
    · exact Or.inr (Or.inl ⟨e.1, e.2, h.symm⟩)
    · exact Or.inr (Or.inr h)
  · simp at h

theorem mem_kerningSection (name : GoString) (bs : List Bucket) (x : Out)
    (h : x ∈ kerningSection name bs) :
    (∃ b ∈ bs, ∃ c ∈ b.Chars, 0 < c.kerningsLen ∧ x = .kerningsOpen name c.ID) ∨
      (∃ s a, x = .kerningRow s a) ∨ x = .kerningsClose := by
  simp only [kerningSection, List.mem_flatMap] at h
  obtain ⟨b, hb, c, hc, hx⟩ := h
  rcases mem_kerningItems name c x hx with ⟨h1, h2⟩ | h | h
  · exact Or.inl ⟨b, hb, c, hc, h1, h2⟩
  · exact Or.inr (Or.inl h)
  · exact Or.inr (Or.inr h)

theorem kerningsOpen_mem (name : GoString) (bs : List Bucket) (b : Bucket) (c : Char)
    (hb : b ∈ bs) (hc : c ∈ b.Chars) (hlen : 0 < c.kerningsLen) :
    Out.kerningsOpen name c.ID ∈ kerningSection name bs := by
  simp only [kerningSection, List.mem_flatMap]
  exact ⟨b, hb, c, hc, by simp [kerningItems, hlen]⟩

theorem mem_charsSection (name : GoString) (bs : List Bucket) :
    ∀ (k : Nat) (x : Out), x ∈ charsSection name k bs →
      (∃ i, k ≤ i ∧ i < k + bs.length ∧ x = .charsOpen name i) ∨
        (∃ b ∈ bs, ∃ c ∈ b.Chars, x = .charRow name c) ∨ x = .charsClose := by
  induction bs with
  | nil => intro k x h; simp [charsSection] at h
  | cons b rest ih =>
    intro k x h
    rw [charsSection, List.mem_append, List.mem_append, List.mem_cons, List.mem_map,
      List.mem_singleton] at h
    rcases h with ((h | ⟨c, hc, h⟩) | h) | h
    · exact Or.inl ⟨k, le_refl _, by simp, h⟩
    · exact Or.inr (Or.inl ⟨b, List.mem_cons_self _ _, c, hc, h.symm⟩)
    · exact Or.inr (Or.inr h)
    · rcases ih (k + 1) x h with ⟨i, h1, h2, h3⟩ | ⟨b', hb', c, hc, h3⟩ | h3
      · exact Or.inl ⟨i, by omega, by simp only [List.length_cons]; omega, h3⟩
      · exact Or.inr (Or.inl ⟨b', List.mem_cons_of_mem _ hb', c, hc, h3⟩)
      · exact Or.inr (Or.inr h3)

/-! ## EmitCFont: arrays are declared before they are named -/

theorem refsDeclared_of_forall (S : Ident → Prop) (A : List Out)
    (h : ∀ item ∈ A, ∀ ident ∈ item.references, S ident) : RefsDeclared S A := by
  intro pre item post hl ident hi
  exact Or.inl (h item (by rw [hl]; simp) ident hi)

theorem refsDeclared_append (S : Ident → Prop) (A B : List Out) (hA : RefsDeclared S A)
    (hB : RefsDeclared (fun x => S x ∨ ∃ d ∈ A, d.declares = some x) B) :
    RefsDeclared S (A ++ B) := by
  intro pre item post hl ident hi
  rcases List.append_eq_append_iff.mp hl with ⟨a', hpre, hb⟩ | ⟨c', ha, hc⟩
  · rcases hB a' item post hb ident hi with (h | ⟨d, hd, hdd⟩) | ⟨d, hd, hdd⟩
    · exact Or.inl h
    · exact Or.inr ⟨d, by rw [hpre]; exact List.mem_append_left _ hd, hdd⟩
    · exact Or.inr ⟨d, by rw [hpre]; exact List.mem_append_right _ hd, hdd⟩
  · cases c' with
    | nil =>
      simp only [List.nil_append, List.append_nil] at ha hc
      rcases hB [] item post hc.symm ident hi with (h | ⟨d, hd, hdd⟩) | ⟨d, hd, _⟩
      · exact Or.inl h
      · exact Or.inr ⟨d, by rw [← ha]; exact hd, hdd⟩
      · simp at hd
    | cons y ys =>
      simp only [List.cons_append, List.cons.injEq] at hc
      rw [← hc.1] at ha
      exact hA pre item ys ha ident hi

theorem declSection_refs (f : Font) : ∀ x ∈ declSection f, x.references = [] := by
  intro x hx
  simp only [declSection, List.mem_append, List.mem_cons, List.mem_singleton, List.not_mem_nil,
    or_false, mem_declBucketItems, mem_declPageItems] at hx
  rcases hx with ((h | h | h | h) | ⟨i, _, _, h⟩) | ⟨i, _, _, h⟩ <;> subst h <;> rfl

theorem declSection_has (f : Font) :
    Out.declBuckets f.Name ∈ declSection f ∧ Out.declPages f.Name ∈ declSection f ∧
      (∀ i, i < f.Buckets.length → Out.declBucket f.Name i ∈ declSection f) ∧
      (∀ i, i < f.Pages.length → Out.declPage f.Name i ∈ declSection f) := by
  refine ⟨by simp [declSection], by simp [declSection], ?_, ?_⟩
  · intro i hi
    simp only [declSection, List.mem_append, mem_declBucketItems]
    exact Or.inl (Or.inr ⟨i, Nat.zero_le _, by omega, rfl⟩)
  · intro i hi
    simp only [declSection, List.mem_append, mem_declPageItems]
    exact Or.inr ⟨i, Nat.zero_le _, by omega, rfl⟩

theorem mem_tableSection (f : Font) (x : Out) (hx : x ∈ tableSection f) :
    x = .fontStruct f ∨ x = .bucketsOpen f.Name ∨ x = .arrayClose ∨ x = .pagesOpen f.Name ∨
      (∃ i b, i < f.Buckets.length ∧ x = .bucketRow f.Name i b) ∨
      (∃ i p, i < f.Pages.length ∧ x = .pageRow f.Name i p) := by
  simp only [tableSection, List.mem_append, List.mem_cons, List.mem_singleton, List.not_mem_nil,
    or_false] at hx
  rcases hx with ((((h | h) | h) | (h | h)) | h) | h
  · exact Or.inl h
  · exact Or.inr (Or.inl h)
  · obtain ⟨i, b, _, h2, h3⟩ := mem_bucketRows _ _ _ _ h
    exact Or.inr (Or.inr (Or.inr (Or.inr (Or.inl ⟨i, b, by omega, h3⟩))))
  · exact Or.inr (Or.inr (Or.inl h))
  · exact Or.inr (Or.inr (Or.inr (Or.inl h)))
  · obtain ⟨i, b, _, h2, h3⟩ := mem_pageRows _ _ _ _ h
    exact Or.inr (Or.inr (Or.inr (Or.inr (Or.inr ⟨i, b, by omega, h3⟩))))
  · exact Or.inr (Or.inr (Or.inl h))

theorem tableSection_refs (f : Font) :
    ∀ x ∈ tableSection f, ∀ ident ∈ x.references,
      ∃ d ∈ declSection f, d.forwardDecl = some ident := by
  obtain ⟨h1, h2, h3, h4⟩ := declSection_has f
  intro x hx ident hi
  rcases mem_tableSection f x hx with h | h | h | h | ⟨i, b, hlt, h⟩ | ⟨i, p, hlt, h⟩ <;> subst h
  · simp only [Out.references, List.mem_cons, List.mem_singleton, List.not_mem_nil, or_false] at hi
    rcases hi with hi | hi <;> subst hi
    · exact ⟨_, h1, rfl⟩
    · exact ⟨_, h2, rfl⟩
  · simp [Out.references] at hi
  · simp [Out.references] at hi
  · simp [Out.references] at hi
  · simp only [Out.references, List.mem_singleton] at hi
    subst hi
    exact ⟨_, h3 i hlt, rfl⟩
  · simp only [Out.references, List.mem_singleton] at hi
    subst hi
    exact ⟨_, h4 i hlt, rfl⟩

theorem kerningSection_refs (name : GoString) (bs : List Bucket) :
    ∀ x ∈ kerningSection name bs, x.references = [] := by
  intro x hx
  rcases mem_kerningSection name bs x hx with ⟨b, _, c, _, _, h⟩ | ⟨s, a, h⟩ | h <;> subst h <;> rfl

theorem charsSection_refs (name : GoString) (bs : List Bucket) (k : Nat) :
    ∀ x ∈ charsSection name k bs, ∀ ident ∈ x.references,
      ∃ d ∈ kerningSection name bs, d.defines = some ident := by
  intro x hx ident hi
  rcases mem_charsSection name bs k x hx with ⟨i, _, _, h⟩ | ⟨b, hb, c, hc, h⟩ | h <;> subst h
  · simp [Out.references] at hi
  · simp only [Out.references] at hi
    split at hi
    · rename_i hlen
      simp only [List.mem_singleton] at hi
      subst hi
      exact ⟨_, kerningsOpen_mem name bs b c hb hc hlen, rfl⟩
    · simp at hi
  · simp [Out.references] at hi

theorem pageDataItems_refs (name : GoString) (ps : List Page) (k : Nat) :
    ∀ x ∈ pageDataItems name k ps ++ [Out.footer], x.references = [] := by
  intro x hx
  simp only [List.mem_append, List.mem_singleton] at hx
  rcases hx with hx | hx
  · obtain ⟨i, p, _, _, h⟩ := mem_pageDataItems name ps k x hx
    subst h; rfl
  · subst hx; rfl

theorem declares_of_forwardDecl (d : Out) (ident : Ident) (h : d.forwardDecl = some ident) :
    d.declares = some ident := by
  simp [Out.declares, h]

theorem declares_of_defines (d : Out) (ident : Ident) (h : d.defines = some ident) :
    d.declares = some ident := by
  unfold Out.declares
  cases hf : d.forwardDecl with
  | none => exact h
  | some y => cases d <;> simp [Out.forwardDecl, Out.defines] at hf h

theorem emitItems_refsDeclared (f : Font) : RefsDeclared (fun _ => False) (emitItems f) := by
  unfold emitItems
  apply refsDeclared_append
  · exact refsDeclared_of_forall _ _ (fun x hx ident hi => by
      rw [declSection_refs f x hx] at hi; simp at hi)
  apply refsDeclared_append
  · exact refsDeclared_of_forall _ _ (fun x hx ident hi => by
      obtain ⟨d, hd, hdd⟩ := tableSection_refs f x hx ident hi
      exact Or.inr ⟨d, hd, declares_of_forwardDecl d ident hdd⟩)
  apply refsDeclared_append
  · exact refsDeclared_of_forall _ _ (fun x hx ident hi => by
      rw [kerningSection_refs _ _ x hx] at hi; simp at hi)
  apply refsDeclared_append
  · exact refsDeclared_of_forall _ _ (fun x hx ident hi => by
      obtain ⟨d, hd, hdd⟩ := charsSection_refs _ _ _ x hx ident hi
      exact Or.inr ⟨d, hd, declares_of_defines d ident hdd⟩)
  · exact refsDeclared_of_forall _ _ (fun x hx ident hi => by
      rw [pageDataItems_refs _ _ _ x hx] at hi; simp at hi)

theorem references_text (item : Out) (ident : Ident) (h : ident ∈ item.references) :
    ∃ a b, item.render = a ++ ident.text item.name ++ b := by
  cases item with
  | fontStruct f =>
    simp only [Out.references, List.mem_cons, List.mem_singleton, List.not_mem_nil, or_false] at h
    rcases h with h | h <;> subst h
    · exact ⟨fontStructHead f, ",\n\t.pageCount = ".toList ++ fmtDec f.Pages.length ++
        ",\n\t.pages = ".toList ++ Ident.pages.text f.Name ++ ",\n\x7d;\n".toList,
        by simp only [Out.render, Out.name, List.append_assoc]⟩
    · exact ⟨fontStructHead f ++ Ident.buckets.text f.Name ++ ",\n\t.pageCount = ".toList ++
        fmtDec f.Pages.length ++ ",\n\t.pages = ".toList, ",\n\x7d;\n".toList,
        by simp only [Out.render, Out.name, List.append_assoc]⟩
  | bucketRow name i b =>
    simp only [Out.references, List.mem_singleton] at h
    subst h
    exact ⟨"    \x7b".toList ++ fmtDec b.StartChar ++ ", ".toList ++ fmtDec b.EndChar ++
      ", ".toList, "\x7d,\n".toList, by simp only [Out.render, Out.name, List.append_assoc]⟩
  | pageRow name i p =>
    simp only [Out.references, List.mem_singleton] at h
    subst h
    exact ⟨"    \x7b".toList ++ fmtDec p.PageSize ++ ", ".toList, "\x7d, \n".toList,
      by simp only [Out.render, Out.name, List.append_assoc]⟩
  | charRow name c =>
    simp only [Out.references] at h
    split at h
    · rename_i hlen
      simp only [List.mem_singleton] at h
      subst h
      exact ⟨charRowHead c, charRowTail c, by simp only [Out.render, Out.name, hlen, if_true]⟩
    · simp at h
  | _ => simp [Out.references] at h

theorem declares_text (d : Out) (ident : Ident) (h : d.declares = some ident) :
    ∃ a b, d.render = a ++ ident.text d.name ++ "[]".toList ++ b := by
  have k1 : "[];\n".toList = "[]".toList ++ ";\n".toList := rfl
  have k2 : "[] = \x7b\n".toList = "[]".toList ++ " = \x7b\n".toList := rfl
  have k3 : "[] = \x7b // '".toList = "[]".toList ++ " = \x7b // '".toList := rfl
  have k4 : "[] __attribute__((aligned(16))) = ".toList =
      "[]".toList ++ " __attribute__((aligned(16))) = ".toList := rfl
  have k5 : "unsigned char BMFONT_".toList = "unsigned char ".toList ++ "BMFONT_".toList := rfl
  cases d with
  | declBuckets name =>
    simp only [Out.declares, Out.forwardDecl, Option.some.injEq] at h; subst h
    exact ⟨"const BMFontBucket ".toList, ";\n".toList,
      by simp only [Out.render, Out.name, k1, List.append_assoc]⟩
  | declPages name =>
    simp only [Out.declares, Out.forwardDecl, Option.some.injEq] at h; subst h
    exact ⟨"const BMFontPage ".toList, ";\n".toList,
      by simp only [Out.render, Out.name, k1, List.append_assoc]⟩
  | declBucket name i =>
    simp only [Out.declares, Out.forwardDecl, Option.some.injEq] at h; subst h
    exact ⟨"const BMFontChar ".toList, ";\n".toList,
      by simp only [Out.render, Out.name, k1, List.append_assoc]⟩
  | declPage name i =>
    simp only [Out.declares, Out.forwardDecl, Option.some.injEq] at h; subst h
    exact ⟨"unsigned char ".toList, ";\n".toList,
      by simp only [Out.render, Out.name, k1, List.append_assoc]⟩
  | bucketsOpen name =>
    simp only [Out.declares, Out.forwardDecl, Out.defines, Option.some.injEq] at h; subst h
    exact ⟨"\nconst BMFontBucket ".toList, " = \x7b\n".toList,
      by simp only [Out.render, Out.name, k2, List.append_assoc]⟩
  | pagesOpen name =>
    simp only [Out.declares, Out.forwardDecl, Out.defines, Option.some.injEq] at h; subst h
    exact ⟨"const BMFontPage ".toList, " = \x7b\n".toList,
      by simp only [Out.render, Out.name, k2, List.append_assoc]⟩
  | kerningsOpen name id =>
    simp only [Out.declares, Out.forwardDecl, Out.defines, Option.some.injEq] at h; subst h
    exact ⟨"const BMFontKerning ".toList, " = \x7b // '".toList ++ fmtRune id ++ "' \n".toList,
      by simp only [Out.render, Out.name, k3, List.append_assoc]⟩
  | charsOpen name i =>
    simp only [Out.declares, Out.forwardDecl, Out.defines, Option.some.injEq] at h; subst h
    exact ⟨"const BMFontChar ".toList, " = \x7b\n".toList,
      by simp only [Out.render, Out.name, k2, List.append_assoc]⟩
  | pageData name i page =>
    simp only [Out.declares, Out.forwardDecl, Out.defines, Option.some.injEq] at h; subst h
    exact ⟨"unsigned char ".toList, " __attribute__((aligned(16))) = ".toList ++ "\x7b".toList ++
        pageBody page.PageData ++ "\x7d;\n\n".toList,
      by simp only [Out.render, Out.name, emitPage, pageHead, Ident.text, k4, k5,
        List.append_assoc]⟩
  | _ => simp [Out.declares, Out.forwardDecl, Out.defines] at h

theorem mem_emitItems (f : Font) (x : Out) (hx : x ∈ emitItems f) :
    x ∈ declSection f ∨ x ∈ tableSection f ∨ x ∈ kerningSection f.Name f.Buckets ∨
      x ∈ charsSection f.Name 0 f.Buckets ∨ x ∈ pageDataItems f.Name 0 f.Pages ∨
      x = .footer := by
  simpa only [emitItems, List.mem_append, List.mem_singleton] using hx

theorem emitItems_named (f : Font) (x : Out) (hx : x ∈ emitItems f) :
    x.name = f.Name ∨ (x.declares = none ∧ x.references = []) := by
  rcases mem_emitItems f x hx with h | h | h | h | h | h
  · simp only [declSection, List.mem_append, List.mem_cons, List.mem_singleton,
      List.not_mem_nil, or_false, mem_declBucketItems, mem_declPageItems] at h
    rcases h with ((h | h | h | h) | ⟨i, _, _, h⟩) | ⟨i, _, _, h⟩ <;> subst h
    · exact Or.inl rfl
    · exact Or.inr ⟨rfl, rfl⟩
    · exact Or.inl rfl
    · exact Or.inl rfl
    · exact Or.inl rfl
    · exact Or.inl rfl
  · rcases mem_tableSection f x h with h | h | h | h | ⟨i, b, _, h⟩ | ⟨i, p, _, h⟩ <;> subst h
    · exact Or.inl rfl
    · exact Or.inl rfl
    · exact Or.inr ⟨rfl, rfl⟩
    · exact Or.inl rfl
    · exact Or.inl rfl
    · exact Or.inl rfl
  · rcases mem_kerningSection _ _ x h with ⟨b, _, c, _, _, h⟩ | ⟨s, a, h⟩ | h <;> subst h
    · exact Or.inl rfl
    · exact Or.inr ⟨rfl, rfl⟩
    · exact Or.inr ⟨rfl, rfl⟩
  · rcases mem_charsSection _ _ _ x h with ⟨i, _, _, h⟩ | ⟨b, _, c, _, h⟩ | h <;> subst h
    · exact Or.inl rfl
    · exact Or.inl rfl
    · exact Or.inr ⟨rfl, rfl⟩
  · obtain ⟨i, p, _, _, h⟩ := mem_pageDataItems _ _ _ x h
    subst h
    exact Or.inl rfl
  · subst h
    exact Or.inr ⟨rfl, rfl⟩

/-- C11. For every font, in the output of `EmitCFont` every array identifier
named inside a struct or array initializer (the font struct names the bucket
array and the page array, a bucket row its glyph array, a page row its byte
array, a glyph row its kerning array) has a declaration of the same identifier,
a forward declaration or the definition of the array, in a piece written
strictly earlier: the output is `... declaration ... initializer ...`. -/
theorem references_declared_before (f : Font) :
    (∀ (pre : List Out) (item : Out) (post : List Out), emitItems f = pre ++ item :: post →
      ∀ ident ∈ item.references,
        ∃ p1 d p2, pre = p1 ++ d :: p2 ∧ d.declares = some ident ∧
          d.name = f.Name ∧ item.name = f.Name ∧
          f.EmitCFont = p1.flatMap Out.render ++ d.render ++ p2.flatMap Out.render ++
            item.render ++ post.flatMap Out.render) ∧
    (∀ (item : Out) (ident : Ident), ident ∈ item.references →
      ∃ a b, item.render = a ++ ident.text item.name ++ b) ∧
    (∀ (d : Out) (ident : Ident), d.declares = some ident →
      ∃ a b, d.render = a ++ ident.text d.name ++ "[]".toList ++ b) := by
  refine ⟨?_, references_text, declares_text⟩
  intro pre item post hl ident hi
  rcases emitItems_refsDeclared f pre item post hl ident hi with h | ⟨d, hd, hdd⟩
  · exact absurd h id
  · obtain ⟨p1, p2, hp⟩ := List.append_of_mem hd
    have hdn : d.name = f.Name := by
      rcases emitItems_named f d (by rw [hl]; exact List.mem_append_left _ hd) with h | h
      · exact h
      · rw [h.1] at hdd; exact absurd hdd (by simp)
    have hin : item.name = f.Name := by
      rcases emitItems_named f item (by rw [hl]; simp) with h | h
      · exact h
      · rw [h.2] at hi; exact absurd hi (by simp)
    refine ⟨p1, d, p2, hp, hdd, hdn, hin, ?_⟩
    simp only [Font.EmitCFont, hl, hp, List.flatMap_append, List.flatMap_cons, List.append_assoc]

/-! ## EmitCFont: the forward declarations -/

theorem charsOpen_mem (name : GoString) (bs : List Bucket) :
    ∀ (k i : Nat), k ≤ i → i < k + bs.length → Out.charsOpen name i ∈ charsSection name k bs := by
  induction bs with
  | nil => intro k i h1 h2; simp only [List.length_nil] at h2; omega
  | cons b rest ih =>
    intro k i h1 h2
    simp only [List.length_cons] at h2
    rw [charsSection, List.mem_append]
    by_cases hik : i = k
    · left; rw [hik]; exact List.mem_append_left _ (List.mem_cons_self _ _)
    · right; exact ih (k + 1) i (by omega) (by omega)

theorem pageData_mem (name : GoString) (ps : List Page) :
    ∀ (k i : Nat), k ≤ i → i < k + ps.length →
      ∃ p ∈ ps, Out.pageData name i p ∈ pageDataItems name k ps := by
  induction ps with
  | nil => intro k i h1 h2; simp only [List.length_nil] at h2; omega
  | cons b rest ih =>
    intro k i h1 h2
    simp only [List.length_cons] at h2
    by_cases hik : i = k
    · exact ⟨b, List.mem_cons_self _ _, by rw [hik, pageDataItems]; exact List.mem_cons_self _ _⟩
    · obtain ⟨p, hp, h⟩ := ih (k + 1) i (by omega) (by omega)
      exact ⟨p, List.mem_cons_of_mem _ hp, by rw [pageDataItems]; exact List.mem_cons_of_mem _ h⟩

theorem declSection_defines (f : Font) : ∀ x ∈ declSection f, x.defines = none := by
  intro x hx
  simp only [declSection, List.mem_append, List.mem_cons, List.mem_singleton, List.not_mem_nil,
    or_false, mem_declBucketItems, mem_declPageItems] at hx
  rcases hx with ((h | h | h | h) | ⟨i, _, _, h⟩) | ⟨i, _, _, h⟩ <;> subst h <;> rfl

theorem tableSection_kinds (f : Font) (x : Out) (hx : x ∈ tableSection f) :
    x.forwardDecl = none ∧
      ∀ ident, x.defines = some ident → ∃ d ∈ declSection f, d.forwardDecl = some ident := by
  obtain ⟨h1, h2, _, _⟩ := declSection_has f
  rcases mem_tableSection f x hx with h | h | h | h | ⟨i, b, _, h⟩ | ⟨i, p, _, h⟩ <;> subst h
  · exact ⟨rfl, fun ident hd => by simp [Out.defines] at hd⟩
  · refine ⟨rfl, fun ident hd => ?_⟩
    simp only [Out.defines, Option.some.injEq] at hd
    subst hd
    exact ⟨_, h1, rfl⟩
  · exact ⟨rfl, fun ident hd => by simp [Out.defines] at hd⟩
  · refine ⟨rfl, fun ident hd => ?_⟩
    simp only [Out.defines, Option.some.injEq] at hd
    subst hd
    exact ⟨_, h2, rfl⟩
  · exact ⟨rfl, fun ident hd => by simp [Out.defines] at hd⟩
  · exact ⟨rfl, fun ident hd => by simp [Out.defines] at hd⟩

theorem kerningSection_kinds (name : GoString) (bs : List Bucket) (x : Out)
    (hx : x ∈ kerningSection name bs) :
    x.forwardDecl = none ∧ ∀ ident, x.defines = some ident → ∃ id, ident = .kernings id := by
  rcases mem_kerningSection name bs x hx with ⟨b, _, c, _, _, h⟩ | ⟨s, a, h⟩ | h <;> subst h
  · refine ⟨rfl, fun ident hd => ?_⟩
    simp only [Out.defines, Option.some.injEq] at hd
    exact ⟨c.ID, hd.symm⟩
  · exact ⟨rfl, fun ident hd => by simp [Out.defines] at hd⟩
  · exact ⟨rfl, fun ident hd => by simp [Out.defines] at hd⟩

theorem charsSection_kinds (f : Font) (x : Out) (hx : x ∈ charsSection f.Name 0 f.Buckets) :
    x.forwardDecl = none ∧
      ∀ ident, x.defines = some ident → ∃ d ∈ declSection f, d.forwardDecl = some ident := by
  obtain ⟨_, _, h3, _⟩ := declSection_has f
  rcases mem_charsSection _ _ _ x hx with ⟨i, _, hlt, h⟩ | ⟨b, _, c, _, h⟩ | h <;> subst h
  · refine ⟨rfl, fun ident hd => ?_⟩
    simp only [Out.defines, Option.some.injEq] at hd
    subst hd
    exact ⟨_, h3 i (by omega), rfl⟩
  · exact ⟨rfl, fun ident hd => by simp [Out.defines] at hd⟩
  · exact ⟨rfl, fun ident hd => by simp [Out.defines] at hd⟩

theorem pageDataItems_kinds (f : Font) (x : Out) (hx : x ∈ pageDataItems f.Name 0 f.Pages) :
    x.forwardDecl = none ∧
      ∀ ident, x.defines = some ident → ∃ d ∈ declSection f, d.forwardDecl = some ident := by
  obtain ⟨_, _, _, h4⟩ := declSection_has f
  obtain ⟨i, p, _, hlt, h⟩ := mem_pageDataItems _ _ _ x hx
  subst h
  refine ⟨rfl, fun ident hd => ?_⟩
  simp only [Out.defines, Option.some.injEq] at hd
  subst hd
  exact ⟨_, h4 i (by omega), rfl⟩

theorem declSection_no_kernings (f : Font) (x : Out) (hx : x ∈ declSection f) (id : Nat) :
    x.forwardDecl ≠ some (.kernings id) := by
  simp only [declSection, List.mem_append, List.mem_cons, List.mem_singleton, List.not_mem_nil,
    or_false, mem_declBucketItems, mem_declPageItems] at hx
  rcases hx with ((h | h | h | h) | ⟨i, _, _, h⟩) | ⟨i, _, _, h⟩ <;> subst h <;>
    simp [Out.forwardDecl]

theorem glyph_mem (f : Font) (c : Char) (hc : c ∈ f.glyphs) : ∃ b ∈ f.Buckets, c ∈ b.Chars := by
  simpa only [Font.glyphs, List.mem_flatMap] using hc

/-- C12, the claim as stated fails for the kerning arrays: for the font with the one
glyph 65 that carries the kerning pair (66, -2), the output defines the array
`BMFONT_F_KERNINGS_CHAR_65` and no piece of the output is a forward declaration
of it. -/
theorem kerning_array_has_no_forward_declaration :
    Out.kerningsOpen "F".toList 65 ∈
        emitItems { Name := "F".toList,
                    Buckets := [⟨65, 65, [{ ID := 65, Kernings := some [(66, -2)] }]⟩] } ∧
      (Out.kerningsOpen "F".toList 65).defines = some (.kernings 65) ∧
      ∀ d ∈ emitItems { Name := "F".toList,
                        Buckets := [⟨65, 65, [{ ID := 65, Kernings := some [(66, -2)] }]⟩] },
        d.forwardDecl ≠ some (.kernings 65) := by
  decide

/-- C12, amended. For every font the output of `EmitCFont` is the declaration
section, then the font struct literal, then the rest. The declaration section
defines no array and holds a forward declaration of the bucket array, of the
page-metadata array, of the glyph array of every bucket and of the byte array of
every page; all forward declarations are in it, so before the literal. Every
array defined in the output that is not a kerning array has its forward
declaration there; the arrays are defined after the literal, and the kerning
arrays have no forward declaration at all. -/
theorem forward_declarations_before_literal (f : Font) :
    ∃ post, emitItems f = declSection f ++ Out.fontStruct f :: post ∧
      (∀ x ∈ declSection f, x.defines = none) ∧
      (Out.declBuckets f.Name ∈ declSection f ∧ Out.declPages f.Name ∈ declSection f ∧
        (∀ i, i < f.Buckets.length → Out.declBucket f.Name i ∈ declSection f) ∧
        (∀ i, i < f.Pages.length → Out.declPage f.Name i ∈ declSection f)) ∧
      (∀ x ∈ Out.fontStruct f :: post, x.forwardDecl = none) ∧
      (∀ x ∈ post, ∀ ident, x.defines = some ident →
        (∃ id, ident = .kernings id) ∨ ∃ d ∈ declSection f, d.forwardDecl = some ident) ∧
      (Out.bucketsOpen f.Name ∈ post ∧ Out.pagesOpen f.Name ∈ post ∧
        (∀ i, i < f.Buckets.length → Out.charsOpen f.Name i ∈ post) ∧
        (∀ i, i < f.Pages.length → ∃ p ∈ f.Pages, Out.pageData f.Name i p ∈ post) ∧
        (∀ c ∈ f.glyphs, 0 < c.kerningsLen → Out.kerningsOpen f.Name c.ID ∈ post)) ∧
      (∀ x ∈ emitItems f, ∀ id, x.forwardDecl ≠ some (.kernings id)) := by
  have hpost : ∀ x, x ∈ (Out.bucketsOpen f.Name :: (bucketRows f.Name 0 f.Buckets ++
        (Out.arrayClose :: Out.pagesOpen f.Name :: (pageRows f.Name 0 f.Pages ++
          [Out.arrayClose])))) ++ (kerningSection f.Name f.Buckets ++
            (charsSection f.Name 0 f.Buckets ++ (pageDataItems f.Name 0 f.Pages ++ [.footer]))) →
      x ∈ tableSection f ∨ x ∈ kerningSection f.Name f.Buckets ∨
        x ∈ charsSection f.Name 0 f.Buckets ∨ x ∈ pageDataItems f.Name 0 f.Pages ∨
        x = .footer := by
    intro x hx
    simp only [List.mem_append, List.mem_cons, List.mem_singleton, List.not_mem_nil,
      or_false] at hx
    simp only [tableSection, List.mem_append, List.mem_cons, List.mem_singleton,
      List.not_mem_nil, or_false]
    tauto
  have hkinds : ∀ x, (x ∈ tableSection f ∨ x ∈ kerningSection f.Name f.Buckets ∨
        x ∈ charsSection f.Name 0 f.Buckets ∨ x ∈ pageDataItems f.Name 0 f.Pages ∨
        x = .footer) → x.forwardDecl = none ∧ ∀ ident, x.defines = some ident →
          (∃ id, ident = .kernings id) ∨ ∃ d ∈ declSection f, d.forwardDecl = some ident := by
    intro x hx
    rcases hx with h | h | h | h | h
    · exact ⟨(tableSection_kinds f x h).1, fun i hd => Or.inr ((tableSection_kinds f x h).2 i hd)⟩
    · exact ⟨(kerningSection_kinds _ _ x h).1,
        fun i hd => Or.inl ((kerningSection_kinds _ _ x h).2 i hd)⟩
    · exact ⟨(charsSection_kinds f x h).1, fun i hd => Or.inr ((charsSection_kinds f x h).2 i hd)⟩
    · exact ⟨(pageDataItems_kinds f x h).1,
        fun i hd => Or.inr ((pageDataItems_kinds f x h).2 i hd)⟩
    · subst h
      exact ⟨rfl, fun ident hd => by simp [Out.defines] at hd⟩
  refine ⟨(Out.bucketsOpen f.Name :: (bucketRows f.Name 0 f.Buckets ++
        (Out.arrayClose :: Out.pagesOpen f.Name :: (pageRows f.Name 0 f.Pages ++
          [Out.arrayClose])))) ++ (kerningSection f.Name f.Buckets ++
            (charsSection f.Name 0 f.Buckets ++ (pageDataItems f.Name 0 f.Pages ++ [.footer]))),
    ?_, declSection_defines f, declSection_has f, ?_, ?_, ?_, ?_⟩
  · simp only [emitItems, tableSection, List.append_assoc, List.cons_append, List.nil_append,
      List.singleton_append]
  · intro x hx
    rcases List.mem_cons.mp hx with h | h
    · subst h; rfl
    · exact (hkinds x (hpost x h)).1
  · intro x hx
    exact (hkinds x (hpost x hx)).2
  · refine ⟨by simp, by simp, ?_, ?_, ?_⟩
    · intro i hi
      have := charsOpen_mem f.Name f.Buckets 0 i (Nat.zero_le _) (by omega)
      simp only [List.mem_append, List.mem_cons]
      tauto
    · intro i hi
      obtain ⟨p, hp, h⟩ := pageData_mem f.Name f.Pages 0 i (Nat.zero_le _) (by omega)
      refine ⟨p, hp, ?_⟩
      simp only [List.mem_append, List.mem_cons]
      tauto
    · intro c hc hlen
      obtain ⟨b, hb, hcb⟩ := glyph_mem f c hc
      have := kerningsOpen_mem f.Name f.Buckets b c hb hcb hlen
      simp only [List.mem_append, List.mem_cons]
      tauto
  · intro x hx id
    rcases mem_emitItems f x hx with h | h | h | h | h | h
    · exact declSection_no_kernings f x h id
    · rw [(hkinds x (Or.inl h)).1]; simp
    · rw [(hkinds x (Or.inr (Or.inl h))).1]; simp
    · rw [(hkinds x (Or.inr (Or.inr (Or.inl h)))).1]; simp
    · rw [(hkinds x (Or.inr (Or.inr (Or.inr (Or.inl h))))).1]; simp
    · subst h; simp [Out.forwardDecl]

/-! ## A descriptor with only info and common lines -/

theorem scanLoop_too_long (env : Env) (fileDir : GoString) (raws : List GoString)
    (h : ∃ raw ∈ raws, MaxScanTokenSize ≤ byteLen raw) :
    ∀ f : Font, ∃ e, scanLoop env fileDir f raws = .error e := by
  induction raws with
  | nil => obtain ⟨raw, hm, _⟩ := h; simp at hm
  | cons x rest ih =>
    intro f
    obtain ⟨raw, hm, hlong⟩ := h
    simp only [scanLoop]
    by_cases hx : MaxScanTokenSize ≤ byteLen x
    · rw [if_pos hx]; exact ⟨_, rfl⟩
    · rw [if_neg hx]
      have hr : raw ∈ rest := by
        rcases List.mem_cons.mp hm with h1 | h1
        · rw [h1] at hlong; exact absurd hlong hx
        · exact h1
      cases hp : f.parseLine env fileDir (dropCR x) with
      | error e => exact ⟨e, rfl⟩
      | ok g => exact ih ⟨raw, hr, hlong⟩ g

theorem scanLoop_info_common (env : Env) (fileDir : GoString) (raws : List GoString)
    (hl : ∀ line ∈ raws.map dropCR, classify line = .info ∨ classify line = .common) :
    ∀ f : Font,
      (∃ g, scanLoop env fileDir f raws = .ok g ∧ g.Buckets = f.Buckets ∧
          g.Pages = f.Pages ∧ (∀ raw ∈ raws, byteLen raw < MaxScanTokenSize) ∧
          ValuesRead (raws.map dropCR)) ∨
        ((∃ e, scanLoop env fileDir f raws = .error e) ∧
          ¬ ((∀ raw ∈ raws, byteLen raw < MaxScanTokenSize) ∧ ValuesRead (raws.map dropCR))) := by
  induction raws with
  | nil => intro f; left; exact ⟨f, rfl, rfl, rfl, by simp, by simp [ValuesRead]⟩
  | cons raw rest ih =>
    intro f
    have hrest : ∀ l ∈ rest.map dropCR, classify l = .info ∨ classify l = .common :=
      fun l hm => hl l (by rw [List.map_cons]; exact List.mem_cons_of_mem _ hm)
    have hhead : classify (dropCR raw) = .info ∨ classify (dropCR raw) = .common :=
      hl _ (by rw [List.map_cons]; exact List.mem_cons_self _ _)
    have htail : ¬ ((∀ r ∈ rest, byteLen r < MaxScanTokenSize) ∧
        ValuesRead (rest.map dropCR)) →
        ¬ ((∀ r ∈ raw :: rest, byteLen r < MaxScanTokenSize) ∧
          ValuesRead ((raw :: rest).map dropCR)) := by
      intro hv h
      refine hv ⟨fun r hr => h.1 r (List.mem_cons_of_mem _ hr), fun l hm => h.2 l ?_⟩
      rw [List.map_cons]; exact List.mem_cons_of_mem _ hm
    by_cases hlong : MaxScanTokenSize ≤ byteLen raw
    · right
      refine ⟨⟨.error, by simp only [scanLoop, if_pos hlong]⟩, fun h => ?_⟩
      have := h.1 raw (List.mem_cons_self _ _)
      omega
    · have hfit : byteLen raw < MaxScanTokenSize := by omega
      rcases hhead with hc | hc
      · simp only [scanLoop, if_neg hlong, Font.parseLine, hc]
        rcases parseInfo_cases env f (dropCR raw) with
          ⟨g, hg, hb, hp, hall⟩ | ⟨he, tok, htok, hbad⟩
        · rw [hg]
          rcases ih hrest g with ⟨g', hg', hb', hp', hfits, hv⟩ | ⟨he', hv⟩
          · left
            refine ⟨g', hg', hb'.trans hb, hp'.trans hp, ?_, ?_⟩
            · intro r hr
              rcases List.mem_cons.mp hr with h | h
              · rw [h]; exact hfit
              · exact hfits r h
            · intro l hm
              rw [List.map_cons] at hm
              rcases List.mem_cons.mp hm with h | h
              · subst h
                exact ⟨fun _ => hall, fun h2 => by rw [hc] at h2; exact absurd h2 (by decide)⟩
              · exact hv l h
          · right
            exact ⟨he', htail hv⟩
        · rw [he]
          right
          refine ⟨⟨_, rfl⟩, fun h => ?_⟩
          exact (h.2 (dropCR raw) (by rw [List.map_cons]; exact List.mem_cons_self _ _)).1 hc
            tok htok hbad
      · simp only [scanLoop, if_neg hlong, Font.parseLine, hc, Font.parseCommon]
        rcases commonLoop_cases (fields (dropCR raw)) f with
          ⟨g, hg, hb, hp⟩ | ⟨he, tok, htok, hbad⟩
        · rw [hg]
          have hall : ∀ tok ∈ fields (dropCR raw), ¬ BadChannel tok := by
            intro tok htok hbad
            rw [commonLoop_bad (fields (dropCR raw)) tok htok hbad f] at hg
            exact absurd hg (by simp)
          rcases ih hrest g with ⟨g', hg', hb', hp', hfits, hv⟩ | ⟨he', hv⟩
          · left
            refine ⟨g', hg', hb'.trans hb, hp'.trans hp, ?_, ?_⟩
            · intro r hr
              rcases List.mem_cons.mp hr with h | h
              · rw [h]; exact hfit
              · exact hfits r h
            · intro l hm
              rw [List.map_cons] at hm
              rcases List.mem_cons.mp hm with h | h
              · subst h
                exact ⟨fun h2 => by rw [hc] at h2; exact absurd h2 (by decide), fun _ => hall⟩
              · exact hv l h
          · right
            exact ⟨he', htail hv⟩
        · rw [he]
          right
          refine ⟨⟨_, rfl⟩, fun h => ?_⟩
          exact (h.2 (dropCR raw) (by rw [List.map_cons]; exact List.mem_cons_self _ _)).2 hc
            tok htok hbad

theorem emitItems_no_glyphs (f : Font) (hb : f.Buckets = []) (hp : f.Pages = []) :
    emitItems f = [.header f.Name, .types, .declBuckets f.Name, .declPages f.Name,
      .fontStruct f, .bucketsOpen f.Name, .arrayClose, .pagesOpen f.Name, .arrayClose,
      .footer] := by
  simp [emitItems, declSection, tableSection, kerningSection, charsSection, pageDataItems,
    declBucketItems, declPageItems, bucketRows, pageRows, hb, hp]

theorem fontStruct_no_glyphs (f : Font) (hb : f.Buckets = []) (hp : f.Pages = []) :
    ∃ a, (Out.fontStruct f).render =
      a ++ ",\n\n\t.bucketCount = 0,\n\t.buckets = BMFONT_".toList ++ f.Name ++
        "_BUCKETS,\n\t.pageCount = 0,\n\t.pages = BMFONT_".toList ++ f.Name ++
        "_PAGES,\n\x7d;\n".toList := by
  have k1 : ",\n\n\t.bucketCount = 0,\n\t.buckets = BMFONT_".toList =
      ",\n\n\t.bucketCount = ".toList ++ fmtDec 0 ++ ",\n\t.buckets = ".toList ++
        "BMFONT_".toList := by decide
  have k2 : "_BUCKETS,\n\t.pageCount = 0,\n\t.pages = BMFONT_".toList =
      "_BUCKETS".toList ++ ",\n\t.pageCount = ".toList ++ fmtDec 0 ++ ",\n\t.pages = ".toList ++
        "BMFONT_".toList := by decide
  have k3 : "_PAGES,\n\x7d;\n".toList = "_PAGES".toList ++ ",\n\x7d;\n".toList := by decide
  refine ⟨"\nconst struct BMFont BMFONT_".toList ++ f.Name ++ " = \x7b\n    .size = ".toList ++
    fmtDec f.Size ++ ",\n    .lineHeight = ".toList ++ fmtDec f.LineHeight ++
    ",\n\t.base = ".toList ++ fmtDec f.Base ++ ",\n\t.scaleW = ".toList ++ fmtDec f.ScaleW ++
    ",\n\t.scaleH = ".toList ++ fmtDec f.ScaleH ++ ",\n\t.isPacked = ".toList ++
    fmtDec f.IsPacked ++ ",\n\t.aChannelType = ".toList ++ f.AType ++
    ",\n\t.rChannelType = ".toList ++ f.RType ++ ",\n\t.gChannelType = ".toList ++ f.GType ++
    ",\n\t.bChannelType = ".toList ++ f.BType, ?_⟩
  simp only [Out.render, fontStructHead, Ident.text, hb, hp, List.length_nil, k1, k2, k3,
    List.append_assoc]

theorem emit_no_glyphs_text (f : Font) (hb : f.Buckets = []) (hp : f.Pages = []) :
    ∃ mid, f.EmitCFont =
      "#ifndef _".toList ++ f.Name ++ "_H_\n#define _".toList ++ f.Name ++ "_H_\n".toList ++
        mid ++
        "\nconst BMFontBucket BMFONT_".toList ++ f.Name ++ "_BUCKETS[] = \x7b\n\x7d;\n".toList ++
        "const BMFontPage BMFONT_".toList ++ f.Name ++ "_PAGES[] = \x7b\n\x7d;\n".toList ++
        "#endif".toList := by
  have k1 : "_BUCKETS[] = \x7b\n\x7d;\n".toList =
      "_BUCKETS".toList ++ "[] = \x7b\n".toList ++ "\x7d;\n".toList := by decide
  have k2 : "_PAGES[] = \x7b\n\x7d;\n".toList =
      "_PAGES".toList ++ "[] = \x7b\n".toList ++ "\x7d;\n".toList := by decide
  have k3 : "\nconst BMFontBucket BMFONT_".toList =
      "\nconst BMFontBucket ".toList ++ "BMFONT_".toList := by decide
  have k4 : "const BMFontPage BMFONT_".toList =
      "const BMFontPage ".toList ++ "BMFONT_".toList := by decide
  refine ⟨typesText ++ (Out.declBuckets f.Name).render ++ (Out.declPages f.Name).render ++
    (Out.fontStruct f).render, ?_⟩
  rw [Font.EmitCFont, emitItems_no_glyphs f hb hp]
  simp only [List.flatMap_cons, List.flatMap_nil, List.append_nil, k1, k2, k3, k4,
    List.append_assoc,
    Out.render.eq_1, Out.render.eq_2, Out.render.eq_8, Out.render.eq_10, Out.render.eq_11,
    Out.render.eq_20, Ident.text]

/-- C19, the claim as stated fails for lines whose values are not read: the
descriptor with the one info line `info face=Test size=abc` is not parsed
(`parseInfo` returns the error of `strconv.Atoi`), and the descriptor with the
one common line `common alphaChnl=5` ends in the panic of the index expression. -/
theorem info_common_descriptor_not_parsed :
    descriptorLines "info face=Test size=abc\n".toList = ["info face=Test size=abc".toList] ∧
      classify "info face=Test size=abc".toList = .info ∧
      ParseDescriptor (oneFile "info face=Test size=abc\n".toList) "font.fnt".toList =
        .error .error ∧
      descriptorLines "common alphaChnl=5\n".toList = ["common alphaChnl=5".toList] ∧
      classify "common alphaChnl=5".toList = .common ∧
      ParseDescriptor (oneFile "common alphaChnl=5\n".toList) "font.fnt".toList =
        .error .panic := by
  decide

/-- C19, amended. For a descriptor file that opens and all of whose lines are
handled as info or common lines, `ParseDescriptor` returns a font without a
failure exactly when every line has fewer than 65536 bytes (a longer line is
the error `bufio.ErrTooLong` of the scanner), no info line has a `size=` token
whose value `strconv.Atoi` rejects and no common line has a channel token whose
index lies outside `0..4`. The font returned has no buckets and no pages; the
pieces of the output of `EmitCFont` for it are the header guard, the types, the
forward declarations of the bucket array and of the page-metadata array, the
font struct, the two array definitions without a row, and the footer: the
output starts with the header guard, ends with the two empty arrays and
`#endif`, the font struct has `bucketCount = 0` and `pageCount = 0`, and only
the bucket array and the page-metadata array are defined. -/
theorem info_common_only (env : Env) (path content : GoString)
    (hopen : env.openText path = some content)
    (hl : ∀ line ∈ descriptorLines content, classify line = .info ∨ classify line = .common) :
    ((∃ g, ParseDescriptor env path = .ok g) ↔
      (LinesFit content ∧ ValuesRead (descriptorLines content))) ∧
    ∀ g, ParseDescriptor env path = .ok g →
      g.Buckets = [] ∧ g.Pages = [] ∧
      emitItems g = [.header g.Name, .types, .declBuckets g.Name, .declPages g.Name,
        .fontStruct g, .bucketsOpen g.Name, .arrayClose, .pagesOpen g.Name, .arrayClose,
        .footer] ∧
      (∃ mid, g.EmitCFont =
        "#ifndef _".toList ++ g.Name ++ "_H_\n#define _".toList ++ g.Name ++ "_H_\n".toList ++
          mid ++
          "\nconst BMFontBucket BMFONT_".toList ++ g.Name ++
            "_BUCKETS[] = \x7b\n\x7d;\n".toList ++
          "const BMFontPage BMFONT_".toList ++ g.Name ++ "_PAGES[] = \x7b\n\x7d;\n".toList ++
          "#endif".toList) ∧
      (∃ a, (Out.fontStruct g).render =
        a ++ ",\n\n\t.bucketCount = 0,\n\t.buckets = BMFONT_".toList ++ g.Name ++
          "_BUCKETS,\n\t.pageCount = 0,\n\t.pages = BMFONT_".toList ++ g.Name ++
          "_PAGES,\n\x7d;\n".toList) ∧
      ∀ x ∈ emitItems g, ∀ ident, x.defines = some ident → ident = .buckets ∨ ident = .pages := by
  have hpd : ParseDescriptor env path =
      scanLoop env (env.dirOf path) emptyFont (rawLines content) := by
    simp only [ParseDescriptor, hopen]
  have hcases := scanLoop_info_common env (env.dirOf path) (rawLines content) hl emptyFont
  refine ⟨?_, ?_⟩
  · rcases hcases with ⟨g, hg, _, _, hfit, hv⟩ | ⟨⟨e, he⟩, hv⟩
    · exact ⟨fun _ => ⟨hfit, hv⟩, fun _ => ⟨g, by rw [hpd, hg]⟩⟩
    · refine ⟨?_, fun h => absurd h hv⟩
      rintro ⟨g, hg⟩
      rw [hpd, he] at hg
      exact absurd hg (by simp)
  · intro g hg
    have hb : g.Buckets = [] := by
      rcases hcases with ⟨g', hg', hb, _, _⟩ | ⟨⟨e, he⟩, _⟩
      · rw [hpd, hg'] at hg
        rw [← Except.ok.inj hg, hb]; rfl
      · rw [hpd, he] at hg
        exact absurd hg (by simp)
    have hp : g.Pages = [] := by
      rcases hcases with ⟨g', hg', _, hp, _⟩ | ⟨⟨e, he⟩, _⟩
      · rw [hpd, hg'] at hg
        rw [← Except.ok.inj hg, hp]; rfl
      · rw [hpd, he] at hg
        exact absurd hg (by simp)
    refine ⟨hb, hp, emitItems_no_glyphs g hb hp, emit_no_glyphs_text g hb hp,
      fontStruct_no_glyphs g hb hp, ?_⟩
    intro x hx ident hd
    rw [emitItems_no_glyphs g hb hp] at hx
    simp only [List.mem_cons, List.mem_singleton, List.not_mem_nil, or_false] at hx
    rcases hx with h | h | h | h | h | h | h | h | h | h <;> subst h <;>
      simp [Out.defines] at hd <;> simp [hd]

theorem info_common_only_witness :
    (oneFile "info face=Test size=12\r\ncommon lineHeight=14 base=11 alphaChnl=1".toList).openText
        "font.fnt".toList =
        some "info face=Test size=12\r\ncommon lineHeight=14 base=11 alphaChnl=1".toList ∧
      (∀ line ∈
        descriptorLines "info face=Test size=12\r\ncommon lineHeight=14 base=11 alphaChnl=1".toList,
        classify line = .info ∨ classify line = .common) ∧
      ∃ g, ParseDescriptor
          (oneFile "info face=Test size=12\r\ncommon lineHeight=14 base=11 alphaChnl=1".toList)
          "font.fnt".toList = .ok g ∧ g.Buckets = [] ∧ g.Pages = [] ∧
        ∀ x ∈ emitItems g, ∀ ident, x.defines = some ident → ident = .buckets ∨ ident = .pages :=
  ⟨rfl, by decide,
    { emptyFont with Name := "Test".toList, Size := 12, LineHeight := 14, Base := 11,
                     AType := "CHANNEL_OUTLINE".toList },
    by decide,
    ((info_common_only
        (oneFile "info face=Test size=12\r\ncommon lineHeight=14 base=11 alphaChnl=1".toList)
        "font.fnt".toList _ rfl (by decide)).2 _ (by decide)).1,
    ((info_common_only
        (oneFile "info face=Test size=12\r\ncommon lineHeight=14 base=11 alphaChnl=1".toList)
        "font.fnt".toList _ rfl (by decide)).2 _ (by decide)).2.1,
    ((info_common_only
        (oneFile "info face=Test size=12\r\ncommon lineHeight=14 base=11 alphaChnl=1".toList)
        "font.fnt".toList _ rfl (by decide)).2 _ (by decide)).2.2.2.2.2⟩

/-! ## EmitCFont: the kerning arrays and the glyph rows -/

theorem kerningArrays_skip (A B : List Out) (hA : ∀ x ∈ A, x.isKerningPiece = false) :
    ∀ cur, kerningArrays cur (A ++ B) = kerningArrays cur B := by
  induction A with
  | nil => intro cur; rfl
  | cons x rest ih =>
    intro cur
    have hx := hA x (List.mem_cons_self _ _)
    have hrest := ih (fun y hy => hA y (List.mem_cons_of_mem _ hy))
    cases x <;> first
      | (simp [Out.isKerningPiece] at hx; done)
      | (rw [List.cons_append]
         rcases cur with _ | ⟨id, rows⟩ <;> simp only [kerningArrays] <;> exact hrest _)

theorem kerningArrays_rows (m : KerningMap) (B : List Out) :
    ∀ (id : Nat) (rows : KerningMap),
      kerningArrays (some (id, rows))
          ((m.map fun e => Out.kerningRow e.1 e.2) ++ Out.kerningsClose :: B) =
        (id, rows ++ m) :: kerningArrays none B := by
  induction m with
  | nil => intro id rows; simp [kerningArrays]
  | cons e rest ih =>
    intro id rows
    simp only [List.map_cons, List.cons_append, kerningArrays, List.append_eq, ih,
      List.append_assoc, List.singleton_append, List.nil_append, Prod.mk.eta]

theorem kerningArrays_items (name : GoString) (c : Char) (B : List Out) :
    kerningArrays none (kerningItems name c ++ B) =
      c.kerningArray.toList ++ kerningArrays none B := by
  unfold kerningItems Char.kerningArray
  by_cases h : 0 < c.kerningsLen
  · rw [if_pos h, if_pos h]
    simp only [List.cons_append, List.append_assoc, List.singleton_append, kerningArrays,
      List.append_eq, kerningArrays_rows, List.nil_append, Option.toList]
  · rw [if_neg h, if_neg h]
    rfl

theorem kerningArrays_chars (name : GoString) (cs : List Char) (B : List Out) :
    kerningArrays none (cs.flatMap (kerningItems name) ++ B) =
      cs.filterMap Char.kerningArray ++ kerningArrays none B := by
  induction cs with
  | nil => rfl
  | cons c rest ih =>
    rw [List.flatMap_cons, List.append_assoc, kerningArrays_items, ih, List.filterMap_cons]
    cases h : c.kerningArray <;> simp [Option.toList]

theorem kerningArrays_section (name : GoString) (bs : List Bucket) (B : List Out) :
    kerningArrays none (kerningSection name bs ++ B) =
      (bs.flatMap (·.Chars)).filterMap Char.kerningArray ++ kerningArrays none B := by
  induction bs with
  | nil => rfl
  | cons b rest ih =>
    unfold kerningSection at ih ⊢
    rw [List.flatMap_cons, List.append_assoc, kerningArrays_chars, ih, List.flatMap_cons,
      List.filterMap_append, List.append_assoc]

theorem declSection_no_kerning (f : Font) :
    ∀ x ∈ declSection f, x.isKerningPiece = false ∧ x.isCharRow = false := by
  intro x hx
  simp only [declSection, List.mem_append, List.mem_cons, List.mem_singleton, List.not_mem_nil,
    or_false, mem_declBucketItems, mem_declPageItems] at hx
  rcases hx with ((h | h | h | h) | ⟨i, _, _, h⟩) | ⟨i, _, _, h⟩ <;> subst h <;> exact ⟨rfl, rfl⟩

theorem tableSection_no_kerning (f : Font) :
    ∀ x ∈ tableSection f, x.isKerningPiece = false ∧ x.isCharRow = false := by
  intro x hx
  rcases mem_tableSection f x hx with h | h | h | h | ⟨i, b, _, h⟩ | ⟨i, p, _, h⟩ <;> subst h <;>
    exact ⟨rfl, rfl⟩

theorem charsSection_no_kerning (name : GoString) (bs : List Bucket) (k : Nat) :
    ∀ x ∈ charsSection name k bs, x.isKerningPiece = false := by
  intro x hx
  rcases mem_charsSection name bs k x hx with ⟨i, _, _, h⟩ | ⟨b, _, c, _, h⟩ | h <;> subst h <;> rfl

theorem kerningSection_no_charRow (name : GoString) (bs : List Bucket) :
    ∀ x ∈ kerningSection name bs, x.isCharRow = false := by
  intro x hx
  rcases mem_kerningSection name bs x hx with ⟨b, _, c, _, _, h⟩ | ⟨s, a, h⟩ | h <;> subst h <;> rfl

theorem pageDataItems_no_kerning (name : GoString) (ps : List Page) (k : Nat) :
    ∀ x ∈ pageDataItems name k ps ++ [Out.footer],
      x.isKerningPiece = false ∧ x.isCharRow = false := by
  intro x hx
  simp only [List.mem_append, List.mem_singleton] at hx
  rcases hx with hx | hx
  · obtain ⟨i, p, _, _, h⟩ := mem_pageDataItems name ps k x hx
    subst h; exact ⟨rfl, rfl⟩
  · subst hx; exact ⟨rfl, rfl⟩

theorem kerningArrays_emitItems (f : Font) :
    kerningArrays none (emitItems f) = f.glyphs.filterMap Char.kerningArray := by
  have htail : kerningArrays none
      (charsSection f.Name 0 f.Buckets ++ (pageDataItems f.Name 0 f.Pages ++ [Out.footer])) =
        [] := by
    rw [kerningArrays_skip _ _ (charsSection_no_kerning _ _ _)]
    have h := kerningArrays_skip (pageDataItems f.Name 0 f.Pages ++ [Out.footer]) []
      (fun x hx => (pageDataItems_no_kerning _ _ _ x hx).1) none
    rw [List.append_nil] at h
    rw [h]; rfl
  unfold emitItems
  rw [kerningArrays_skip _ _ (fun x hx => (declSection_no_kerning f x hx).1),
    kerningArrays_skip _ _ (fun x hx => (tableSection_no_kerning f x hx).1),
    kerningArrays_section, htail, List.append_nil]
  rfl

theorem glyphRows_append (A B : List Out) : glyphRows (A ++ B) = glyphRows A ++ glyphRows B := by
  induction A with
  | nil => rfl
  | cons x rest ih => cases x <;> simp [glyphRows, ih]

theorem glyphRows_none (A : List Out) (hA : ∀ x ∈ A, x.isCharRow = false) : glyphRows A = [] := by
  induction A with
  | nil => rfl
  | cons x rest ih =>
    have hx := hA x (List.mem_cons_self _ _)
    have hrest := ih (fun y hy => hA y (List.mem_cons_of_mem _ hy))
    cases x <;> first
      | (simp [Out.isCharRow] at hx; done)
      | (simp only [glyphRows]; exact hrest)

theorem glyphRows_rows (name : GoString) (cs : List Char) :
    glyphRows (cs.map (Out.charRow name)) = cs := by
  induction cs with
  | nil => rfl
  | cons c rest ih => simp [glyphRows, ih]

theorem glyphRows_charsSection (name : GoString) (bs : List Bucket) :
    ∀ k, glyphRows (charsSection name k bs) = bs.flatMap (·.Chars) := by
  induction bs with
  | nil => intro k; rfl
  | cons b rest ih =>
    intro k
    rw [charsSection, glyphRows_append, ih, List.flatMap_cons, List.cons_append]
    simp only [glyphRows, glyphRows_append, glyphRows_rows, List.append_nil]

theorem glyphRows_emitItems (f : Font) : glyphRows (emitItems f) = f.glyphs := by
  unfold emitItems
  rw [glyphRows_append, glyphRows_append, glyphRows_append, glyphRows_append,
    glyphRows_none _ (fun x hx => (declSection_no_kerning f x hx).2),
    glyphRows_none _ (fun x hx => (tableSection_no_kerning f x hx).2),
    glyphRows_none _ (kerningSection_no_charRow _ _),
    glyphRows_none _ (fun x hx => (pageDataItems_no_kerning _ _ _ x hx).2),
    glyphRows_charsSection]
  simp [Font.glyphs]

theorem charsSection_segment (name : GoString) (bs : List Bucket) :
    ∀ (k i : Nat) (b : Bucket), bs[i]? = some b →
      ∃ pre post, charsSection name k bs =
        pre ++ (Out.charsOpen name (k + i) :: b.Chars.map (Out.charRow name) ++
          [Out.charsClose]) ++ post := by
  induction bs with
  | nil => intro k i b h; simp at h
  | cons b0 rest ih =>
    intro k i b h
    cases i with
    | zero =>
      simp only [List.getElem?_cons_zero, Option.some.injEq] at h
      subst h
      exact ⟨[], charsSection name (k + 1) rest, by rw [charsSection]; rfl⟩
    | succ j =>
      simp only [List.getElem?_cons_succ] at h
      obtain ⟨pre, post, hseg⟩ := ih (k + 1) j b h
      refine ⟨(Out.charsOpen name k :: b0.Chars.map (Out.charRow name) ++ [Out.charsClose]) ++ pre,
        post, ?_⟩
      rw [charsSection, hseg]
      have hk : k + 1 + j = k + (j + 1) := by omega
      rw [hk]
      simp only [List.append_assoc]

theorem kerningArray_fst (c : Char) (a : Nat × KerningMap) (h : c.kerningArray = some a) :
    a.1 = c.ID := by
  unfold Char.kerningArray at h
  split at h
  · rw [← Option.some.inj h]
  · exact absurd h (by simp)

theorem filter_kerningArray_other (l : List Char) (i : Nat) (h : ∀ x ∈ l, x.ID ≠ i) :
    (l.filterMap Char.kerningArray).filter (fun a => a.1 = i) = [] := by
  rw [List.filter_eq_nil_iff]
  intro a ha
  obtain ⟨x, hx, hxa⟩ := List.mem_filterMap.mp ha
  rw [kerningArray_fst x a hxa]
  simpa using h x hx

theorem filter_kerningArray_nodup (l : List Char) (hnd : (l.map (·.ID)).Nodup) (c : Char)
    (hc : c ∈ l) :
    (l.filterMap Char.kerningArray).filter (fun a => a.1 = c.ID) = c.kerningArray.toList := by
  induction l with
  | nil => simp at hc
  | cons x rest ih =>
    rw [List.map_cons, List.nodup_cons] at hnd
    have hx : ∀ y ∈ rest, y.ID ≠ x.ID := by
      intro y hy he
      exact hnd.1 (by rw [← he]; exact List.mem_map_of_mem _ hy)
    by_cases hcx : c = x
    · subst hcx
      cases hk : c.kerningArray with
      | none =>
        rw [List.filterMap_cons_none hk, filter_kerningArray_other rest c.ID hx]
        rfl
      | some a =>
        rw [List.filterMap_cons_some hk, List.filter_cons_of_pos
          (by simpa using kerningArray_fst c a hk), filter_kerningArray_other rest c.ID hx]
        rfl
    · have hcr : c ∈ rest := by
        rcases List.mem_cons.mp hc with h | h
        · exact absurd h hcx
        · exact h
      have hne : x.ID ≠ c.ID := fun he => hx c hcr he.symm
      cases hk : x.kerningArray with
      | none => rw [List.filterMap_cons_none hk]; exact ih hnd.2 hcr
      | some a =>
        rw [List.filterMap_cons_some hk, List.filter_cons_of_neg
          (by rw [kerningArray_fst x a hk]; simpa using hne)]
        exact ih hnd.2 hcr

/-- C18, the claim as stated fails: after the lines `char id=65`, `kerning
first=65 second=66 amount=-2`, `char id=65`, `kerning first=65 second=67
amount=1` the font has two glyphs with the ID 65, each with a non-empty map. The
output defines the array `BMFONT__KERNINGS_CHAR_65` twice, once with two rows
and once with one row, and not exactly once, and the rows of both glyphs name
it. -/
theorem kerning_array_defined_twice :
    parseTagLines emptyFont [.char "char id=65".toList,
        .kerning "kerning first=65 second=66 amount=-2".toList, .char "char id=65".toList,
        .kerning "kerning first=65 second=67 amount=1".toList] =
      .ok { Buckets := [⟨65, 65, [{ ID := 65, Kernings := some [(66, -2), (67, 1)] }]⟩,
                        ⟨65, 65, [{ ID := 65, Kernings := some [(67, 1)] }]⟩] } ∧
      kerningArrays none (emitItems
          { Buckets := [⟨65, 65, [{ ID := 65, Kernings := some [(66, -2), (67, 1)] }]⟩,
                        ⟨65, 65, [{ ID := 65, Kernings := some [(67, 1)] }]⟩] }) =
        [(65, [(66, -2), (67, 1)]), (65, [(67, 1)])] ∧
      ((emitItems
          { Buckets := [⟨65, 65, [{ ID := 65, Kernings := some [(66, -2), (67, 1)] }]⟩,
                        ⟨65, 65, [{ ID := 65, Kernings := some [(67, 1)] }]⟩] }).filter
        fun x => x.defines = some (.kernings 65)) =
        [Out.kerningsOpen [] 65, Out.kerningsOpen [] 65] ∧
      (Out.kerningsOpen [] 65).render =
        "const BMFontKerning BMFONT__KERNINGS_CHAR_65[] = \x7b // 'A' \n".toList ∧
      ((emitItems
          { Buckets := [⟨65, 65, [{ ID := 65, Kernings := some [(66, -2), (67, 1)] }]⟩,
                        ⟨65, 65, [{ ID := 65, Kernings := some [(67, 1)] }]⟩] }).filter
        fun x => decide (Ident.kernings 65 ∈ x.references)) =
        [Out.charRow [] { ID := 65, Kernings := some [(66, -2), (67, 1)] },
         Out.charRow [] { ID := 65, Kernings := some [(67, 1)] }] := by
  decide

/-- C18, amended. In the output of `EmitCFont` for every font: the kerning arrays
that are defined, read in order with the ID in their identifier and their rows,
are the kerning maps of the glyphs with `len(Kernings) > 0`, glyph by glyph in
the order of the buckets, each with one row for each entry of the map, and a
glyph with an empty map has none; every kerning array has the font name in its
identifier. So, when no two glyphs of the font have the same ID, the arrays
defined with the ID of a glyph in their identifier are exactly one, with the
rows of its map, when the map is not empty, and none when it is empty. The glyph
rows are the glyphs of the font, the rows of bucket `i` standing in the
definition of `BMFONT_<name>_BUCKET_<i>`; the row of a glyph has `len(Kernings)`
as its `kerningsCount`, which is the number of rows of its kerning array, and as
its pointer `BMFONT_<name>_KERNINGS_CHAR_<ID>`, the identifier of that array,
when the map is not empty and `NULL` otherwise. -/
theorem kerning_arrays_of_glyphs (f : Font) :
    kerningArrays none (emitItems f) = f.glyphs.filterMap Char.kerningArray ∧
    (∀ c : Char, c.kerningArray =
      if c.Kernings.getD [] ≠ [] then some (c.ID, c.Kernings.getD []) else none) ∧
    (∀ (name : GoString) (id : Nat), Out.kerningsOpen name id ∈ emitItems f → name = f.Name) ∧
    ((f.glyphs.map (·.ID)).Nodup → ∀ c ∈ f.glyphs,
      (kerningArrays none (emitItems f)).filter (fun a => a.1 = c.ID) = c.kerningArray.toList) ∧
    glyphRows (emitItems f) = f.glyphs ∧
    (∀ (i : Nat) (b : Bucket), f.Buckets[i]? = some b →
      ∃ pre post, emitItems f =
        pre ++ (Out.charsOpen f.Name i :: b.Chars.map (Out.charRow f.Name) ++
          [Out.charsClose]) ++ post) ∧
    (∀ (name : GoString) (c : Char), (Out.charRow name c).render =
      "    \x7b".toList ++ fmtDec c.X ++ ", ".toList ++ fmtDec c.Y ++ ", ".toList ++
        fmtDec c.Width ++ ", ".toList ++ fmtDec c.Height ++ ", ".toList ++
        fmtInt c.XOffset ++ ", ".toList ++ fmtInt c.YOffset ++ ", ".toList ++
        fmtInt c.XAdvance ++ ", ".toList ++ fmtDec c.Page ++ ", ".toList ++
        fmtDec (c.Kernings.getD []).length ++ ", ".toList ++ fmtDec c.Channels ++ ", ".toList ++
        (if c.Kernings.getD [] ≠ [] then
          "BMFONT_".toList ++ name ++ "_KERNINGS_CHAR_".toList ++ fmtDec c.ID
         else "NULL".toList) ++
        "\x7d, // ".toList ++ fmtDec c.ID ++ " ('".toList ++ fmtRune c.ID ++ "')\n".toList) ∧
    (∀ (name : GoString) (id : Nat), (Out.kerningsOpen name id).render =
      "const BMFontKerning ".toList ++
        ("BMFONT_".toList ++ name ++ "_KERNINGS_CHAR_".toList ++ fmtDec id) ++
        "[] = \x7b // '".toList ++ fmtRune id ++ "' \n".toList) ∧
    (∀ (second : Nat) (amount : Int), (Out.kerningRow second amount).render =
      "    \x7b".toList ++ fmtDec second ++ ", ".toList ++ fmtInt amount ++
        "\x7d, // '".toList ++ fmtRune second ++ "' \n".toList) ∧
    Out.kerningsClose.render = "\x7d;\n\n".toList := by
  have hpos : ∀ c : Char, (0 < c.kerningsLen) ↔ c.Kernings.getD [] ≠ [] := by
    intro c
    rw [Char.kerningsLen, List.length_pos]
  refine ⟨kerningArrays_emitItems f, ?_, ?_, ?_, glyphRows_emitItems f, ?_, ?_,
    fun name id => rfl, fun second amount => rfl, rfl⟩
  · intro c
    unfold Char.kerningArray
    by_cases h : 0 < c.kerningsLen
    · rw [if_pos h, if_pos ((hpos c).mp h)]
    · rw [if_neg h, if_neg (fun h2 => h ((hpos c).mpr h2))]
  · intro name id hmem
    rcases emitItems_named f _ hmem with h | h
    · exact h
    · exact absurd h.1 (by simp [Out.declares, Out.forwardDecl, Out.defines])
  · intro hnd c hc
    rw [kerningArrays_emitItems f]
    exact filter_kerningArray_nodup f.glyphs hnd c hc
  · intro i b hib
    obtain ⟨pre, post, hseg⟩ := charsSection_segment f.Name f.Buckets 0 i b hib
    rw [Nat.zero_add] at hseg
    refine ⟨declSection f ++ (tableSection f ++ (kerningSection f.Name f.Buckets ++ pre)),
      post ++ (pageDataItems f.Name 0 f.Pages ++ [Out.footer]), ?_⟩
    rw [emitItems, hseg]
    simp only [List.append_assoc]
  · intro name c
    by_cases h : 0 < c.kerningsLen
    · rw [Out.render, if_pos h, if_pos ((hpos c).mp h)]
      simp only [charRowHead, charRowTail, Ident.text, Char.kerningsLen, List.append_assoc]
    · rw [Out.render, if_neg h, if_neg (fun h2 => h ((hpos c).mpr h2))]
      simp only [charRowHead, charRowTail, Ident.text, Char.kerningsLen, List.append_assoc]

theorem kerning_arrays_of_glyphs_witness :
    ((Font.glyphs
        { Buckets := [⟨65, 66, [{ ID := 65, Kernings := some [(66, -2)] }, { ID := 66 }]⟩] }).map
      (·.ID)).Nodup ∧
      (kerningArrays none (emitItems
        { Buckets := [⟨65, 66, [{ ID := 65, Kernings := some [(66, -2)] }, { ID := 66 }]⟩] })).filter
        (fun a => a.1 = 65) = [(65, [(66, -2)])] ∧
      (kerningArrays none (emitItems
        { Buckets := [⟨65, 66, [{ ID := 65, Kernings := some [(66, -2)] }, { ID := 66 }]⟩] })).filter
        (fun a => a.1 = 66) = [] :=
  ⟨by decide,
    (kerning_arrays_of_glyphs
      { Buckets := [⟨65, 66, [{ ID := 65, Kernings := some [(66, -2)] }, { ID := 66 }]⟩] }).2.2.2.1
      (by decide) { ID := 65, Kernings := some [(66, -2)] } (by decide),
    (kerning_arrays_of_glyphs
      { Buckets := [⟨65, 66, [{ ID := 65, Kernings := some [(66, -2)] }, { ID := 66 }]⟩] }).2.2.2.1
      (by decide) { ID := 66 } (by decide)⟩

/-! ## The C types of the numeric fields -/

/-- C17, evaluated at the failing input: the info line `info face=T
size=65536` gives a font with `Size = 65536` (a `uint32` in the model), the font
struct written by `EmitCFont` has `.size = 65536`, and the emitted types declare
the field as `uint16_t size`, in which 65536 is not representable. -/
theorem size_exceeds_its_c_field :
    Font.parseInfo noFiles emptyFont "info face=T size=65536".toList =
        .ok { emptyFont with Name := "T".toList, Size := 65536 } ∧
      (Out.fontStruct { emptyFont with Name := "T".toList, Size := 65536 }).render =
        ("\nconst struct BMFont BMFONT_T = \x7b\n    .size = 65536,\n    .lineHeight = 0," ++
          "\n\t.base = 0,\n\t.scaleW = 0,\n\t.scaleH = 0,\n\t.isPacked = 0," ++
          "\n\t.aChannelType = ,\n\t.rChannelType = ,\n\t.gChannelType = ," ++
          "\n\t.bChannelType = ,\n\n\t.bucketCount = 0,\n\t.buckets = BMFONT_T_BUCKETS," ++
          "\n\t.pageCount = 0,\n\t.pages = BMFONT_T_PAGES,\n\x7d;\n").toList ∧
      Out.fontStruct { emptyFont with Name := "T".toList, Size := 65536 } ∈
        emitItems { emptyFont with Name := "T".toList, Size := 65536 } ∧
      (typesLines.drop 47).take 5 =
        ["typedef struct BMFont \x7b\n", "  uint16_t scaleW;\n", "  uint16_t scaleH;\n",
         "  uint16_t size;\n", "  uint8_t lineHeight;\n"] ∧
      ¬ 65536 < 2 ^ 16 := by
  refine ⟨by decide, ?_, by decide, by decide, by decide⟩
  set_option maxRecDepth 8000 in decide

end Bmfont
